import Mathlib

/-!
# Verification of the LZSS codec (MichaelDipperstein/lzss)

Shallow embedding of the C sources `lzss.c` (encode/decode state machine),
`brute.c`, `list.c`, `hash.c`, `tree.c` (the four match-finding strategies and
their window-maintenance routines), together with the bit-stream semantics of
`bitfile/bitfile.c` (most-significant-bit-first bit packing, `BitFileGetChar`
failing whenever fewer than 8 bits remain, `BitFileClose` zero-padding the
final partial byte).

Bytes are `Fin 256`; the cyclic buffers are total functions `Nat → Byte`
accessed at pre-wrapped indices, mirroring the C arrays; machine arithmetic on
offsets and lengths is `Nat` arithmetic with explicit `% 2^w` / masking where
the C code masks.
-/

namespace LZSS

/-! ## Constants (`lzlocal.h`) -/

/-- `WINDOW_SIZE` from `lzlocal.h`: size of the sliding window (12 bits). -/
def WINDOW_SIZE : Nat := 4096

/-- `MAX_UNCODED` from `lzlocal.h`: maximum match length that is not encoded. -/
def MAX_UNCODED : Nat := 2

/-- `MAX_CODED` from `lzlocal.h`: `15 + MAX_UNCODED + 1 = 18`. -/
def MAX_CODED : Nat := 15 + MAX_UNCODED + 1

/-- A byte, as stored in the sliding window and lookahead buffers. -/
def Byte : Type := Fin 256

instance : DecidableEq Byte := instDecidableEqFin 256

instance : OfNat Byte n := ⟨⟨n % 256, Nat.mod_lt _ (by norm_num)⟩⟩

/-- The sliding window, `unsigned char slidingWindow[WINDOW_SIZE]`, as a total
function; the code only reads and writes it at indices `< WINDOW_SIZE`. -/
def Window : Type := Nat → Byte

/-- The lookahead buffer, `unsigned char uncodedLookahead[MAX_CODED]`. -/
def Lookahead : Type := Nat → Byte

/-- Pointwise array update, `a[i] = b`. -/
def upd (w : Nat → Byte) (i : Nat) (b : Byte) : Nat → Byte :=
  fun j => if j = i then b else w j

/-- Modelled from the spec: `wrap(index, capacity)` normalizes an offset into
`[0, capacity)` (§4.1).  The macro lives in the revision of `lzlocal.h` that
matches `brute.c`/`list.c`/`hash.c`, which is absent from the snapshot; every
call site passes a non-negative value, where the wrap is reduction modulo the
capacity. -/
def Wrap (value limit : Nat) : Nat := value % limit

/-- `encoded_string_t` from `lzlocal.h`: offset and length of a match. -/
structure EncodedString where
  offset : Nat
  length : Nat
  deriving DecidableEq, Repr

/-! ## Bit-stream semantics (`bitfile/bitfile.c`)

`BitFilePutBit` appends one bit, most significant first within each byte;
`BitFilePutChar` appends the 8 bits of a byte, most significant first.
`BitFileGetBit` consumes the next bit; `BitFileGetChar` consumes the next
8 bits and fails (returns `EOF`) when fewer than 8 bits remain.
`BitFileClose` pads the final partial byte with `0` bits. -/

/-- The value of a bit list read most-significant-bit first
(`BitFileGetChar` reassembling 8 bits). -/
def byteOfBits (bs : List Bool) : Nat :=
  bs.foldl (fun a b => 2 * a + (if b then 1 else 0)) 0

/-- The `width` low bits of `n`, most significant first
(`BitFilePutChar` emitting a byte bit by bit). -/
def bitsOfNat (width n : Nat) : List Bool :=
  match width with
  | 0 => []
  | width' + 1 => bitsOfNat width' (n / 2) ++ [decide (n % 2 = 1)]

/-- `BitFileClose`: pad the stream with `0` bits up to a byte boundary
(`bitBuffer <<= 8 - bitCount` followed by `fputc`). -/
def pad8 (bs : List Bool) : List Bool :=
  bs ++ List.replicate ((8 - bs.length % 8) % 8) false

/-! ## Wire-format packing (`lzss.c` lines 176–183 and 295–308)

The encoder emits, for an encoded unit, the flag bit `ENCODED` followed by
`(offset & 0x0FFF) >> 4` and `((offset & 0x000F) << 4) | (length - (MAX_UNCODED + 1))`.
The decoder reads the two bytes back and unpacks
`offset = (byte1 << 4) | ((byte2 & 0xF0) >> 4)`, `length = (byte2 & 0x0F) + MAX_UNCODED + 1`. -/

/-- First payload byte of an encoded unit:
`(unsigned char)((matchData.offset & 0x0FFF) >> 4)`. -/
def packByte1 (offset : Nat) : Nat := (offset % 4096) / 16

/-- Second payload byte of an encoded unit:
`(unsigned char)(((matchData.offset & 0x000F) << 4) | (matchData.length - (MAX_UNCODED + 1)))`. -/
def packByte2 (offset length : Nat) : Nat :=
  (offset % 16) * 16 + (length - (MAX_UNCODED + 1))

/-- Decoder unpacking of the offset (`code.offset <<= 4; code.offset |= ((code.length & 0x00F0) >> 4)`). -/
def unpackOffset (b1 b2 : Nat) : Nat := b1 * 16 + (b2 % 256) / 16

/-- Decoder unpacking of the length (`code.length = (code.length & 0x000F) + MAX_UNCODED + 1`). -/
def unpackLength (b2 : Nat) : Nat := b2 % 16 + MAX_UNCODED + 1

/-! ### C8: pack/unpack inverse -/

/-- **C8.** For every offset in `[0, WINDOW_SIZE)` and every length in
`[MAX_UNCODED+1, MAX_CODED]`, the decoder's unpacking of the two payload bytes
written by the encoder recovers exactly the same offset and length. -/
theorem pack_unpack_inverse (offset length : Nat)
    (hoff : offset < WINDOW_SIZE)
    (hlo : MAX_UNCODED + 1 ≤ length) (hhi : length ≤ MAX_CODED) :
    unpackOffset (packByte1 offset) (packByte2 offset length) = offset ∧
    unpackLength (packByte2 offset length) = length := by
  simp only [unpackOffset, unpackLength, packByte1, packByte2,
    MAX_UNCODED, MAX_CODED, WINDOW_SIZE] at *
  constructor <;> omega

/-- Witness for C8 at offset `2748`, length `7`. -/
theorem pack_unpack_inverse_witness :
    unpackOffset (packByte1 2748) (packByte2 2748 7) = 2748 ∧
    unpackLength (packByte2 2748 7) = 7 :=
  pack_unpack_inverse 2748 7 (by decide) (by decide) (by decide)

/-! ## The decoder (`DecodeLZSS`, `lzss.c` lines 230–337)

The loop reads one flag bit per unit.  `UNCODED` (bit `1`): read one byte,
emit it, store it at `slidingWindow[nextChar]`, advance `nextChar`.
`ENCODED` (bit `0`): read two bytes, unpack the 12-bit offset and 4-bit
length code, copy `length` bytes from the window through the staging buffer
`uncodedLookahead` to the output, then copy them back into the window at
`nextChar`.  Any failing read (`EOF`, i.e. fewer than 8 remaining bits for a
byte read, or no remaining bit for the flag) breaks out of the loop.

`decodeRun` also returns the trace of `(offset, length)` pairs of the
`ENCODED` units it processed, so that the bounds (C10) are properties of the
decoder itself. -/

/-- A byte value obtained by `BitFileGetChar`, as a `Byte`. -/
def byteValOf (bs : List Bool) : Byte :=
  ⟨byteOfBits bs % 256, Nat.mod_lt _ (by norm_num)⟩

/-- The staged copy of an encoded unit: the decoder's first `for` loop, which
reads `slidingWindow[(code.offset + i) % WINDOW_SIZE]` for `i < code.length`
into `uncodedLookahead` (and the output). -/
def stagedBytes (w : Window) (offset length : Nat) : List Byte :=
  (List.range length).map (fun i => w ((offset + i) % WINDOW_SIZE))

/-- The decoder's second `for` loop: write the staged bytes back into the
sliding window at `nextChar`, `nextChar + 1`, …, modulo `WINDOW_SIZE`. -/
def writeBack (w : Window) (nextChar : Nat) : List Byte → Window
  | [] => w
  | b :: rest => writeBack (upd w (nextChar % WINDOW_SIZE) b) (nextChar + 1) rest

/-- The decode loop of `DecodeLZSS`, over a bit stream.  Returns the emitted
bytes together with the `(offset, length)` trace of the `ENCODED` units. -/
def decodeRun : List Bool → Window → Nat → List Byte × List (Nat × Nat)
  | [], _, _ => ([], [])
  | true :: rest, w, nextChar =>
    -- UNCODED: read one literal byte
    if 8 ≤ rest.length then
      let c := byteValOf (rest.take 8)
      let r := decodeRun (rest.drop 8) (upd w (nextChar % WINDOW_SIZE) c)
        ((nextChar + 1) % WINDOW_SIZE)
      (c :: r.1, r.2)
    else ([], [])
  | false :: rest, w, nextChar =>
    -- ENCODED: read offset byte, then length byte
    if 8 ≤ rest.length then
      if 8 ≤ (rest.drop 8).length then
        let b1 := byteOfBits (rest.take 8)
        let b2 := byteOfBits ((rest.drop 8).take 8)
        let offset := unpackOffset b1 b2
        let length := unpackLength b2
        let staged := stagedBytes w offset length
        let r := decodeRun ((rest.drop 8).drop 8) (writeBack w nextChar staged)
          ((nextChar + length) % WINDOW_SIZE)
        (staged ++ r.1, (offset, length) :: r.2)
      else ([], [])
    else ([], [])
termination_by bs => bs.length
decreasing_by
  all_goals simp only [List.length_drop, List.length_cons]; omega

/-- Unfolding: one complete UNCODED unit at the head of the stream. -/
theorem decodeRun_uncoded (payload rest : List Bool) (h : payload.length = 8)
    (w : Window) (nc : Nat) :
    decodeRun (true :: (payload ++ rest)) w nc =
      ((byteValOf payload) ::
          (decodeRun rest (upd w (nc % WINDOW_SIZE) (byteValOf payload))
            ((nc + 1) % WINDOW_SIZE)).1,
        (decodeRun rest (upd w (nc % WINDOW_SIZE) (byteValOf payload))
          ((nc + 1) % WINDOW_SIZE)).2) := by
  rw [decodeRun]
  rw [if_pos (by simp [h])]
  rw [List.take_left' h, List.drop_left' h]

/-- Unfolding: one complete ENCODED unit at the head of the stream. -/
theorem decodeRun_encoded (p1 p2 rest : List Bool)
    (h1 : p1.length = 8) (h2 : p2.length = 8) (w : Window) (nc : Nat) :
    decodeRun (false :: (p1 ++ (p2 ++ rest))) w nc =
      (stagedBytes w (unpackOffset (byteOfBits p1) (byteOfBits p2))
          (unpackLength (byteOfBits p2)) ++
        (decodeRun rest
          (writeBack w nc (stagedBytes w (unpackOffset (byteOfBits p1) (byteOfBits p2))
            (unpackLength (byteOfBits p2))))
          ((nc + unpackLength (byteOfBits p2)) % WINDOW_SIZE)).1,
        (unpackOffset (byteOfBits p1) (byteOfBits p2), unpackLength (byteOfBits p2)) ::
        (decodeRun rest
          (writeBack w nc (stagedBytes w (unpackOffset (byteOfBits p1) (byteOfBits p2))
            (unpackLength (byteOfBits p2))))
          ((nc + unpackLength (byteOfBits p2)) % WINDOW_SIZE)).2) := by
  rw [decodeRun]
  rw [if_pos (by simp [h1]), List.take_left' h1, List.drop_left' h1]
  rw [if_pos (by simp [h2]), List.take_left' h2, List.drop_left' h2]

/-- Unfolding: a stream too short to complete an UNCODED unit decodes to nothing. -/
theorem decodeRun_uncoded_short (rest : List Bool) (h : rest.length < 8)
    (w : Window) (nc : Nat) : decodeRun (true :: rest) w nc = ([], []) := by
  rw [decodeRun, if_neg (by omega)]

/-- Unfolding: a stream too short to complete an ENCODED unit decodes to nothing. -/
theorem decodeRun_encoded_short (rest : List Bool) (h : rest.length < 16)
    (w : Window) (nc : Nat) : decodeRun (false :: rest) w nc = ([], []) := by
  rw [decodeRun]
  by_cases h8 : 8 ≤ rest.length
  · rw [if_pos h8, if_neg (by simp only [List.length_drop]; omega)]
  · rw [if_neg h8]

/-- The initial sliding window: filled with spaces (`' '` = 32). -/
def initWindow : Window := fun _ => (32 : Byte)

/-- `DecodeLZSS` on a bit stream: emitted bytes only. -/
def decodeLZSS (bs : List Bool) : List Byte :=
  (decodeRun bs initWindow 0).1

/-! ### C10: decoder bounds safety -/

/-- `byteOfBits` of at most 8 bits is below 256. -/
theorem byteOfBits_lt (bs : List Bool) (h : bs.length ≤ 8) : byteOfBits bs < 256 := by
  have key : ∀ (l : List Bool) (a : Nat),
      l.foldl (fun a b => 2 * a + (if b then 1 else 0)) a < (a + 1) * 2 ^ l.length := by
    intro l
    induction l with
    | nil => intro a; simp
    | cons b t ih =>
      intro a
      have h1 := ih (2 * a + (if b then 1 else 0))
      have h2 : (2 * a + (if b then 1 else 0) + 1) * 2 ^ t.length ≤
          (a + 1) * 2 ^ (t.length + 1) := by
        have hb : (if b then 1 else 0) ≤ 1 := by cases b <;> simp
        calc (2 * a + (if b then 1 else 0) + 1) * 2 ^ t.length
            ≤ (2 * (a + 1)) * 2 ^ t.length := Nat.mul_le_mul_right _ (by omega)
          _ = (a + 1) * 2 ^ (t.length + 1) := by ring
      calc List.foldl (fun a b => 2 * a + (if b then 1 else 0))
            (2 * a + (if b then 1 else 0)) t
          < (2 * a + (if b then 1 else 0) + 1) * 2 ^ t.length := h1
        _ ≤ (a + 1) * 2 ^ (t.length + 1) := h2
  have h1 := key bs 0
  have h2 : (0 + 1) * 2 ^ bs.length ≤ 2 ^ 8 := by
    simp only [Nat.one_mul, Nat.zero_add]
    exact Nat.pow_le_pow_right (by norm_num) h
  simpa [byteOfBits] using lt_of_lt_of_le h1 h2

/-- **C10.** For every input bit stream (arbitrary, even corrupt), every
`ENCODED` unit the decoder processes has
`length = (low nibble of second payload byte) + MAX_UNCODED + 1 ∈ [3, 18]` and
a 12-bit offset in `[0, WINDOW_SIZE)`; hence the staged writes
`uncodedLookahead[i]`, `i < length`, stay within the `MAX_CODED`-sized staging
buffer, and all window accesses, taken modulo `WINDOW_SIZE`, are in bounds. -/
theorem decode_bounds (bs : List Bool) (w : Window) (nextChar : Nat) :
    ∀ p ∈ (decodeRun bs w nextChar).2,
      MAX_UNCODED + 1 ≤ p.2 ∧ p.2 ≤ MAX_CODED ∧ p.1 < WINDOW_SIZE := by
  suffices h : ∀ (n : Nat) (bs : List Bool), bs.length ≤ n → ∀ (w : Window) (nc : Nat),
      ∀ p ∈ (decodeRun bs w nc).2,
        MAX_UNCODED + 1 ≤ p.2 ∧ p.2 ≤ MAX_CODED ∧ p.1 < WINDOW_SIZE by
    exact h bs.length bs le_rfl w nextChar
  intro n
  induction n with
  | zero =>
    intro bs hlen w nc p hp
    rw [List.length_eq_zero.mp (Nat.le_zero.mp hlen)] at hp
    simp [decodeRun] at hp
  | succ n ih =>
    intro bs hlen w nc p hp
    match bs with
    | [] => simp [decodeRun] at hp
    | true :: rest =>
      rw [decodeRun] at hp
      simp only [List.length_cons, Nat.succ_le_succ_iff] at hlen
      split_ifs at hp with h1
      · exact ih (rest.drop 8) (by simp only [List.length_drop]; omega) _ _ p hp
      · simp at hp
    | false :: rest =>
      rw [decodeRun] at hp
      simp only [List.length_cons, Nat.succ_le_succ_iff] at hlen
      split_ifs at hp with h1 h2
      · simp only [List.mem_cons] at hp
        rcases hp with rfl | hp
        · refine ⟨by simp [unpackLength, MAX_UNCODED], ?_, ?_⟩
          · have : byteOfBits ((rest.drop 8).take 8) % 16 < 16 := Nat.mod_lt _ (by norm_num)
            simp only [unpackLength, MAX_UNCODED, MAX_CODED]
            omega
          · have hb1 : byteOfBits (rest.take 8) < 256 := by
              apply byteOfBits_lt
              simp [List.length_take]
            have hb2 : byteOfBits ((rest.drop 8).take 8) % 256 / 16 < 16 := by
              have : byteOfBits ((rest.drop 8).take 8) % 256 < 256 :=
                Nat.mod_lt _ (by norm_num)
              omega
            simp only [unpackOffset, WINDOW_SIZE]
            omega
        · exact ih ((rest.drop 8).drop 8) (by simp only [List.length_drop]; omega) _ _ p hp
      · simp at hp
      · simp at hp

/-- Witness for C10 at a concrete corrupt input: one ENCODED unit whose
payload is all `1` bits decodes to the unit `(4095, 18)`, in bounds. -/
theorem decode_bounds_witness :
    MAX_UNCODED + 1 ≤ 18 ∧ 18 ≤ MAX_CODED ∧ 4095 < WINDOW_SIZE :=
  decode_bounds (false :: List.replicate 16 true) initWindow 0 (4095, 18)
    (by rw [decodeRun]; norm_num [byteOfBits, unpackOffset, unpackLength, MAX_UNCODED]
        left; decide)

/-! ### C9: silent truncation on end-of-stream mid-unit -/

/-- A bit stream consisting only of complete wire-format units: for each unit
the flag bit and its whole payload are present. -/
inductive CompleteStream : List Bool → Prop
  | nil : CompleteStream []
  | uncoded (payload : List Bool) (rest : List Bool) :
      payload.length = 8 → CompleteStream rest →
      CompleteStream (true :: (payload ++ rest))
  | encoded (payload : List Bool) (rest : List Bool) :
      payload.length = 16 → CompleteStream rest →
      CompleteStream (false :: (payload ++ rest))

/-- A strict prefix of a single unit: nothing, or a flag bit followed by fewer
payload bits than the unit requires. -/
def PartialUnit (q : List Bool) : Prop :=
  q = [] ∨
  (∃ r, q = true :: r ∧ r.length < 8) ∨
  (∃ r, q = false :: r ∧ r.length < 16)

/-- A partial unit alone decodes to nothing (the first failing read breaks the
loop before any output for that unit). -/
theorem decodeRun_partialUnit (q : List Bool) (hq : PartialUnit q)
    (w : Window) (nc : Nat) : decodeRun q w nc = ([], []) := by
  rcases hq with rfl | ⟨r, rfl, hr⟩ | ⟨r, rfl, hr⟩
  · rw [decodeRun]
  · exact decodeRun_uncoded_short r hr w nc
  · exact decodeRun_encoded_short r hr w nc

/-- Appending a strict prefix of a unit to a stream of complete units leaves
both the emitted bytes and the unit trace unchanged. -/
theorem decodeRun_complete_append (p q : List Bool) (hp : CompleteStream p)
    (hq : PartialUnit q) (w : Window) (nc : Nat) :
    (decodeRun (p ++ q) w nc).1 = (decodeRun p w nc).1 := by
  induction hp generalizing w nc with
  | nil =>
    simp only [List.nil_append]
    rw [decodeRun_partialUnit q hq w nc, decodeRun]
  | uncoded payload rest hlen _ ih =>
    rw [List.cons_append, List.append_assoc]
    rw [decodeRun_uncoded payload (rest ++ q) hlen, decodeRun_uncoded payload rest hlen]
    rw [ih]
  | encoded payload rest hlen _ ih =>
    have hsplit : payload = payload.take 8 ++ payload.drop 8 :=
      (List.take_append_drop 8 payload).symm
    have ht8 : (payload.take 8).length = 8 := by
      rw [List.length_take]; omega
    have hd8 : (payload.drop 8).length = 8 := by
      rw [List.length_drop]; omega
    rw [List.cons_append, List.append_assoc, hsplit, List.append_assoc, List.append_assoc]
    rw [decodeRun_encoded _ _ _ ht8 hd8, decodeRun_encoded _ _ _ ht8 hd8]
    rw [ih]

/-- **C9.** When the input stream ends in the middle of a unit (a flag bit was
read but the stream ends before the unit's payload is complete), decoding
stops exactly as on a clean end-of-stream: all bytes of the previously
completed units are emitted, the partial unit contributes no output byte, and
no error is signaled (the decoder has no error outcome at all). -/
theorem decode_truncation (p q : List Bool) (hp : CompleteStream p)
    (hq : PartialUnit q) (w : Window) (nc : Nat) :
    (decodeRun (p ++ q) w nc).1 = (decodeRun p w nc).1 :=
  decodeRun_complete_append p q hp hq w nc

/-- Witness for C9: one complete UNCODED unit (byte `0x41`) followed by a
truncated ENCODED flag decodes exactly like the complete unit alone. -/
theorem decode_truncation_witness :
    (decodeRun ((true :: List.replicate 8 true) ++ [false, true, true]) initWindow 0).1 =
      (decodeRun (true :: List.replicate 8 true) initWindow 0).1 :=
  decode_truncation (true :: List.replicate 8 true) [false, true, true]
    (by
      have : (true :: List.replicate 8 true) = true :: (List.replicate 8 true ++ []) := by simp
      rw [this]
      exact CompleteStream.uncoded _ _ (by simp) CompleteStream.nil)
    (Or.inr (Or.inr ⟨[true, true], rfl, by simp⟩)) initWindow 0

/-! ## Match finders

### Shared inner comparison loop (`brute.c` 117–126, `list.c` 145–153, `hash.c` 197–206)

`j = 1; while (uncoded[j] == slidingWindow[Wrap(i + j, WINDOW_SIZE)]) { j++; if (j == uncodedLen) break; }`
Counting down `uncodedLen - j` makes the recursion structural. -/

/-- The inner byte-comparison loop: extend a match at window position `i`
from byte `j` while lookahead and window agree, stopping at `uncodedLen`.
`count` is `uncodedLen - j`. -/
def matchLenAux (w : Window) (uncoded : Nat → Byte) (i : Nat) : Nat → Nat → Nat
  | 0, j => j
  | count + 1, j =>
    if w (Wrap (i + j) WINDOW_SIZE) = uncoded j then matchLenAux w uncoded i count (j + 1)
    else j

/-- Match length at window position `i` as computed by `brute.c`/`list.c`/`hash.c`
after the first byte: the loop starts at `j = 1`. -/
def matchLenFrom1 (w : Window) (uncoded : Nat → Byte) (uncodedLen i : Nat) : Nat :=
  matchLenAux w uncoded i (uncodedLen - 1) 1

/-! ### Brute-force search (`brute.c` `FindMatch`) -/

/-- The scan loop of `brute.c` `FindMatch`: try candidate `i`, carry the
persistent `j`, record a strictly longer match, break once `j == uncodedLen`,
advance `i` cyclically and stop on returning to `windowHead`. -/
def bruteLoop (w : Window) (uncoded : Nat → Byte) (uncodedLen windowHead : Nat) :
    Nat → Nat → Nat → EncodedString → EncodedString
  | 0, _, _, best => best
  | fuel + 1, i, j0, best =>
    let p : Nat × EncodedString :=
      if w i = uncoded 0 then
        let j := matchLenFrom1 w uncoded uncodedLen i
        (j, if j > best.length then ⟨i, j⟩ else best)
      else (j0, best)
    if p.1 = uncodedLen then p.2
    else
      let i' := Wrap (i + 1) WINDOW_SIZE
      if i' = windowHead then p.2
      else bruteLoop w uncoded uncodedLen windowHead fuel i' p.1 p.2

/-- The unwrapped copy of the uncoded lookahead built at the top of each
`FindMatch` (`uncoded[i] = uncodedLookahead[Wrap(uncodedHead + i, MAX_CODED)]`);
only indices below `uncodedLen` are ever read. -/
def uncodedOf (la : Lookahead) (uncodedHead : Nat) : Nat → Byte :=
  fun k => la (Wrap (uncodedHead + k) MAX_CODED)

/-- `FindMatch` of `brute.c`: scan every window position starting at
`windowHead`; return a zero match when `uncodedLen ≤ MAX_UNCODED`. -/
def FindMatchBrute (w : Window) (la : Lookahead)
    (windowHead uncodedHead uncodedLen : Nat) : EncodedString :=
  if uncodedLen ≤ MAX_UNCODED then ⟨0, 0⟩
  else
    bruteLoop w (uncodedOf la uncodedHead) uncodedLen windowHead
      (WINDOW_SIZE + 1) windowHead 0 ⟨0, 0⟩

/-! ### Linked-list search (`list.c`) -/

/-- `NULL_INDEX` of `list.c`/`hash.c`: `WINDOW_SIZE + 1`. -/
def NULL_INDEX : Nat := WINDOW_SIZE + 1

/-- The state of the list strategy: 256 list heads (`lists`, indexed by byte
value) and the `next` array over window positions. -/
structure ListState where
  lists : Nat → Nat
  nxt : Nat → Nat

/-- The list traversal of `list.c` `FindMatch`: the list guarantees the first
byte matched, so `j` starts at 1 unconditionally. -/
def listFindLoop (w : Window) (uncoded : Nat → Byte) (uncodedLen : Nat)
    (nxt : Nat → Nat) : Nat → Nat → EncodedString → EncodedString
  | 0, _, best => best
  | fuel + 1, i, best =>
    if i = NULL_INDEX then best
    else
      let j := matchLenFrom1 w uncoded uncodedLen i
      let best' := if j > best.length then (⟨i, j⟩ : EncodedString) else best
      if j = uncodedLen then best'
      else listFindLoop w uncoded uncodedLen nxt fuel (nxt i) best'

/-- `FindMatch` of `list.c`: walk the list headed by the lookahead's first
byte. -/
def FindMatchList (st : ListState) (w : Window) (la : Lookahead)
    (uncodedHead uncodedLen : Nat) : EncodedString :=
  if uncodedLen ≤ MAX_UNCODED then ⟨0, 0⟩
  else
    listFindLoop w (uncodedOf la uncodedHead) uncodedLen st.nxt (WINDOW_SIZE + 1)
      (st.lists (la uncodedHead).val) ⟨0, 0⟩

/-! ### Hash-table search (`hash.c`) -/

/-- `HASH_SIZE` of `hash.c`: `WINDOW_SIZE >> 2`. -/
def HASH_SIZE : Nat := WINDOW_SIZE / 4

/-- `HashKey` of `hash.c`: `hashKey = ((hashKey << 5) ^ buffer[Wrap(offset + i, bufferLen)]) % HASH_SIZE`
over the first `MAX_UNCODED + 1` bytes. -/
def hashKey (buffer : Nat → Byte) (offset bufferLen : Nat) : Nat :=
  (List.range (MAX_UNCODED + 1)).foldl
    (fun k i => ((k <<< 5) ^^^ (buffer (Wrap (offset + i) bufferLen)).val) % HASH_SIZE) 0

/-- The state of the hash strategy: `HASH_SIZE` bucket heads and the `next`
array over window positions. -/
structure HashState where
  hashTable : Nat → Nat
  nxt : Nat → Nat

/-- The bucket traversal of `hash.c` `FindMatch`: candidates may be hash
collisions, so the first byte is checked; `j` is persistent across
iterations. -/
def hashFindLoop (w : Window) (uncoded : Nat → Byte) (uncodedLen : Nat)
    (nxt : Nat → Nat) : Nat → Nat → Nat → EncodedString → EncodedString
  | 0, _, _, best => best
  | fuel + 1, i, j0, best =>
    if i = NULL_INDEX then best
    else
      let p : Nat × EncodedString :=
        if w i = uncoded 0 then
          let j := matchLenFrom1 w uncoded uncodedLen i
          (j, if j > best.length then ⟨i, j⟩ else best)
        else (j0, best)
      if p.1 = uncodedLen then p.2
      else hashFindLoop w uncoded uncodedLen nxt fuel (nxt i) p.1 p.2

/-- `FindMatch` of `hash.c`: walk the bucket of the lookahead prefix's hash. -/
def FindMatchHash (st : HashState) (w : Window) (la : Lookahead)
    (uncodedHead uncodedLen : Nat) : EncodedString :=
  if uncodedLen ≤ MAX_UNCODED then ⟨0, 0⟩
  else
    hashFindLoop w (uncodedOf la uncodedHead) uncodedLen st.nxt (WINDOW_SIZE + 1)
      (st.hashTable (hashKey (uncodedOf la uncodedHead) 0 MAX_CODED)) 0 ⟨0, 0⟩

/-! ### Binary-tree search (`tree.c`) -/

/-- `ROOT_INDEX` of `tree.c`: `WINDOW_SIZE + 1`. -/
def ROOT_INDEX : Nat := WINDOW_SIZE + 1

/-- `NULL_INDEX` of `tree.c`: `ROOT_INDEX + 1`. -/
def TREE_NULL : Nat := ROOT_INDEX + 1

/-- `tree_node_t` of `tree.c`. -/
structure TreeNode where
  leftChild : Nat
  rightChild : Nat
  parent : Nat
  deriving DecidableEq, Repr

/-- The state of the tree strategy: one node per window position and the root
index. -/
structure TreeState where
  tree : Nat → TreeNode
  treeRoot : Nat

/-- The inner byte loop of `tree.c` `FindMatch`:
`while ((compare = slidingWindow[Wrap(i+j, WINDOW_SIZE)] - uncodedLookahead[Wrap(uncodedHead+j, MAX_CODED)]) == 0) { if (j >= MAX_CODED) break; j++; }`,
returning the final `(j, compare)`.  `count` is `MAX_CODED - j`. -/
def treeMatchLenAux (w : Window) (la : Lookahead) (i uncodedHead : Nat) :
    Nat → Nat → Nat × Int
  | 0, j =>
    let c : Int := ((w (Wrap (i + j) WINDOW_SIZE)).val : Int) -
      ((la (Wrap (uncodedHead + j) MAX_CODED)).val : Int)
    (j, c)
  | count + 1, j =>
    let c : Int := ((w (Wrap (i + j) WINDOW_SIZE)).val : Int) -
      ((la (Wrap (uncodedHead + j) MAX_CODED)).val : Int)
    if c = 0 then treeMatchLenAux w la i uncodedHead count (j + 1) else (j, c)

/-- The root-to-leaf descent of `tree.c` `FindMatch`, carrying the persistent
`j`: compare the node's first byte, extend on equality, record a strictly
longer match, force `length = MAX_CODED` and stop once `j >= MAX_CODED`,
otherwise branch by the sign of the last comparison. -/
def treeFindLoop (ts : TreeState) (w : Window) (la : Lookahead) (uncodedHead : Nat) :
    Nat → Nat → Nat → EncodedString → EncodedString
  | 0, _, _, best => best
  | fuel + 1, i, j0, best =>
    if i = TREE_NULL then best
    else
      let c0 : Int := ((w i).val : Int) - ((la uncodedHead).val : Int)
      let p : Nat × Int × EncodedString :=
        if c0 = 0 then
          let jc := treeMatchLenAux w la i uncodedHead (MAX_CODED - 1) 1
          (jc.1, jc.2, if jc.1 > best.length then ⟨i, jc.1⟩ else best)
        else (j0, c0, best)
      if MAX_CODED ≤ p.1 then ⟨p.2.2.offset, MAX_CODED⟩
      else if p.2.1 > 0 then
        treeFindLoop ts w la uncodedHead fuel ((ts.tree i).leftChild) p.1 p.2.2
      else
        treeFindLoop ts w la uncodedHead fuel ((ts.tree i).rightChild) p.1 p.2.2

/-- `FindMatch` of `tree.c`: descend from the root.  This revision takes no
lookahead-length parameter; it always compares against the full
`MAX_CODED`-byte lookahead buffer. -/
def FindMatchTree (ts : TreeState) (w : Window) (la : Lookahead)
    (windowHead uncodedHead : Nat) : EncodedString :=
  treeFindLoop ts w la uncodedHead (WINDOW_SIZE + 2) ts.treeRoot 0 ⟨0, 0⟩

/-! ## The "first-seen longest" specification (C4)

Independent description of the search policy: over a candidate list, the match
length is the maximum of the per-candidate match lengths, and the offset is the
first candidate attaining it. -/

/-- Per-candidate match length of `brute.c`/`hash.c`: zero unless the first
byte matches, then the inner loop from `j = 1`. -/
def lcpChecked (w : Window) (uncoded : Nat → Byte) (uncodedLen i : Nat) : Nat :=
  if w i = uncoded 0 then matchLenFrom1 w uncoded uncodedLen i else 0

/-- Per-candidate match length of `list.c`: the list is trusted for the first
byte, so the count starts at 1 regardless. -/
def lcpTrusted (w : Window) (uncoded : Nat → Byte) (uncodedLen i : Nat) : Nat :=
  matchLenFrom1 w uncoded uncodedLen i

/-- First-seen-longest selection over a candidate list: the earliest candidate
of maximal nonzero match length, else the zero match. -/
def bestSpec (lcp : Nat → Nat) : List Nat → EncodedString
  | [] => ⟨0, 0⟩
  | i :: rest =>
    let b := bestSpec lcp rest
    if b.length ≤ lcp i ∧ 0 < lcp i then ⟨i, lcp i⟩ else b

/-- The maximal per-candidate match length over a candidate list. -/
def maxLcp (lcp : Nat → Nat) (cands : List Nat) : Nat :=
  cands.foldr (fun i m => max (lcp i) m) 0

/-- The candidates of `brute.c`: every window position, starting at
`windowHead` and advancing cyclically. -/
def rotation (windowHead : Nat) : List Nat :=
  (List.range WINDOW_SIZE).map (fun k => Wrap (windowHead + k) WINDOW_SIZE)

/-- Walk of a `next`-linked list from head `i` (the candidates of
`list.c`/`hash.c` in visiting order), with fuel. -/
def chainN (nxt : Nat → Nat) : Nat → Nat → List Nat
  | 0, _ => []
  | fuel + 1, i => if i = NULL_INDEX then [] else i :: chainN nxt fuel (nxt i)

/-- Keep the accumulated best unless the new result is strictly longer
(the `if (j > matchData.length)` update policy). -/
def mergeBest (best r : EncodedString) : EncodedString :=
  if best.length < r.length then r else best

/-! ### Bounds and selection properties of the inner loop and the spec -/

theorem matchLenAux_le (w : Window) (uncoded : Nat → Byte) (i : Nat) :
    ∀ (count j : Nat), matchLenAux w uncoded i count j ≤ j + count := by
  intro count
  induction count with
  | zero => intro j; simp [matchLenAux]
  | succ c ih =>
    intro j
    rw [matchLenAux]
    split
    · have := ih (j + 1); omega
    · omega

theorem matchLenAux_ge (w : Window) (uncoded : Nat → Byte) (i : Nat) :
    ∀ (count j : Nat), j ≤ matchLenAux w uncoded i count j := by
  intro count
  induction count with
  | zero => intro j; simp [matchLenAux]
  | succ c ih =>
    intro j
    rw [matchLenAux]
    split
    · have := ih (j + 1); omega
    · omega

theorem matchLenFrom1_le (w : Window) (uncoded : Nat → Byte) (uncodedLen i : Nat)
    (h : 1 ≤ uncodedLen) : matchLenFrom1 w uncoded uncodedLen i ≤ uncodedLen := by
  have := matchLenAux_le w uncoded i (uncodedLen - 1) 1
  unfold matchLenFrom1
  omega

theorem matchLenFrom1_ge (w : Window) (uncoded : Nat → Byte) (uncodedLen i : Nat) :
    1 ≤ matchLenFrom1 w uncoded uncodedLen i :=
  matchLenAux_ge w uncoded i (uncodedLen - 1) 1

theorem lcpChecked_le (w : Window) (uncoded : Nat → Byte) (uncodedLen i : Nat)
    (h : 1 ≤ uncodedLen) : lcpChecked w uncoded uncodedLen i ≤ uncodedLen := by
  unfold lcpChecked
  split
  · exact matchLenFrom1_le w uncoded uncodedLen i h
  · omega

theorem lcpTrusted_le (w : Window) (uncoded : Nat → Byte) (uncodedLen i : Nat)
    (h : 1 ≤ uncodedLen) : lcpTrusted w uncoded uncodedLen i ≤ uncodedLen :=
  matchLenFrom1_le w uncoded uncodedLen i h

theorem maxLcp_cons (lcp : Nat → Nat) (i : Nat) (rest : List Nat) :
    maxLcp lcp (i :: rest) = max (lcp i) (maxLcp lcp rest) := rfl

/-- The selected length is the maximal candidate match length. -/
theorem bestSpec_length (lcp : Nat → Nat) :
    ∀ cands : List Nat, (bestSpec lcp cands).length = maxLcp lcp cands := by
  intro cands
  induction cands with
  | nil => simp [bestSpec, maxLcp]
  | cons i rest ih =>
    rw [bestSpec, maxLcp_cons]
    split
    · next h =>
      rw [ih] at h
      show lcp i = max (lcp i) (maxLcp lcp rest)
      omega
    · next h =>
      rw [ih] at h ⊢
      push_neg at h
      rcases Nat.lt_or_ge (lcp i) (maxLcp lcp rest) with h1 | h1
      · omega
      · have := h h1
        omega

/-- When no candidate matches at all, the zero match is returned. -/
theorem bestSpec_zero (lcp : Nat → Nat) :
    ∀ cands : List Nat, maxLcp lcp cands = 0 → bestSpec lcp cands = ⟨0, 0⟩ := by
  intro cands
  induction cands with
  | nil => intro _; rfl
  | cons i rest ih =>
    intro h
    rw [maxLcp_cons] at h
    rw [bestSpec, if_neg (by omega), ih (by omega)]

/-- The selected offset is the first candidate attaining the maximal match
length (ties broken by visiting order). -/
theorem bestSpec_find (lcp : Nat → Nat) :
    ∀ cands : List Nat, 0 < maxLcp lcp cands →
      cands.find? (fun j => lcp j == maxLcp lcp cands) =
        some (bestSpec lcp cands).offset := by
  intro cands
  induction cands with
  | nil => intro h; simp [maxLcp] at h
  | cons i rest ih =>
    intro h
    rw [maxLcp_cons] at h ⊢
    by_cases hi : lcp i = max (lcp i) (maxLcp lcp rest)
    · rw [List.find?_cons_of_pos _ (by simp only [beq_iff_eq]; omega)]
      rw [bestSpec, if_pos (by rw [bestSpec_length]; omega)]
    · have h1 : lcp i < maxLcp lcp rest := by omega
      have h2 : max (lcp i) (maxLcp lcp rest) = maxLcp lcp rest := by omega
      rw [List.find?_cons_of_neg _ (by simp only [beq_iff_eq]; omega)]
      rw [bestSpec, if_neg (by rw [bestSpec_length]; omega)]
      rw [h2]
      exact ih (by omega)

@[simp] theorem EncodedString.length_mk (o l : Nat) :
    (⟨o, l⟩ : EncodedString).length = l := rfl

@[simp] theorem EncodedString.offset_mk (o l : Nat) :
    (⟨o, l⟩ : EncodedString).offset = o := rfl

theorem maxLcp_le (lcp : Nat → Nat) (B : Nat) (h : ∀ i, lcp i ≤ B) :
    ∀ cands : List Nat, maxLcp lcp cands ≤ B := by
  intro cands
  induction cands with
  | nil => simp [maxLcp]
  | cons i rest ih => rw [maxLcp_cons]; have := h i; omega

/-- One search step commutes with first-seen-longest selection: folding the
candidate `i` into the accumulator first, then selecting over the tail, equals
selecting over `i :: tail` against the old accumulator. -/
theorem mergeBest_step (best : EncodedString) (i lcpv : Nat) (bRest : EncodedString) :
    mergeBest best (if bRest.length ≤ lcpv ∧ 0 < lcpv then ⟨i, lcpv⟩ else bRest) =
      mergeBest (if best.length < lcpv then (⟨i, lcpv⟩ : EncodedString) else best) bRest := by
  unfold mergeBest
  split_ifs <;> first
    | rfl
    | (simp_all only [EncodedString.length_mk]; omega)

/-- Breaking at a candidate of full length returns that candidate: it is also
what first-seen-longest selection over the whole remaining candidate list
yields. -/
theorem mergeBest_break (best : EncodedString) (lcp : Nat → Nat) (i lcpv : Nat)
    (tail : List Nat) (hlcpi : lcp i = lcpv) (hmax : maxLcp lcp tail ≤ lcpv)
    (h0 : 0 < lcpv) (hb : best.length < lcpv) :
    mergeBest best (bestSpec lcp (i :: tail)) = ⟨i, lcpv⟩ := by
  rw [bestSpec, if_pos (by rw [bestSpec_length]; omega)]
  unfold mergeBest
  rw [if_pos (by simp only [EncodedString.length_mk]; omega), hlcpi]

/-- Starting the search from the zero match, the result is exactly the
first-seen-longest selection (a zero-length selection is the zero match). -/
theorem mergeBest_zero_bestSpec (lcp : Nat → Nat) (cands : List Nat) :
    mergeBest ⟨0, 0⟩ (bestSpec lcp cands) = bestSpec lcp cands := by
  rcases Nat.eq_zero_or_pos (maxLcp lcp cands) with h | h
  · rw [bestSpec_zero _ _ h]; rfl
  · unfold mergeBest
    rw [if_pos (by rw [bestSpec_length]; simpa using h)]

/-- The list traversal realizes first-seen-longest selection over the chain of
candidates, merged against the incoming accumulator. -/
theorem listFindLoop_eq (w : Window) (uncoded : Nat → Byte) (uncodedLen : Nat)
    (nxt : Nat → Nat) (hlen : 1 ≤ uncodedLen) :
    ∀ (fuel i : Nat) (best : EncodedString), best.length < uncodedLen →
      listFindLoop w uncoded uncodedLen nxt fuel i best =
        mergeBest best (bestSpec (lcpTrusted w uncoded uncodedLen) (chainN nxt fuel i)) := by
  intro fuel
  induction fuel with
  | zero =>
    intro i best hb
    simp [listFindLoop, chainN, bestSpec, mergeBest]
  | succ f ih =>
    intro i best hb
    rw [listFindLoop, chainN]
    by_cases hi : i = NULL_INDEX
    · rw [if_pos hi, if_pos hi]
      simp [bestSpec, mergeBest]
    · rw [if_neg hi, if_neg hi]
      have hle : ∀ k, lcpTrusted w uncoded uncodedLen k ≤ uncodedLen :=
        fun k => lcpTrusted_le w uncoded uncodedLen k hlen
      by_cases hbreak : matchLenFrom1 w uncoded uncodedLen i = uncodedLen
      · rw [if_pos hbreak, if_pos (by omega), hbreak]
        exact (mergeBest_break best _ i uncodedLen _
          (show lcpTrusted w uncoded uncodedLen i = uncodedLen from hbreak)
          (maxLcp_le _ _ hle _) (by omega) hb).symm
      · rw [if_neg hbreak]
        have hlt : matchLenFrom1 w uncoded uncodedLen i < uncodedLen := by
          have := hle i
          unfold lcpTrusted at this
          omega
        have hb' : (if matchLenFrom1 w uncoded uncodedLen i > best.length
            then (⟨i, matchLenFrom1 w uncoded uncodedLen i⟩ : EncodedString)
            else best).length < uncodedLen := by
          split
          · simpa using hlt
          · exact hb
        rw [ih (nxt i) _ hb', bestSpec]
        exact (mergeBest_step best i (matchLenFrom1 w uncoded uncodedLen i) _).symm

/-- The hash-bucket traversal realizes first-seen-longest selection over the
bucket chain (with the first-byte filter), merged against the accumulator.
`j0` is the persistent `j` from previous iterations; it is below `uncodedLen`
at every reachable entry. -/
theorem hashFindLoop_eq (w : Window) (uncoded : Nat → Byte) (uncodedLen : Nat)
    (nxt : Nat → Nat) (hlen : 1 ≤ uncodedLen) :
    ∀ (fuel i j0 : Nat) (best : EncodedString), best.length < uncodedLen →
      j0 < uncodedLen →
      hashFindLoop w uncoded uncodedLen nxt fuel i j0 best =
        mergeBest best (bestSpec (lcpChecked w uncoded uncodedLen) (chainN nxt fuel i)) := by
  intro fuel
  induction fuel with
  | zero =>
    intro i j0 best hb hj
    simp [hashFindLoop, chainN, bestSpec, mergeBest]
  | succ f ih =>
    intro i j0 best hb hj
    rw [hashFindLoop, chainN]
    by_cases hi : i = NULL_INDEX
    · rw [if_pos hi, if_pos hi]
      simp [bestSpec, mergeBest]
    · rw [if_neg hi, if_neg hi]
      have hle : ∀ k, lcpChecked w uncoded uncodedLen k ≤ uncodedLen :=
        fun k => lcpChecked_le w uncoded uncodedLen k hlen
      simp only []
      by_cases hw : w i = uncoded 0
      · rw [if_pos hw]
        have hlcp : lcpChecked w uncoded uncodedLen i = matchLenFrom1 w uncoded uncodedLen i := by
          unfold lcpChecked; rw [if_pos hw]
        by_cases hbreak : matchLenFrom1 w uncoded uncodedLen i = uncodedLen
        · rw [if_pos hbreak]
          simp only [hbreak]
          rw [if_pos (by omega)]
          exact (mergeBest_break best _ i uncodedLen _ (hlcp.trans hbreak)
            (maxLcp_le _ _ hle _) (by omega) hb).symm
        · rw [if_neg hbreak]
          have hlt : matchLenFrom1 w uncoded uncodedLen i < uncodedLen := by
            have := hle i; rw [hlcp] at this; omega
          have hb' : (if matchLenFrom1 w uncoded uncodedLen i > best.length
              then (⟨i, matchLenFrom1 w uncoded uncodedLen i⟩ : EncodedString)
              else best).length < uncodedLen := by
            split
            · simpa using hlt
            · exact hb
          rw [ih (nxt i) _ _ hb' hlt, bestSpec]
          rw [← hlcp]
          exact (mergeBest_step best i (lcpChecked w uncoded uncodedLen i) _).symm
      · rw [if_neg hw]
        have hlcp : lcpChecked w uncoded uncodedLen i = 0 := by
          unfold lcpChecked; rw [if_neg hw]
        rw [if_neg (by omega)]
        rw [ih (nxt i) _ _ hb hj, bestSpec, hlcp]
        rw [if_neg (by simp)]

/-- The candidates of `brute.c` starting at window position `i`, for `count`
cyclic steps. -/
def rotFrom (i count : Nat) : List Nat :=
  (List.range count).map (fun k => Wrap (i + k) WINDOW_SIZE)

theorem rotation_eq_rotFrom (windowHead : Nat) :
    rotation windowHead = rotFrom windowHead WINDOW_SIZE := rfl

theorem rotFrom_cons (i count : Nat) (hc : 1 ≤ count) (hi : i < WINDOW_SIZE) :
    rotFrom i count = i :: rotFrom (Wrap (i + 1) WINDOW_SIZE) (count - 1) := by
  obtain ⟨c, rfl⟩ : ∃ c, count = c + 1 := ⟨count - 1, by omega⟩
  unfold rotFrom
  rw [List.range_succ_eq_map, List.map_cons]
  congr 1
  · show Wrap (i + 0) WINDOW_SIZE = i
    simp [Wrap, Nat.mod_eq_of_lt hi]
  · rw [List.map_map]
    congr 1
    funext k
    show Wrap (i + (k + 1)) WINDOW_SIZE = Wrap (Wrap (i + 1) WINDOW_SIZE + k) WINDOW_SIZE
    unfold Wrap
    conv_rhs => rw [Nat.mod_add_mod]
    congr 1
    omega

theorem mergeBest_nil (x : EncodedString) : mergeBest x ⟨0, 0⟩ = x := by
  unfold mergeBest
  rw [if_neg (by simp)]

theorem wrap_add_ne (head d : Nat) (hh : head < WINDOW_SIZE) (hd1 : 0 < d)
    (hd2 : d < WINDOW_SIZE) : Wrap (head + d) WINDOW_SIZE ≠ head := by
  unfold Wrap WINDOW_SIZE at *
  omega

/-- The brute-force scan realizes first-seen-longest selection over the
cyclic candidate sequence from the current position back to `windowHead`. -/
theorem bruteLoop_eq (w : Window) (uncoded : Nat → Byte) (uncodedLen windowHead : Nat)
    (hlen : 1 ≤ uncodedLen) (hwh : windowHead < WINDOW_SIZE) :
    ∀ (count : Nat), 1 ≤ count → count ≤ WINDOW_SIZE →
      ∀ (fuel i j0 : Nat) (best : EncodedString), count ≤ fuel →
        i = Wrap (windowHead + (WINDOW_SIZE - count)) WINDOW_SIZE →
        best.length < uncodedLen → j0 < uncodedLen →
        bruteLoop w uncoded uncodedLen windowHead fuel i j0 best =
          mergeBest best (bestSpec (lcpChecked w uncoded uncodedLen) (rotFrom i count)) := by
  intro count
  induction count with
  | zero => intro h; omega
  | succ c ih =>
    intro hc1 hcW fuel i j0 best hfuel hi hb hj0
    obtain ⟨f, rfl⟩ : ∃ f, fuel = f + 1 := ⟨fuel - 1, by omega⟩
    have hiW : i < WINDOW_SIZE := by
      rw [hi]; unfold Wrap WINDOW_SIZE; omega
    have hle : ∀ k, lcpChecked w uncoded uncodedLen k ≤ uncodedLen :=
      fun k => lcpChecked_le w uncoded uncodedLen k hlen
    have hinc : Wrap (i + 1) WINDOW_SIZE =
        Wrap (windowHead + (WINDOW_SIZE - c)) WINDOW_SIZE := by
      rw [hi]
      unfold Wrap
      rw [Nat.mod_add_mod]
      congr 1
      omega
    have hstop_iff : Wrap (i + 1) WINDOW_SIZE = windowHead ↔ c = 0 := by
      constructor
      · intro hs
        by_contra hc
        exact wrap_add_ne windowHead (WINDOW_SIZE - c) hwh (by omega) (by omega)
          (hinc ▸ hs)
      · intro hc
        subst hc
        rw [hinc]
        show (windowHead + (WINDOW_SIZE - 0)) % WINDOW_SIZE = windowHead
        unfold WINDOW_SIZE at *
        omega
    rw [bruteLoop]
    rw [rotFrom_cons i (c + 1) (by omega) hiW]
    simp only [Nat.add_sub_cancel]
    by_cases hw : w i = uncoded 0
    · rw [if_pos hw]
      have hlcp : lcpChecked w uncoded uncodedLen i = matchLenFrom1 w uncoded uncodedLen i := by
        unfold lcpChecked; rw [if_pos hw]
      by_cases hbreak : matchLenFrom1 w uncoded uncodedLen i = uncodedLen
      · rw [if_pos hbreak]
        simp only [hbreak]
        rw [if_pos (by omega)]
        exact (mergeBest_break best _ i uncodedLen _ (hlcp.trans hbreak)
          (maxLcp_le _ _ hle _) (by omega) hb).symm
      · rw [if_neg hbreak]
        have hlt : matchLenFrom1 w uncoded uncodedLen i < uncodedLen := by
          have := hle i; rw [hlcp] at this; omega
        have hb' : (if matchLenFrom1 w uncoded uncodedLen i > best.length
            then (⟨i, matchLenFrom1 w uncoded uncodedLen i⟩ : EncodedString)
            else best).length < uncodedLen := by
          split
          · simpa using hlt
          · exact hb
        by_cases hstop : Wrap (i + 1) WINDOW_SIZE = windowHead
        · rw [if_pos hstop]
          have hc0 : c = 0 := hstop_iff.mp hstop
          subst hc0
          show _ = mergeBest best (bestSpec _ (i :: rotFrom (Wrap (i + 1) WINDOW_SIZE) 0))
          rw [bestSpec]
          rw [(mergeBest_step best i (lcpChecked w uncoded uncodedLen i)
            (bestSpec (lcpChecked w uncoded uncodedLen) (rotFrom (Wrap (i + 1) WINDOW_SIZE) 0)))]
          show _ = mergeBest _ (bestSpec _ [])
          rw [show (bestSpec (lcpChecked w uncoded uncodedLen) [] : EncodedString) = ⟨0, 0⟩ from rfl]
          rw [mergeBest_nil, hlcp]
        · rw [if_neg hstop]
          have hc0 : c ≠ 0 := fun hc => hstop (hstop_iff.mpr hc)
          rw [ih (by omega) (by omega) f (Wrap (i + 1) WINDOW_SIZE) _ _ (by omega) hinc hb' hlt]
          rw [bestSpec, ← hlcp]
          exact (mergeBest_step best i (lcpChecked w uncoded uncodedLen i) _).symm
    · rw [if_neg hw]
      have hlcp : lcpChecked w uncoded uncodedLen i = 0 := by
        unfold lcpChecked; rw [if_neg hw]
      rw [if_neg (by omega)]
      by_cases hstop : Wrap (i + 1) WINDOW_SIZE = windowHead
      · rw [if_pos hstop]
        have hc0 : c = 0 := hstop_iff.mp hstop
        subst hc0
        rw [bestSpec]
        rw [mergeBest_step best i (lcpChecked w uncoded uncodedLen i) _, hlcp]
        rw [if_neg (by omega)]
        show best = mergeBest best (bestSpec _ [])
        rw [show (bestSpec (lcpChecked w uncoded uncodedLen) [] : EncodedString) = ⟨0, 0⟩ from rfl]
        rw [mergeBest_nil]
      · rw [if_neg hstop]
        have hc0 : c ≠ 0 := fun hc => hstop (hstop_iff.mpr hc)
        rw [ih (by omega) (by omega) f (Wrap (i + 1) WINDOW_SIZE) _ _ (by omega) hinc hb hj0]
        rw [bestSpec, hlcp]
        rw [if_neg (by simp)]

/-! ### C4: first-seen-longest selection, per strategy -/

/-- Specification of the search policy: the result's length is the maximal
per-candidate match length, and its offset is the first candidate (in the
strategy's visiting order) attaining that length.  Early termination at a
full-length match is subsumed: a full-length candidate is maximal, so the
first one found is returned. -/
def FirstSeenLongest (lcp : Nat → Nat) (cands : List Nat) (r : EncodedString) : Prop :=
  r.length = maxLcp lcp cands ∧
  (0 < r.length → cands.find? (fun j => lcp j == r.length) = some r.offset)

theorem bestSpec_firstSeenLongest (lcp : Nat → Nat) (cands : List Nat) :
    FirstSeenLongest lcp cands (bestSpec lcp cands) := by
  refine ⟨bestSpec_length lcp cands, fun h0 => ?_⟩
  rw [bestSpec_length lcp cands] at h0 ⊢
  exact bestSpec_find lcp cands h0

/-- **C4.** For every window and lookahead state with
`MAX_UNCODED < uncodedLen`, each of the brute, list and hash `FindMatch`
routines returns a longest match over its own candidate set — all window
positions from `windowHead` for brute, the list of the first lookahead byte
for list, the bucket of the lookahead prefix's hash for hash — measured by its
own per-candidate comparison, and among equally long matches returns the first
in its own search order (the match record is updated only on strictly longer
matches); the search stops as soon as a match of length `uncodedLen` is
found, which cannot change the result. -/
theorem findMatch_first_seen_longest
    (w : Window) (la : Lookahead) (ls : ListState) (hs : HashState)
    (windowHead uncodedHead uncodedLen : Nat)
    (hlen : MAX_UNCODED < uncodedLen) (hwh : windowHead < WINDOW_SIZE) :
    FirstSeenLongest (lcpChecked w (uncodedOf la uncodedHead) uncodedLen)
      (rotation windowHead)
      (FindMatchBrute w la windowHead uncodedHead uncodedLen) ∧
    FirstSeenLongest (lcpTrusted w (uncodedOf la uncodedHead) uncodedLen)
      (chainN ls.nxt (WINDOW_SIZE + 1) (ls.lists (la uncodedHead).val))
      (FindMatchList ls w la uncodedHead uncodedLen) ∧
    FirstSeenLongest (lcpChecked w (uncodedOf la uncodedHead) uncodedLen)
      (chainN hs.nxt (WINDOW_SIZE + 1)
        (hs.hashTable (hashKey (uncodedOf la uncodedHead) 0 MAX_CODED)))
      (FindMatchHash hs w la uncodedHead uncodedLen) := by
  have h1 : 1 ≤ uncodedLen := by unfold MAX_UNCODED at hlen; omega
  refine ⟨?_, ?_, ?_⟩
  · have heq : FindMatchBrute w la windowHead uncodedHead uncodedLen =
        bestSpec (lcpChecked w (uncodedOf la uncodedHead) uncodedLen)
          (rotation windowHead) := by
      unfold FindMatchBrute
      rw [if_neg (by omega)]
      rw [bruteLoop_eq w (uncodedOf la uncodedHead) uncodedLen windowHead h1 hwh
        WINDOW_SIZE (by unfold WINDOW_SIZE; omega) le_rfl (WINDOW_SIZE + 1)
        windowHead 0 ⟨0, 0⟩ (by omega)
        (by unfold Wrap; rw [Nat.sub_self, Nat.add_zero, Nat.mod_eq_of_lt hwh])
        (by simpa using h1) (by omega)]
      rw [rotation_eq_rotFrom, mergeBest_zero_bestSpec]
    rw [heq]
    exact bestSpec_firstSeenLongest _ _
  · have heq : FindMatchList ls w la uncodedHead uncodedLen =
        bestSpec (lcpTrusted w (uncodedOf la uncodedHead) uncodedLen)
          (chainN ls.nxt (WINDOW_SIZE + 1) (ls.lists (la uncodedHead).val)) := by
      unfold FindMatchList
      rw [if_neg (by omega)]
      rw [listFindLoop_eq w (uncodedOf la uncodedHead) uncodedLen ls.nxt h1
        (WINDOW_SIZE + 1) (ls.lists (la uncodedHead).val) ⟨0, 0⟩ (by simpa using h1)]
      rw [mergeBest_zero_bestSpec]
    rw [heq]
    exact bestSpec_firstSeenLongest _ _
  · have heq : FindMatchHash hs w la uncodedHead uncodedLen =
        bestSpec (lcpChecked w (uncodedOf la uncodedHead) uncodedLen)
          (chainN hs.nxt (WINDOW_SIZE + 1)
            (hs.hashTable (hashKey (uncodedOf la uncodedHead) 0 MAX_CODED))) := by
      unfold FindMatchHash
      rw [if_neg (by omega)]
      rw [hashFindLoop_eq w (uncodedOf la uncodedHead) uncodedLen hs.nxt h1
        (WINDOW_SIZE + 1) _ 0 ⟨0, 0⟩ (by simpa using h1) (by omega)]
      rw [mergeBest_zero_bestSpec]
    rw [heq]
    exact bestSpec_firstSeenLongest _ _

/-- A lookahead and aux states for concrete witnesses. -/
def laA : Lookahead := fun _ => (65 : Byte)

/-- An empty list-strategy state (all lists empty). -/
def lsEmpty : ListState := ⟨fun _ => NULL_INDEX, fun _ => NULL_INDEX⟩

/-- An empty hash-strategy state (all buckets empty). -/
def hsEmpty : HashState := ⟨fun _ => NULL_INDEX, fun _ => NULL_INDEX⟩

/-- Witness for C4 at a concrete state. -/
theorem findMatch_first_seen_longest_witness :
    MAX_UNCODED < 18 ∧ 0 < WINDOW_SIZE ∧
    (FirstSeenLongest (lcpChecked initWindow (uncodedOf laA 0) 18) (rotation 0)
        (FindMatchBrute initWindow laA 0 0 18) ∧
      FirstSeenLongest (lcpTrusted initWindow (uncodedOf laA 0) 18)
        (chainN lsEmpty.nxt (WINDOW_SIZE + 1) (lsEmpty.lists (laA 0).val))
        (FindMatchList lsEmpty initWindow laA 0 18) ∧
      FirstSeenLongest (lcpChecked initWindow (uncodedOf laA 0) 18)
        (chainN hsEmpty.nxt (WINDOW_SIZE + 1)
          (hsEmpty.hashTable (hashKey (uncodedOf laA 0) 0 MAX_CODED)))
        (FindMatchHash hsEmpty initWindow laA 0 18)) :=
  ⟨by decide, by decide,
    findMatch_first_seen_longest initWindow laA lsEmpty hsEmpty 0 0 18
      (by decide) (by decide)⟩

/-! ### C3: match bounds -/

/-- A node with all fields `NULL_INDEX` (`ClearNode` of `tree.c`). -/
def nullNode : TreeNode := ⟨TREE_NULL, TREE_NULL, TREE_NULL⟩

/-- Pointwise update of the tree array. -/
def updNode (t : Nat → TreeNode) (i : Nat) (n : TreeNode) : Nat → TreeNode :=
  fun j => if j = i then n else t j

/-- `InitializeSearchStructures` of `tree.c`: clear every node, then make
`(WINDOW_SIZE - MAX_CODED) - 1` the root (assuming an all-identical window). -/
def initTreeState : TreeState :=
  let r := (WINDOW_SIZE - MAX_CODED) - 1
  { tree := updNode (fun _ => nullNode) r ⟨TREE_NULL, TREE_NULL, ROOT_INDEX⟩,
    treeRoot := r }

theorem treeMatchLenAux_le (w : Window) (la : Lookahead) (i uh : Nat) :
    ∀ (count j : Nat), (treeMatchLenAux w la i uh count j).1 ≤ j + count := by
  intro count
  induction count with
  | zero => intro j; simp [treeMatchLenAux]
  | succ c ih =>
    intro j
    rw [treeMatchLenAux]
    split
    · have := ih (j + 1); omega
    · simp

theorem treeFindLoop_length_le (ts : TreeState) (w : Window) (la : Lookahead)
    (uh : Nat) : ∀ (fuel i j0 : Nat) (best : EncodedString),
      best.length ≤ MAX_CODED →
      (treeFindLoop ts w la uh fuel i j0 best).length ≤ MAX_CODED := by
  intro fuel
  induction fuel with
  | zero => intro i j0 best hb; simpa [treeFindLoop] using hb
  | succ f ih =>
    intro i j0 best hb
    have hjc := treeMatchLenAux_le w la i uh (MAX_CODED - 1) 1
    rw [treeFindLoop]
    by_cases hi : i = TREE_NULL
    · rw [if_pos hi]; exact hb
    · rw [if_neg hi]
      simp only []
      by_cases hc0 : ((w i).val : Int) - ((la uh).val : Int) = 0
      · rw [if_pos hc0]
        by_cases hbk : MAX_CODED ≤ (treeMatchLenAux w la i uh (MAX_CODED - 1) 1).1
        · rw [if_pos hbk]
        · rw [if_neg hbk]
          have hble : (if (treeMatchLenAux w la i uh (MAX_CODED - 1) 1).1 > best.length
              then (⟨i, (treeMatchLenAux w la i uh (MAX_CODED - 1) 1).1⟩ : EncodedString)
              else best).length ≤ MAX_CODED := by
            split
            · simp only [EncodedString.length_mk]; omega
            · exact hb
          by_cases hdir : ((treeMatchLenAux w la i uh (MAX_CODED - 1) 1).2 : Int) > 0
          · rw [if_pos hdir]; exact ih _ _ _ hble
          · rw [if_neg hdir]; exact ih _ _ _ hble
      · rw [if_neg hc0]
        by_cases hbk : MAX_CODED ≤ j0
        · rw [if_pos hbk]
        · rw [if_neg hbk]
          by_cases hdir : ((w i).val : Int) - ((la uh).val : Int) > 0
          · rw [if_pos hdir]; exact ih _ _ _ hb
          · rw [if_neg hdir]; exact ih _ _ _ hb

/-- The tree `FindMatch` never reports more than `MAX_CODED` bytes. -/
theorem FindMatchTree_length_le (ts : TreeState) (w : Window) (la : Lookahead)
    (windowHead uh : Nat) :
    (FindMatchTree ts w la windowHead uh).length ≤ MAX_CODED :=
  treeFindLoop_length_le ts w la uh (WINDOW_SIZE + 2) ts.treeRoot 0 ⟨0, 0⟩
    (by simp [MAX_CODED, MAX_UNCODED])

/-- **C3 (counterexample).** The claim asserts the bounds for "each of the
four strategies", including `length = 0` whenever the lookahead length is at
most `MAX_UNCODED`.  The tree strategy's `FindMatch` takes no lookahead-length
parameter at all: on the freshly initialized structures (all-space window and
all-space lookahead), it reports a match of length `MAX_CODED = 18`, which
violates both `length ≤ uncodedLen` and `length = 0` for any remaining
lookahead length `≤ MAX_UNCODED` (for instance 2). -/
theorem findMatch_bounds_tree_counterexample :
    ¬ (∀ (ts : TreeState) (w : Window) (la : Lookahead)
        (windowHead uncodedHead uncodedLen : Nat), uncodedLen ≤ MAX_UNCODED →
        (FindMatchTree ts w la windowHead uncodedHead).length = 0) := by
  intro h
  have h2 := h initTreeState initWindow (fun _ => (32 : Byte)) 0 0 2 (by decide)
  rw [show (FindMatchTree initTreeState initWindow (fun _ => (32 : Byte)) 0 0).length = 18
    from by decide] at h2
  exact absurd h2 (by norm_num)

/-- **C3 (amended).** For every window, lookahead and lookahead length
`uncodedLen ≤ MAX_CODED`: the brute, list and hash `FindMatch` routines (which
take `uncodedLen`) return a length at most `uncodedLen` (hence at most
`MAX_CODED = 18`), and return length 0 whenever `uncodedLen ≤ MAX_UNCODED`;
the tree `FindMatch` (which takes no lookahead-length parameter and always
compares against the full lookahead buffer) guarantees only
`length ≤ MAX_CODED` — the encoder clamps its result afterwards. -/
theorem findMatch_bounds
    (w : Window) (la : Lookahead) (ls : ListState) (hs : HashState) (ts : TreeState)
    (windowHead uncodedHead uncodedLen : Nat)
    (hmax : uncodedLen ≤ MAX_CODED) (hwh : windowHead < WINDOW_SIZE) :
    ((FindMatchBrute w la windowHead uncodedHead uncodedLen).length ≤ uncodedLen ∧
      (FindMatchBrute w la windowHead uncodedHead uncodedLen).length ≤ MAX_CODED ∧
      (uncodedLen ≤ MAX_UNCODED →
        (FindMatchBrute w la windowHead uncodedHead uncodedLen).length = 0)) ∧
    ((FindMatchList ls w la uncodedHead uncodedLen).length ≤ uncodedLen ∧
      (FindMatchList ls w la uncodedHead uncodedLen).length ≤ MAX_CODED ∧
      (uncodedLen ≤ MAX_UNCODED →
        (FindMatchList ls w la uncodedHead uncodedLen).length = 0)) ∧
    ((FindMatchHash hs w la uncodedHead uncodedLen).length ≤ uncodedLen ∧
      (FindMatchHash hs w la uncodedHead uncodedLen).length ≤ MAX_CODED ∧
      (uncodedLen ≤ MAX_UNCODED →
        (FindMatchHash hs w la uncodedHead uncodedLen).length = 0)) ∧
    (FindMatchTree ts w la windowHead uncodedHead).length ≤ MAX_CODED := by
  by_cases hsmall : uncodedLen ≤ MAX_UNCODED
  · have hsmall' : uncodedLen ≤ 2 := by simpa [MAX_UNCODED] using hsmall
    refine ⟨?_, ?_, ?_, FindMatchTree_length_le ts w la windowHead uncodedHead⟩ <;>
      simp [FindMatchBrute, FindMatchList, FindMatchHash, hsmall', MAX_CODED, MAX_UNCODED]
  · have hlen : MAX_UNCODED < uncodedLen := by omega
    have h1 : 1 ≤ uncodedLen := by unfold MAX_UNCODED at hlen; omega
    obtain ⟨⟨hbl, _⟩, ⟨hll, _⟩, ⟨hhl, _⟩⟩ :=
      findMatch_first_seen_longest w la ls hs windowHead uncodedHead uncodedLen hlen hwh
    refine ⟨⟨?_, ?_, fun hc => absurd hc hsmall⟩, ⟨?_, ?_, fun hc => absurd hc hsmall⟩,
      ⟨?_, ?_, fun hc => absurd hc hsmall⟩,
      FindMatchTree_length_le ts w la windowHead uncodedHead⟩
    · rw [hbl]
      exact maxLcp_le _ _ (fun k => lcpChecked_le w _ uncodedLen k h1) _
    · rw [hbl]
      exact le_trans (maxLcp_le _ _ (fun k => lcpChecked_le w _ uncodedLen k h1) _) hmax
    · rw [hll]
      exact maxLcp_le _ _ (fun k => lcpTrusted_le w _ uncodedLen k h1) _
    · rw [hll]
      exact le_trans (maxLcp_le _ _ (fun k => lcpTrusted_le w _ uncodedLen k h1) _) hmax
    · rw [hhl]
      exact maxLcp_le _ _ (fun k => lcpChecked_le w _ uncodedLen k h1) _
    · rw [hhl]
      exact le_trans (maxLcp_le _ _ (fun k => lcpChecked_le w _ uncodedLen k h1) _) hmax

/-- Witness for the amended C3 at a concrete state. -/
theorem findMatch_bounds_witness :
    2 ≤ MAX_CODED ∧ 0 < WINDOW_SIZE ∧
    ((FindMatchBrute initWindow laA 0 0 2).length ≤ 2 ∧
      (FindMatchBrute initWindow laA 0 0 2).length ≤ MAX_CODED ∧
      (2 ≤ MAX_UNCODED → (FindMatchBrute initWindow laA 0 0 2).length = 0)) ∧
    ((FindMatchList lsEmpty initWindow laA 0 2).length ≤ 2 ∧
      (FindMatchList lsEmpty initWindow laA 0 2).length ≤ MAX_CODED ∧
      (2 ≤ MAX_UNCODED → (FindMatchList lsEmpty initWindow laA 0 2).length = 0)) ∧
    ((FindMatchHash hsEmpty initWindow laA 0 2).length ≤ 2 ∧
      (FindMatchHash hsEmpty initWindow laA 0 2).length ≤ MAX_CODED ∧
      (2 ≤ MAX_UNCODED → (FindMatchHash hsEmpty initWindow laA 0 2).length = 0)) ∧
    (FindMatchTree initTreeState initWindow laA 0 0).length ≤ MAX_CODED :=
  ⟨by decide, by decide,
    (findMatch_bounds initWindow laA lsEmpty hsEmpty initTreeState 0 0 2
      (by decide) (by decide)).1,
    (findMatch_bounds initWindow laA lsEmpty hsEmpty initTreeState 0 0 2
      (by decide) (by decide)).2.1,
    (findMatch_bounds initWindow laA lsEmpty hsEmpty initTreeState 0 0 2
      (by decide) (by decide)).2.2.1,
    (findMatch_bounds initWindow laA lsEmpty hsEmpty initTreeState 0 0 2
      (by decide) (by decide)).2.2.2⟩

/-! ## Window-maintenance operations

### List strategy (`list.c` `AddChar`/`RemoveChar`/`ReplaceChar`/`InitializeSearchStructures`) -/

/-- Pointwise update of a `Nat`-valued array. -/
def updF (f : Nat → Nat) (i v : Nat) : Nat → Nat :=
  fun j => if j = i then v else f j

theorem updF_eq (f : Nat → Nat) (i v : Nat) : updF f i v i = v := by
  unfold updF; simp

theorem updF_ne (f : Nat → Nat) (i v : Nat) {j : Nat} (h : j ≠ i) :
    updF f i v j = f j := by
  unfold updF; rw [if_neg h]

/-- The find-the-end walk of `AddChar`/`AddString`:
`i = head; while (next[i] != NULL_INDEX) i = next[i];`. -/
def chainLast (nxt : Nat → Nat) : Nat → Nat → Nat
  | 0, i => i
  | fuel + 1, i => if nxt i = NULL_INDEX then i else chainLast nxt fuel (nxt i)

/-- The find-the-predecessor walk of `RemoveChar`/`RemoveString`:
`i = head; while (next[i] != target) i = next[i];`. -/
def findPred (nxt : Nat → Nat) (target : Nat) : Nat → Nat → Nat
  | 0, i => i
  | fuel + 1, i => if nxt i = target then i else findPred nxt target fuel (nxt i)

/-- The shared append-at-list-end shape of `AddChar` (`list.c`) and
`AddString` (`hash.c`): clear the inserted node's `next`, then either install
it as the head of an empty list or link it after the last node.  Returns the
updated heads array and `next` array. -/
def bucketAdd (heads nxt : Nat → Nat) (key charIndex : Nat) :
    (Nat → Nat) × (Nat → Nat) :=
  let nxt1 := updF nxt charIndex NULL_INDEX
  if heads key = NULL_INDEX then (updF heads key charIndex, nxt1)
  else
    let last := chainLast nxt1 (WINDOW_SIZE + 1) (heads key)
    (heads, updF nxt1 last charIndex)

/-- The shared unlink shape of `RemoveChar` (`list.c`) and `RemoveString`
(`hash.c`): remember the removed node's `next`, clear it, then either move the
list head or re-point the predecessor. -/
def bucketRemove (heads nxt : Nat → Nat) (key charIndex : Nat) :
    (Nat → Nat) × (Nat → Nat) :=
  let nextIndex := nxt charIndex
  let nxt1 := updF nxt charIndex NULL_INDEX
  if heads key = charIndex then (updF heads key nextIndex, nxt1)
  else
    let pred := findPred nxt1 charIndex (WINDOW_SIZE + 1) (heads key)
    (heads, updF nxt1 pred nextIndex)

/-- `AddChar` of `list.c`: append `charIndex` at the end of the list of its
current window byte (the key is the byte value itself). -/
def listAddChar (st : ListState) (w : Window) (charIndex : Nat) : ListState :=
  let r := bucketAdd st.lists st.nxt (w charIndex).val charIndex
  ⟨r.1, r.2⟩

/-- `RemoveChar` of `list.c`: unlink `charIndex` from the list of its current
window byte. -/
def listRemoveChar (st : ListState) (w : Window) (charIndex : Nat) : ListState :=
  let r := bucketRemove st.lists st.nxt (w charIndex).val charIndex
  ⟨r.1, r.2⟩

/-- `ReplaceChar` of `list.c`: remove, write the new byte, reinsert. -/
def listReplaceChar (st : ListState) (w : Window) (charIndex : Nat)
    (replacement : Byte) : ListState × Window :=
  let st1 := listRemoveChar st w charIndex
  let w1 := upd w charIndex replacement
  (listAddChar st1 w1 charIndex, w1)

/-- `InitializeSearchStructures` of `list.c`: one chain `0 → 1 → … → WINDOW_SIZE-1`
headed by the byte at window position 0 (the window is all-identical). -/
def initListState (w : Window) : ListState :=
  { nxt := fun i => if i < WINDOW_SIZE - 1 then i + 1 else NULL_INDEX,
    lists := fun v => if v = (w 0).val then 0 else NULL_INDEX }

/-! ### Hash strategy (`hash.c` `AddString`/`RemoveString`/`ReplaceChar`/`InitializeSearchStructures`) -/

/-- `AddString` of `hash.c`: append `charIndex` at the end of the bucket of
its current 3-byte window prefix (the key is that prefix's hash). -/
def hashAddString (st : HashState) (w : Window) (charIndex : Nat) : HashState :=
  let r := bucketAdd st.hashTable st.nxt (hashKey w charIndex WINDOW_SIZE) charIndex
  ⟨r.1, r.2⟩

/-- `RemoveString` of `hash.c`: unlink `charIndex` from the bucket of its
current 3-byte window prefix. -/
def hashRemoveString (st : HashState) (w : Window) (charIndex : Nat) : HashState :=
  let r := bucketRemove st.hashTable st.nxt (hashKey w charIndex WINDOW_SIZE) charIndex
  ⟨r.1, r.2⟩

/-- `ReplaceChar` of `hash.c`: remove the `MAX_UNCODED + 1` strings containing
the changed byte, write it, reinsert them.  `firstIndex` is
`charIndex - MAX_UNCODED` wrapped. -/
def hashReplaceChar (st : HashState) (w : Window) (charIndex : Nat)
    (replacement : Byte) : HashState × Window :=
  let firstIndex :=
    if charIndex < MAX_UNCODED then (WINDOW_SIZE + charIndex) - MAX_UNCODED
    else charIndex - MAX_UNCODED
  let st1 := (List.range (MAX_UNCODED + 1)).foldl
    (fun s i => hashRemoveString s w (Wrap (firstIndex + i) WINDOW_SIZE)) st
  let w1 := upd w charIndex replacement
  let st2 := (List.range (MAX_UNCODED + 1)).foldl
    (fun s i => hashAddString s w1 (Wrap (firstIndex + i) WINDOW_SIZE)) st1
  (st2, w1)

/-- `InitializeSearchStructures` of `hash.c`: one chain over the whole window,
headed by the hash of the (all-identical) window's prefix. -/
def initHashState (w : Window) : HashState :=
  { nxt := fun i => if i < WINDOW_SIZE - 1 then i + 1 else NULL_INDEX,
    hashTable := fun k => if k = hashKey w 0 WINDOW_SIZE then 0 else NULL_INDEX }

/-! ### Tree strategy (`tree.c` `CompareString`/`FixChildren`/`AddString`/`RemoveString`/`ReplaceChar`) -/

/-- Set the `leftChild` field of node `i`. -/
def setL (t : Nat → TreeNode) (i v : Nat) : Nat → TreeNode :=
  updNode t i { t i with leftChild := v }

/-- Set the `rightChild` field of node `i`. -/
def setR (t : Nat → TreeNode) (i v : Nat) : Nat → TreeNode :=
  updNode t i { t i with rightChild := v }

/-- Set the `parent` field of node `i`. -/
def setP (t : Nat → TreeNode) (i v : Nat) : Nat → TreeNode :=
  updNode t i { t i with parent := v }

/-- `CompareString` of `tree.c`: the difference at the first mismatching byte
of the two `MAX_CODED`-byte window strings, `0` if they are equal.  `count` is
the number of remaining offsets. -/
def compareStringAux (w : Window) (i1 i2 : Nat) : Nat → Nat → Int
  | 0, _ => 0
  | count + 1, offset =>
    let r : Int := ((w (Wrap (i1 + offset) WINDOW_SIZE)).val : Int) -
      ((w (Wrap (i2 + offset) WINDOW_SIZE)).val : Int)
    if r ≠ 0 then r else compareStringAux w i1 i2 count (offset + 1)

/-- `CompareString` of `tree.c`. -/
def compareString (w : Window) (i1 i2 : Nat) : Int :=
  compareStringAux w i1 i2 MAX_CODED 0

/-- `FixChildren` of `tree.c`: point the parents of `index`'s children back at
`index`. -/
def FixChildren (t : Nat → TreeNode) (index : Nat) : Nat → TreeNode :=
  let t1 := if (t index).leftChild ≠ TREE_NULL then setP t ((t index).leftChild) index else t
  if (t1 index).rightChild ≠ TREE_NULL then setP t1 ((t1 index).rightChild) index else t1

/-- The insertion descent of `AddString` (`tree.c` 298–361): `here` is the
current node, `compare` the last comparison of `charIndex`'s string against
`here`'s. -/
def treeAddStringLoop (w : Window) (charIndex : Nat) :
    Nat → TreeState → Nat → Int → TreeState
  | 0, ts, _, _ => ts
  | fuel + 1, ts, here, compare =>
    if compare < 0 then
      if (ts.tree here).leftChild ≠ TREE_NULL then
        treeAddStringLoop w charIndex fuel ts ((ts.tree here).leftChild)
          (compareString w charIndex ((ts.tree here).leftChild))
      else
        let t1 := setL ts.tree here charIndex
        let t2 := updNode t1 charIndex ⟨TREE_NULL, TREE_NULL, here⟩
        { ts with tree := FixChildren t2 charIndex }
    else if compare > 0 then
      if (ts.tree here).rightChild ≠ TREE_NULL then
        treeAddStringLoop w charIndex fuel ts ((ts.tree here).rightChild)
          (compareString w charIndex ((ts.tree here).rightChild))
      else
        let t1 := setR ts.tree here charIndex
        let t2 := updNode t1 charIndex ⟨TREE_NULL, TREE_NULL, here⟩
        { ts with tree := FixChildren t2 charIndex }
    else
      -- identical strings: replace the old node in place
      let t1 := updNode ts.tree charIndex (ts.tree here)
      let t2 := FixChildren t1 charIndex
      let t3 :=
        if (t2 ((t2 here).parent)).leftChild = here
        then setL t2 ((t2 here).parent) charIndex
        else setR t2 ((t2 here).parent) charIndex
      { ts with tree := updNode t3 here nullNode }

/-- `AddString` of `tree.c`: equal-to-root replacement, else descend. -/
def treeAddString (ts : TreeState) (w : Window) (charIndex : Nat) : TreeState :=
  let compare := compareString w charIndex ts.treeRoot
  if compare = 0 then
    let t1 := updNode ts.tree charIndex
      ⟨(ts.tree ts.treeRoot).leftChild, (ts.tree ts.treeRoot).rightChild, ROOT_INDEX⟩
    let t2 := FixChildren t1 charIndex
    { tree := updNode t2 ts.treeRoot nullNode, treeRoot := charIndex }
  else treeAddStringLoop w charIndex (WINDOW_SIZE + 1) ts ts.treeRoot compare

/-- The rightmost-descendant walk of `RemoveString`:
`while (tree[here].rightChild != NULL_INDEX) here = tree[here].rightChild;`. -/
def treeRightmost (t : Nat → TreeNode) : Nat → Nat → Nat
  | 0, i => i
  | fuel + 1, i => if (t i).rightChild = TREE_NULL then i else treeRightmost t fuel ((t i).rightChild)

/-- `RemoveString` of `tree.c`: standard BST deletion over the node arena —
one-child promotion, or promotion of the rightmost left descendant, with the
parent pointer of the promoted node re-wired and the root updated. -/
def treeRemoveString (ts : TreeState) (charIndex : Nat) : TreeState :=
  if (ts.tree charIndex).parent = TREE_NULL then ts
  else
    let step1 : (Nat → TreeNode) × Nat :=
      if (ts.tree charIndex).rightChild = TREE_NULL then
        (ts.tree, (ts.tree charIndex).leftChild)
      else if (ts.tree charIndex).leftChild = TREE_NULL then
        (ts.tree, (ts.tree charIndex).rightChild)
      else
        let here := treeRightmost ts.tree (WINDOW_SIZE + 1) ((ts.tree charIndex).leftChild)
        let t4 :=
          if here ≠ (ts.tree charIndex).leftChild then
            let t1 := setR ts.tree ((ts.tree here).parent) ((ts.tree here).leftChild)
            let t2 := setP t1 ((t1 here).leftChild) ((t1 here).parent)
            let t3 := setL t2 here ((t2 charIndex).leftChild)
            setP t3 ((t3 charIndex).leftChild) here
          else ts.tree
        let t5 := setR t4 here ((t4 charIndex).rightChild)
        (setP t5 ((t5 charIndex).rightChild) here, here)
    let t6 := step1.1
    let here := step1.2
    let t7 :=
      if (t6 ((t6 charIndex).parent)).leftChild = charIndex
      then setL t6 ((t6 charIndex).parent) here
      else setR t6 ((t6 charIndex).parent) here
    let t8 := setP t7 here ((t7 charIndex).parent)
    { tree := updNode t8 charIndex nullNode,
      treeRoot := if ts.treeRoot = charIndex then here else ts.treeRoot }

/-- `ReplaceChar` of `tree.c`: remove the `MAX_CODED + 1` strings starting at
`charIndex - MAX_CODED … charIndex` (wrapped), write the byte, re-add them. -/
def treeReplaceChar (ts : TreeState) (w : Window) (charIndex : Nat)
    (replacement : Byte) : TreeState × Window :=
  let firstIndex :=
    if charIndex < MAX_CODED then (WINDOW_SIZE + charIndex) - MAX_CODED
    else charIndex - MAX_CODED
  let ts1 := (List.range (MAX_CODED + 1)).foldl
    (fun s i => treeRemoveString s (Wrap (firstIndex + i) WINDOW_SIZE)) ts
  let w1 := upd w charIndex replacement
  let ts2 := (List.range (MAX_CODED + 1)).foldl
    (fun s i => treeAddString s w1 (Wrap (firstIndex + i) WINDOW_SIZE)) ts1
  (ts2, w1)

/-! ### C5: which positions `ReplaceChar` removes and reinserts -/

/-- The `keyCount` window positions ending at `charIndex` in cyclically
increasing order: `charIndex - (keyCount-1), …, charIndex` (wrapped).  These
are exactly the positions `p` with `p ≤ charIndex < p + keyCount` in the
wrapped sense. -/
def affectedPositions (charIndex keyCount : Nat) : List Nat :=
  (List.range keyCount).map
    (fun i => Wrap ((WINDOW_SIZE + charIndex + 1 + i) - keyCount) WINDOW_SIZE)

theorem affectedPositions_mem (charIndex keyCount : Nat)
    (hci : charIndex < WINDOW_SIZE) (hk : keyCount ≤ WINDOW_SIZE) (p : Nat) :
    p ∈ affectedPositions charIndex keyCount ↔
      p < WINDOW_SIZE ∧ ∃ j, j < keyCount ∧ Wrap (p + j) WINDOW_SIZE = charIndex := by
  unfold affectedPositions Wrap WINDOW_SIZE at *
  rw [List.mem_map]
  constructor
  · rintro ⟨i, hi, rfl⟩
    rw [List.mem_range] at hi
    refine ⟨by omega, keyCount - 1 - i, by omega, by omega⟩
  · rintro ⟨hpW, j, hj, hpj⟩
    refine ⟨keyCount - 1 - j, by rw [List.mem_range]; omega, by omega⟩

/-- The claim's removal/reinsertion sequence for the tree strategy, modelled
from the claim's words: `key_length = MAX_CODED` positions
`p ≤ charIndex < p + MAX_CODED` removed in increasing order before the write
and reinserted after it. -/
def treeReplaceCharSpec18 (ts : TreeState) (w : Window) (charIndex : Nat)
    (replacement : Byte) : TreeState × Window :=
  let ts1 := (affectedPositions charIndex MAX_CODED).foldl
    (fun s p => treeRemoveString s p) ts
  let w1 := upd w charIndex replacement
  let ts2 := (affectedPositions charIndex MAX_CODED).foldl
    (fun s p => treeAddString s w1 p) ts1
  (ts2, w1)

set_option maxRecDepth 100000 in
/-- **C5 (counterexample).** The claim says the tree strategy removes and
reinserts exactly `key_length = MAX_CODED = 18` positions
(`p ≤ window_index < p + 18`).  The code (`tree.c` `ReplaceChar`,
`for (i = 0; i <= MAX_CODED; i++)`) touches `MAX_CODED + 1 = 19` positions,
also removing and reinserting `charIndex - MAX_CODED`, whose 18-byte string
does not contain the changed byte.  At the initialized tree with the changed
byte at window index 100, reinserting position 82 (all spaces) replaces the
all-space root `4077`, so the code's resulting root is `82` while the claim's
sequence leaves root `4077`. -/
theorem treeReplaceChar_keyCount_counterexample :
    (treeReplaceChar initTreeState initWindow 100 (65 : Byte)).1.treeRoot = 82 ∧
    (treeReplaceCharSpec18 initTreeState initWindow 100 (65 : Byte)).1.treeRoot = 4077 := by
  constructor
  · decide
  · decide

/-- **C5 (amended).** For every window index `< WINDOW_SIZE` and replacement
byte: the hash strategy's `ReplaceChar` removes exactly the
`MAX_UNCODED + 1 = 3` positions `p` with `p ≤ window_index < p + 3` (wrapped)
from the hash table — in cyclically increasing order ending at `window_index` —
before writing the byte, and reinserts exactly those positions in the same
order after the write; the tree strategy does the same but with the
`MAX_CODED + 1 = 19` positions `p` with `p ≤ window_index ≤ p + MAX_CODED`
(one more than the claim's `key_length = 18`: position
`window_index - MAX_CODED` is also removed and reinserted although its string
does not contain the changed byte). -/
theorem replaceChar_affected_positions (hs : HashState) (ts : TreeState)
    (w : Window) (charIndex : Nat) (b : Byte) (hci : charIndex < WINDOW_SIZE) :
    (hashReplaceChar hs w charIndex b =
      ((affectedPositions charIndex (MAX_UNCODED + 1)).foldl
        (fun s p => hashAddString s (upd w charIndex b) p)
        ((affectedPositions charIndex (MAX_UNCODED + 1)).foldl
          (fun s p => hashRemoveString s w p) hs),
       upd w charIndex b)) ∧
    (∀ p, p ∈ affectedPositions charIndex (MAX_UNCODED + 1) ↔
      p < WINDOW_SIZE ∧ ∃ j, j < MAX_UNCODED + 1 ∧ Wrap (p + j) WINDOW_SIZE = charIndex) ∧
    (treeReplaceChar ts w charIndex b =
      ((affectedPositions charIndex (MAX_CODED + 1)).foldl
        (fun s p => treeAddString s (upd w charIndex b) p)
        ((affectedPositions charIndex (MAX_CODED + 1)).foldl
          (fun s p => treeRemoveString s p) ts),
       upd w charIndex b)) ∧
    (∀ p, p ∈ affectedPositions charIndex (MAX_CODED + 1) ↔
      p < WINDOW_SIZE ∧ ∃ j, j < MAX_CODED + 1 ∧ Wrap (p + j) WINDOW_SIZE = charIndex) := by
  have hmap3 : affectedPositions charIndex (MAX_UNCODED + 1) =
      (List.range (MAX_UNCODED + 1)).map (fun i =>
        Wrap ((if charIndex < MAX_UNCODED then (WINDOW_SIZE + charIndex) - MAX_UNCODED
          else charIndex - MAX_UNCODED) + i) WINDOW_SIZE) := by
    unfold affectedPositions
    apply List.map_congr_left
    intro i hi
    rw [List.mem_range] at hi
    unfold Wrap WINDOW_SIZE MAX_UNCODED at *
    split_ifs <;> omega
  have hmap19 : affectedPositions charIndex (MAX_CODED + 1) =
      (List.range (MAX_CODED + 1)).map (fun i =>
        Wrap ((if charIndex < MAX_CODED then (WINDOW_SIZE + charIndex) - MAX_CODED
          else charIndex - MAX_CODED) + i) WINDOW_SIZE) := by
    unfold affectedPositions
    apply List.map_congr_left
    intro i hi
    rw [List.mem_range] at hi
    unfold Wrap WINDOW_SIZE MAX_CODED MAX_UNCODED at *
    split_ifs <;> omega
  refine ⟨?_, ?_, ?_, ?_⟩
  · rw [hmap3]
    unfold hashReplaceChar
    rw [List.foldl_map, List.foldl_map]
  · intro p
    exact affectedPositions_mem charIndex (MAX_UNCODED + 1) hci
      (by unfold MAX_UNCODED WINDOW_SIZE; omega) p
  · rw [hmap19]
    unfold treeReplaceChar
    rw [List.foldl_map, List.foldl_map]
  · intro p
    exact affectedPositions_mem charIndex (MAX_CODED + 1) hci
      (by unfold MAX_CODED MAX_UNCODED WINDOW_SIZE; omega) p

/-! ## The bucket-chain invariant (towards C6)

`IsChain nxt head L` says that following `next` from `head` visits exactly
the positions in `L` and ends at `NULL_INDEX`. -/

inductive IsChain (nxt : Nat → Nat) : Nat → List Nat → Prop
  | nil : IsChain nxt NULL_INDEX []
  | cons (i : Nat) (L : List Nat) : i ≠ NULL_INDEX → IsChain nxt (nxt i) L →
      IsChain nxt i (i :: L)

theorem isChain_null {nxt : Nat → Nat} {L : List Nat}
    (h : IsChain nxt NULL_INDEX L) : L = [] := by
  cases h with
  | nil => rfl
  | cons i L hne _ => exact absurd rfl hne

theorem isChain_cons_elim {nxt : Nat → Nat} {a h : Nat} {L : List Nat}
    (hc : IsChain nxt h (a :: L)) :
    h = a ∧ a ≠ NULL_INDEX ∧ IsChain nxt (nxt a) L := by
  cases hc with
  | cons i L hne htail => exact ⟨rfl, hne, htail⟩

theorem isChain_nil_elim {nxt : Nat → Nat} {h : Nat}
    (hc : IsChain nxt h []) : h = NULL_INDEX := by
  cases hc with
  | nil => rfl

theorem isChain_head_mem {nxt : Nat → Nat} {h : Nat} {L : List Nat}
    (hc : IsChain nxt h L) (hne : h ≠ NULL_INDEX) : h ∈ L := by
  cases hc with
  | nil => exact absurd rfl hne
  | cons i L _ _ => exact List.mem_cons_self _ _

/-- A chain is insensitive to `next` updates outside its members. -/
theorem isChain_frame {nxt nxt' : Nat → Nat} {h : Nat} {L : List Nat}
    (hc : IsChain nxt h L) (hfr : ∀ i ∈ L, nxt' i = nxt i) : IsChain nxt' h L := by
  induction hc with
  | nil => exact IsChain.nil
  | cons i L hne _ ih =>
    refine IsChain.cons i L hne ?_
    rw [hfr i (List.mem_cons_self i L)]
    exact ih (fun j hj => hfr j (List.mem_cons_of_mem i hj))

/-- With enough fuel, the fuel-bounded walk recovers exactly the chain. -/
theorem chainN_of_isChain {nxt : Nat → Nat} {h : Nat} {L : List Nat}
    (hc : IsChain nxt h L) : ∀ fuel, L.length < fuel → chainN nxt fuel h = L := by
  induction hc with
  | nil =>
    intro fuel hf
    obtain ⟨f, rfl⟩ : ∃ f, fuel = f + 1 := ⟨fuel - 1, by simp at hf; omega⟩
    simp [chainN]
  | cons i L hne _ ih =>
    intro fuel hf
    simp only [List.length_cons] at hf
    obtain ⟨f, rfl⟩ : ∃ f, fuel = f + 1 := ⟨fuel - 1, by omega⟩
    rw [chainN, if_neg hne, ih f (by omega)]

/-- The find-the-end walk returns the chain's last element. -/
theorem chainLast_of_isChain {nxt : Nat → Nat} {h : Nat} {L : List Nat}
    (hc : IsChain nxt h L) :
    ∀ (hne : L ≠ []) (fuel : Nat), L.length ≤ fuel →
      chainLast nxt fuel h = L.getLast hne := by
  induction hc with
  | nil => intro hne; exact absurd rfl hne
  | cons i L hnull htail ih =>
    intro hne fuel hf
    simp only [List.length_cons] at hf
    obtain ⟨f, rfl⟩ : ∃ f, fuel = f + 1 := ⟨fuel - 1, by omega⟩
    cases L with
    | nil =>
      rw [chainLast, if_pos (isChain_nil_elim htail)]
      rfl
    | cons b L' =>
      obtain ⟨hb, hbnull, _⟩ := isChain_cons_elim htail
      rw [chainLast, if_neg (fun hq => hbnull (hb.symm.trans hq))]
      rw [List.getLast_cons (by simp)]
      exact ih (by simp) f (by simp at hf ⊢; omega)

theorem isChain_last_nxt {nxt : Nat → Nat} {h : Nat} {L : List Nat}
    (hc : IsChain nxt h L) :
    ∀ (hne : L ≠ []), nxt (L.getLast hne) = NULL_INDEX := by
  induction hc with
  | nil => intro hne; exact absurd rfl hne
  | cons i L hnull htail ih =>
    intro hne
    cases L with
    | nil =>
      have h0 := isChain_nil_elim htail
      show nxt i = NULL_INDEX
      exact h0
    | cons b L' =>
      rw [List.getLast_cons (by simp)]
      exact ih (by simp)

/-- Appending a fresh node at the end of a chain. -/
theorem isChain_snoc {nxt : Nat → Nat} {ci : Nat} {h : Nat} {L : List Nat}
    (hc : IsChain nxt h L) :
    ∀ (hne : L ≠ []), L.Nodup → ci ∉ L → ci ≠ NULL_INDEX → nxt ci = NULL_INDEX →
      IsChain (updF nxt (L.getLast hne) ci) h (L ++ [ci]) := by
  induction hc with
  | nil => intro hne; exact absurd rfl hne
  | cons i L hnull htail ih =>
    intro hne hnd hci hcin hcix
    cases L with
    | nil =>
      have h0 := isChain_nil_elim htail
      show IsChain (updF nxt i ci) i (i :: [ci])
      refine IsChain.cons i [ci] hnull ?_
      rw [show updF nxt i ci i = ci from by unfold updF; simp]
      refine IsChain.cons ci [] hcin ?_
      have hcine : ci ≠ i := by intro hq; exact hci (by simp [hq])
      rw [show updF nxt i ci ci = nxt ci from by unfold updF; rw [if_neg hcine]]
      rw [hcix]
      exact IsChain.nil
    | cons b L' =>
      rw [List.nodup_cons] at hnd
      have hgl : ((i :: b :: L') : List Nat).getLast hne =
          ((b :: L') : List Nat).getLast (by simp) := List.getLast_cons (by simp)
      rw [hgl, List.cons_append]
      refine IsChain.cons i ((b :: L') ++ [ci]) hnull ?_
      have hlast_mem : ((b :: L') : List Nat).getLast (by simp) ∈ b :: L' :=
        List.getLast_mem _
      have hine : i ≠ ((b :: L') : List Nat).getLast (by simp) := by
        intro hq
        exact hnd.1 (hq ▸ hlast_mem)
      rw [show updF nxt (((b :: L') : List Nat).getLast (by simp)) ci i = nxt i from by
        unfold updF; rw [if_neg hine]]
      exact ih (by simp) hnd.2 (fun hq => hci (List.mem_cons_of_mem i hq)) hcin hcix

/-- Unlinking a non-head member: the predecessor found by the walk is a chain
member, and re-pointing it removes exactly the target. -/
theorem isChain_unlink {nxt : Nat → Nat} {ci : Nat} {h : Nat} {L : List Nat}
    (hc : IsChain nxt h L) :
    ∀ fuel, L.Nodup → ci ∈ L → h ≠ ci → L.length ≤ fuel →
      findPred (updF nxt ci NULL_INDEX) ci fuel h ∈ L ∧
      IsChain (updF (updF nxt ci NULL_INDEX)
        (findPred (updF nxt ci NULL_INDEX) ci fuel h) (nxt ci)) h (L.erase ci) := by
  induction hc with
  | nil => intro fuel hnd hci; exact absurd hci (by simp)
  | cons i L hnull htail ih =>
    intro fuel hnd hci hne hf
    simp only [List.length_cons] at hf
    obtain ⟨f, rfl⟩ : ∃ f, fuel = f + 1 := ⟨fuel - 1, by omega⟩
    have hine : i ≠ ci := hne
    have hciL : ci ∈ L := by
      rcases List.mem_cons.mp hci with hq | hq
      · exact absurd hq.symm hine
      · exact hq
    rw [List.nodup_cons] at hnd
    have herase : ((i :: L) : List Nat).erase ci = i :: L.erase ci := by
      rw [List.erase_cons_tail]
      intro hq
      exact hine (by simpa using hq)
    by_cases hx : nxt i = ci
    · -- the predecessor is the head itself
      have hfp : findPred (updF nxt ci NULL_INDEX) ci (f + 1) i = i := by
        rw [findPred, if_pos (by unfold updF; rw [if_neg hine]; exact hx)]
      refine ⟨by rw [hfp]; exact List.mem_cons_self i L, ?_⟩
      rw [hfp, herase]
      cases L with
      | nil => exact absurd hciL (by simp)
      | cons b L' =>
        obtain ⟨hb, _, htail'⟩ := isChain_cons_elim htail
        have hbci : b = ci := by rw [← hb, hx]
        subst hbci
        rw [List.erase_cons_head]
        refine IsChain.cons i L' hnull ?_
        rw [show updF (updF nxt b NULL_INDEX) i (nxt b) i = nxt b from by
          unfold updF; simp]
        have hbnotL' : b ∉ L' := by
          have h2 := hnd.2
          rw [List.nodup_cons] at h2
          exact h2.1
        have hinotL' : i ∉ L' := fun hq => hnd.1 (List.mem_cons_of_mem b hq)
        refine isChain_frame htail' ?_
        intro j hj
        unfold updF
        rw [if_neg (fun hq : j = i => hinotL' (hq ▸ hj)),
          if_neg (fun hq : j = b => hbnotL' (hq ▸ hj))]
    · -- recurse into the tail
      have hLne : L ≠ [] := fun hq => by rw [hq] at hciL; simp at hciL
      have hheadne : nxt i ≠ ci := hx
      have ihr := ih f hnd.2 hciL hheadne (by omega)
      have hfp : findPred (updF nxt ci NULL_INDEX) ci (f + 1) i =
          findPred (updF nxt ci NULL_INDEX) ci f (nxt i) := by
        rw [findPred]
        rw [show updF nxt ci NULL_INDEX i = nxt i from by unfold updF; rw [if_neg hine]]
        rw [if_neg hx]
      rw [hfp, herase]
      refine ⟨List.mem_cons_of_mem i ihr.1, ?_⟩
      have hpred_ne_i : findPred (updF nxt ci NULL_INDEX) ci f (nxt i) ≠ i := by
        intro hq
        exact hnd.1 (hq ▸ ihr.1)
      refine IsChain.cons i (L.erase ci) hnull ?_
      rw [updF_ne _ _ _ (fun hq : i = findPred (updF nxt ci NULL_INDEX) ci f (nxt i) =>
        hpred_ne_i hq.symm), updF_ne _ _ _ hine]
      exact ihr.2

/-- A duplicate-free list of naturals below `n` has at most `n` elements. -/
theorem nodup_length_le {L : List Nat} {n : Nat} (hnd : L.Nodup)
    (hb : ∀ i ∈ L, i < n) : L.length ≤ n := by
  have hsub : L ⊆ List.range n := fun i hi => List.mem_range.mpr (hb i hi)
  have hle := (List.subperm_of_subset hnd hsub).length_le
  simpa using hle

theorem isChain_head_elim {nxt : Nat → Nat} {h : Nat} {L : List Nat}
    (hc : IsChain nxt h L) (hne : h ≠ NULL_INDEX) :
    ∃ L', L = h :: L' ∧ IsChain nxt (nxt h) L' := by
  cases hc with
  | nil => exact absurd rfl hne
  | cons i L hnull htail => exact ⟨L, rfl, htail⟩

/-- The bucket-index invariant shared by `list.c` (256 buckets keyed by the
byte value at the position) and `hash.c` (`HASH_SIZE` buckets keyed by the
3-byte hash at the position): there is a family `Ls` of bucket contents such
that every head starts a well-formed chain, every chain member is a window
position carrying its bucket's key and not currently `missing`, every chain
is duplicate-free, and every non-`missing` window position is in the bucket
of its own key.  `missing` tracks the positions temporarily removed in the
middle of a `ReplaceChar`. -/
def BucketInv (B : Nat) (heads nxt : Nat → Nat) (key : Nat → Nat)
    (missing : Nat → Prop) : Prop :=
  ∃ Ls : Nat → List Nat,
    (∀ k, k < B → IsChain nxt (heads k) (Ls k)) ∧
    (∀ k, k < B → ∀ i ∈ Ls k, i < WINDOW_SIZE ∧ key i = k ∧ ¬ missing i) ∧
    (∀ k, k < B → (Ls k).Nodup) ∧
    (∀ i, i < WINDOW_SIZE → ¬ missing i → key i < B ∧ i ∈ Ls (key i))

theorem bucketRemove_head_eq {heads nxt : Nat → Nat} {k ci : Nat}
    (hhead : heads k = ci) :
    bucketRemove heads nxt k ci =
      (updF heads k (nxt ci), updF nxt ci NULL_INDEX) := by
  unfold bucketRemove
  simp only []
  rw [if_pos hhead]

theorem bucketRemove_deep_eq {heads nxt : Nat → Nat} {k ci : Nat}
    (hhead : ¬ heads k = ci) :
    bucketRemove heads nxt k ci =
      (heads, updF (updF nxt ci NULL_INDEX)
        (findPred (updF nxt ci NULL_INDEX) ci (WINDOW_SIZE + 1) (heads k))
        (nxt ci)) := by
  unfold bucketRemove
  simp only []
  rw [if_neg hhead]

theorem bucketAdd_empty_eq {heads nxt : Nat → Nat} {k ci : Nat}
    (hhead : heads k = NULL_INDEX) :
    bucketAdd heads nxt k ci =
      (updF heads k ci, updF nxt ci NULL_INDEX) := by
  unfold bucketAdd
  simp only []
  rw [if_pos hhead]

theorem bucketAdd_tail_eq {heads nxt : Nat → Nat} {k ci : Nat}
    (hhead : ¬ heads k = NULL_INDEX) :
    bucketAdd heads nxt k ci =
      (heads, updF (updF nxt ci NULL_INDEX)
        (chainLast (updF nxt ci NULL_INDEX) (WINDOW_SIZE + 1) (heads k)) ci) := by
  unfold bucketAdd
  simp only []
  rw [if_neg hhead]

/-- `RemoveChar`/`RemoveString` preserves the bucket invariant, marking the
removed position as missing. -/
theorem bucketRemove_inv {B : Nat} {heads nxt key : Nat → Nat}
    {missing : Nat → Prop} (hinv : BucketInv B heads nxt key missing)
    (ci : Nat) (hci : ci < WINDOW_SIZE) (hmiss : ¬ missing ci) :
    BucketInv B (bucketRemove heads nxt (key ci) ci).1
      (bucketRemove heads nxt (key ci) ci).2 key
      (fun i => i = ci ∨ missing i) := by
  obtain ⟨Ls, hch, hmem, hnd, hin⟩ := hinv
  obtain ⟨hkB, hciL⟩ := hin ci hci hmiss
  have hcinull : ci ≠ NULL_INDEX := by unfold NULL_INDEX; omega
  have hci_other : ∀ k, k < B → k ≠ key ci → ci ∉ Ls k := by
    intro k hk hkne hq
    exact hkne ((hmem k hk ci hq).2.1).symm
  -- the three head-independent conditions for the erased family
  have h2 : ∀ k, k < B → ∀ i ∈ (if k = key ci then (Ls (key ci)).erase ci else Ls k),
      i < WINDOW_SIZE ∧ key i = k ∧ ¬ (i = ci ∨ missing i) := by
    intro k hk i hi
    by_cases hk0 : k = key ci
    · subst hk0
      rw [if_pos rfl] at hi
      have hiL := List.mem_of_mem_erase hi
      have hine : i ≠ ci := ((hnd _ hk).mem_erase_iff.mp hi).1
      obtain ⟨ha, hb, hc⟩ := hmem _ hk i hiL
      exact ⟨ha, hb, fun hq => hq.elim hine hc⟩
    · rw [if_neg hk0] at hi
      obtain ⟨ha, hb, hc⟩ := hmem k hk i hi
      have hine : i ≠ ci := fun he => hk0 ((he ▸ hb)).symm
      exact ⟨ha, hb, fun hq => hq.elim hine hc⟩
  have h3 : ∀ k, k < B → (if k = key ci then (Ls (key ci)).erase ci else Ls k).Nodup := by
    intro k hk
    by_cases hk0 : k = key ci
    · subst hk0; rw [if_pos rfl]; exact (hnd _ hk).erase ci
    · rw [if_neg hk0]; exact hnd k hk
  have h4 : ∀ i, i < WINDOW_SIZE → ¬ (i = ci ∨ missing i) →
      key i < B ∧ i ∈ (if key i = key ci then (Ls (key ci)).erase ci else Ls (key i)) := by
    intro i hiW hni
    have hine : i ≠ ci := fun he => hni (Or.inl he)
    have hmi : ¬ missing i := fun hm => hni (Or.inr hm)
    obtain ⟨hb, hmemi⟩ := hin i hiW hmi
    refine ⟨hb, ?_⟩
    by_cases hk0 : key i = key ci
    · rw [if_pos hk0]
      exact (hnd _ hkB).mem_erase_iff.mpr ⟨hine, hk0 ▸ hmemi⟩
    · rw [if_neg hk0]; exact hmemi
  by_cases hhead : heads (key ci) = ci
  · rw [bucketRemove_head_eq hhead]
    refine ⟨fun k => if k = key ci then (Ls (key ci)).erase ci else Ls k, ?_, h2, h3, h4⟩
    intro k hk
    by_cases hk0 : k = key ci
    · subst hk0
      obtain ⟨T, hT, htail⟩ := isChain_head_elim (hch _ hk)
        (by rw [hhead]; exact hcinull)
      rw [hhead] at hT htail
      have hnd0 := hnd _ hk
      rw [hT, List.nodup_cons] at hnd0
      show IsChain (updF nxt ci NULL_INDEX)
        (updF heads (key ci) (nxt ci) (key ci))
        (if key ci = key ci then (Ls (key ci)).erase ci else Ls (key ci))
      rw [if_pos rfl, updF_eq, hT, List.erase_cons_head]
      refine isChain_frame htail ?_
      intro j hj
      exact updF_ne _ _ _ (fun hq => hnd0.1 (hq ▸ hj))
    · show IsChain (updF nxt ci NULL_INDEX) (updF heads (key ci) (nxt ci) k)
        (if k = key ci then (Ls (key ci)).erase ci else Ls k)
      rw [if_neg hk0, updF_ne _ _ _ hk0]
      refine isChain_frame (hch k hk) ?_
      intro j hj
      exact updF_ne _ _ _ (fun hq => hci_other k hk hk0 (hq ▸ hj))
  · have hlen : (Ls (key ci)).length ≤ WINDOW_SIZE + 1 := by
      have := nodup_length_le (hnd _ hkB) (fun i hi => (hmem _ hkB i hi).1)
      omega
    have hun := isChain_unlink (hch _ hkB) (WINDOW_SIZE + 1) (hnd _ hkB) hciL hhead hlen
    rw [bucketRemove_deep_eq hhead]
    refine ⟨fun k => if k = key ci then (Ls (key ci)).erase ci else Ls k, ?_, h2, h3, h4⟩
    intro k hk
    by_cases hk0 : k = key ci
    · subst hk0
      show IsChain _ (heads (key ci))
        (if key ci = key ci then (Ls (key ci)).erase ci else Ls (key ci))
      rw [if_pos rfl]
      exact hun.2
    · show IsChain _ (heads k) (if k = key ci then (Ls (key ci)).erase ci else Ls k)
      rw [if_neg hk0]
      refine isChain_frame (hch k hk) ?_
      intro j hj
      have hj1 : j ≠ ci := fun hq => hci_other k hk hk0 (hq ▸ hj)
      have hj2 : j ≠ findPred (updF nxt ci NULL_INDEX) ci (WINDOW_SIZE + 1)
          (heads (key ci)) := by
        intro hq
        have ha : key j = k := (hmem k hk j hj).2.1
        have hbk : key (findPred (updF nxt ci NULL_INDEX) ci (WINDOW_SIZE + 1)
            (heads (key ci))) = key ci := (hmem _ hkB _ hun.1).2.1
        rw [hq] at ha
        exact hk0 (ha.symm.trans hbk)
      show updF (updF nxt ci NULL_INDEX)
        (findPred (updF nxt ci NULL_INDEX) ci (WINDOW_SIZE + 1) (heads (key ci)))
        (nxt ci) j = nxt j
      rw [updF_ne _ _ _ hj2, updF_ne _ _ _ hj1]

/-- `AddChar`/`AddString` preserves the bucket invariant, un-marking the
inserted position. -/
theorem bucketAdd_inv {B : Nat} {heads nxt key : Nat → Nat}
    {missing : Nat → Prop} (hinv : BucketInv B heads nxt key missing)
    (ci : Nat) (hci : ci < WINDOW_SIZE) (hmiss : missing ci) (hkB : key ci < B) :
    BucketInv B (bucketAdd heads nxt (key ci) ci).1
      (bucketAdd heads nxt (key ci) ci).2 key
      (fun i => missing i ∧ i ≠ ci) := by
  obtain ⟨Ls, hch, hmem, hnd, hin⟩ := hinv
  have hcinull : ci ≠ NULL_INDEX := by unfold NULL_INDEX; omega
  have hci_notin : ∀ k, k < B → ci ∉ Ls k := fun k hk hq =>
    (hmem k hk ci hq).2.2 hmiss
  have hch1 : ∀ k, k < B → IsChain (updF nxt ci NULL_INDEX) (heads k) (Ls k) := by
    intro k hk
    refine isChain_frame (hch k hk) ?_
    intro j hj
    exact updF_ne _ _ _ (fun hq => hci_notin k hk (hq ▸ hj))
  -- the three head-independent conditions for the appended family
  have h2 : ∀ k, k < B → ∀ i ∈ (if k = key ci then Ls (key ci) ++ [ci] else Ls k),
      i < WINDOW_SIZE ∧ key i = k ∧ ¬ (missing i ∧ i ≠ ci) := by
    intro k hk i hi
    by_cases hk0 : k = key ci
    · subst hk0
      rw [if_pos rfl] at hi
      rcases List.mem_append.mp hi with hq | hq
      · obtain ⟨ha, hb, hc⟩ := hmem _ hk i hq
        exact ⟨ha, hb, fun hx => hc hx.1⟩
      · have hic : i = ci := by simpa using hq
        subst hic
        exact ⟨hci, rfl, fun hx => hx.2 rfl⟩
    · rw [if_neg hk0] at hi
      obtain ⟨ha, hb, hc⟩ := hmem k hk i hi
      exact ⟨ha, hb, fun hx => hc hx.1⟩
  have h3 : ∀ k, k < B → (if k = key ci then Ls (key ci) ++ [ci] else Ls k).Nodup := by
    intro k hk
    by_cases hk0 : k = key ci
    · subst hk0
      rw [if_pos rfl]
      refine (hnd _ hk).append (by simp) ?_
      exact List.disjoint_singleton.mpr (hci_notin _ hk)
    · rw [if_neg hk0]; exact hnd k hk
  have h4 : ∀ i, i < WINDOW_SIZE → ¬ (missing i ∧ i ≠ ci) →
      key i < B ∧ i ∈ (if key i = key ci then Ls (key ci) ++ [ci] else Ls (key i)) := by
    intro i hiW hni
    by_cases hic : i = ci
    · subst hic
      refine ⟨hkB, ?_⟩
      rw [if_pos rfl]
      exact List.mem_append.mpr (Or.inr (by simp))
    · have hmi : ¬ missing i := fun hm => hni ⟨hm, hic⟩
      obtain ⟨hb, hmemi⟩ := hin i hiW hmi
      refine ⟨hb, ?_⟩
      by_cases hk0 : key i = key ci
      · rw [if_pos hk0]
        exact List.mem_append.mpr (Or.inl (hk0 ▸ hmemi))
      · rw [if_neg hk0]; exact hmemi
  by_cases hhead : heads (key ci) = NULL_INDEX
  · have hLnil : Ls (key ci) = [] := isChain_null (hhead ▸ hch _ hkB)
    rw [bucketAdd_empty_eq hhead]
    refine ⟨fun k => if k = key ci then Ls (key ci) ++ [ci] else Ls k, ?_, h2, h3, h4⟩
    intro k hk
    by_cases hk0 : k = key ci
    · subst hk0
      show IsChain (updF nxt ci NULL_INDEX) (updF heads (key ci) ci (key ci))
        (if key ci = key ci then Ls (key ci) ++ [ci] else Ls (key ci))
      rw [if_pos rfl, updF_eq, hLnil, List.nil_append]
      refine IsChain.cons ci [] hcinull ?_
      rw [updF_eq]
      exact IsChain.nil
    · show IsChain (updF nxt ci NULL_INDEX) (updF heads (key ci) ci k)
        (if k = key ci then Ls (key ci) ++ [ci] else Ls k)
      rw [if_neg hk0, updF_ne _ _ _ hk0]
      exact hch1 k hk
  · have hLne : Ls (key ci) ≠ [] := by
      intro hq
      exact hhead (isChain_nil_elim (hq ▸ hch _ hkB))
    have hlen : (Ls (key ci)).length ≤ WINDOW_SIZE + 1 := by
      have := nodup_length_le (hnd _ hkB) (fun i hi => (hmem _ hkB i hi).1)
      omega
    have hlast : chainLast (updF nxt ci NULL_INDEX) (WINDOW_SIZE + 1) (heads (key ci)) =
        (Ls (key ci)).getLast hLne :=
      chainLast_of_isChain (hch1 _ hkB) hLne _ hlen
    have hlast_mem : (Ls (key ci)).getLast hLne ∈ Ls (key ci) := List.getLast_mem hLne
    have hsnoc := isChain_snoc (hch1 _ hkB) hLne (hnd _ hkB) (hci_notin _ hkB)
      hcinull (updF_eq _ _ _)
    rw [bucketAdd_tail_eq hhead, hlast]
    refine ⟨fun k => if k = key ci then Ls (key ci) ++ [ci] else Ls k, ?_, h2, h3, h4⟩
    intro k hk
    by_cases hk0 : k = key ci
    · subst hk0
      show IsChain _ (heads (key ci))
        (if key ci = key ci then Ls (key ci) ++ [ci] else Ls (key ci))
      rw [if_pos rfl]
      exact hsnoc
    · show IsChain _ (heads k) (if k = key ci then Ls (key ci) ++ [ci] else Ls k)
      rw [if_neg hk0]
      refine isChain_frame (hch k hk) ?_
      intro j hj
      have hj1 : j ≠ ci := fun hq => hci_notin k hk (hq ▸ hj)
      have hj2 : j ≠ (Ls (key ci)).getLast hLne := by
        intro hq
        have ha : key j = k := (hmem k hk j hj).2.1
        have hbk : key ((Ls (key ci)).getLast hLne) = key ci :=
          (hmem _ hkB _ hlast_mem).2.1
        rw [hq] at ha
        exact hk0 (ha.symm.trans hbk)
      show updF (updF nxt ci NULL_INDEX) ((Ls (key ci)).getLast hLne) ci j = nxt j
      rw [updF_ne _ _ _ hj2, updF_ne _ _ _ hj1]

/-- The bucket invariant transports along a key function that agrees on all
non-missing positions, and along an equivalent missing predicate. -/
theorem bucketInv_congr {B : Nat} {heads nxt key : Nat → Nat}
    {missing : Nat → Prop} (key2 : Nat → Nat) (missing2 : Nat → Prop)
    (hinv : BucketInv B heads nxt key missing)
    (hkey : ∀ i, i < WINDOW_SIZE → ¬ missing i → key2 i = key i)
    (hm : ∀ i, missing2 i ↔ missing i) :
    BucketInv B heads nxt key2 missing2 := by
  obtain ⟨Ls, hch, hmem, hnd, hin⟩ := hinv
  refine ⟨Ls, hch, ?_, hnd, ?_⟩
  · intro k hk i hi
    obtain ⟨ha, hb, hc⟩ := hmem k hk i hi
    exact ⟨ha, by rw [hkey i ha hc]; exact hb, fun hq => hc ((hm i).mp hq)⟩
  · intro i hiW hni
    have hmi : ¬ missing i := fun hq => hni ((hm i).mpr hq)
    obtain ⟨hb, hmemi⟩ := hin i hiW hmi
    rw [hkey i hiW hmi]
    exact ⟨hb, hmemi⟩

/-- The list-strategy index invariant (`list.c`): every window position is on
the list of its current byte value, and on no other list. -/
def ListInv (st : ListState) (w : Window) : Prop :=
  BucketInv 256 st.lists st.nxt (fun i => (w i).val) (fun _ => False)

/-- The hash-strategy index invariant (`hash.c`): every window position is in
the bucket of the hash of its current 3-byte prefix, and in no other
bucket. -/
def HashInv (st : HashState) (w : Window) : Prop :=
  BucketInv HASH_SIZE st.hashTable st.nxt
    (fun i => hashKey w i WINDOW_SIZE) (fun _ => False)

/-- `ReplaceChar` of `list.c` preserves the index invariant. -/
theorem listReplaceChar_inv {st : ListState} {w : Window} {ci : Nat} {b : Byte}
    (hinv : ListInv st w) (hci : ci < WINDOW_SIZE) :
    ListInv (listReplaceChar st w ci b).1 (listReplaceChar st w ci b).2 := by
  have hinv' : BucketInv 256 st.lists st.nxt (fun i => (w i).val)
    (fun _ => False) := hinv
  have h1 := bucketRemove_inv hinv' ci hci (fun h => h)
  have h2 := bucketInv_congr (fun i => ((upd w ci b) i).val)
    (fun i => i = ci ∨ False) h1
    (fun i _ hni => by
      show (upd w ci b i).val = (w i).val
      unfold upd
      rw [if_neg (fun hq => hni (Or.inl hq))])
    (fun i => Iff.rfl)
  have h3 := bucketAdd_inv h2 ci hci (Or.inl rfl) (upd w ci b ci).isLt
  exact bucketInv_congr (fun i => ((upd w ci b) i).val) (fun _ => False) h3
    (fun i _ _ => rfl)
    (fun i => ⟨False.elim, fun hq => hq.2 (hq.1.elim id False.elim)⟩)

theorem foldl_mod_lt {α : Type} (g : Nat → α → Nat) (l : List α) (a : α)
    (init : Nat) :
    (l ++ [a]).foldl (fun k x => g k x % HASH_SIZE) init < HASH_SIZE := by
  rw [List.foldl_append]
  show _ % HASH_SIZE < HASH_SIZE
  exact Nat.mod_lt _ (by decide)

/-- The hash key is always a valid bucket index. -/
theorem hashKey_lt (buffer : Nat → Byte) (offset bufferLen : Nat) :
    hashKey buffer offset bufferLen < HASH_SIZE := by
  unfold hashKey
  rw [show (List.range (MAX_UNCODED + 1)) = [0, 1] ++ [2] from by decide]
  exact foldl_mod_lt
    (fun k i => (k <<< 5) ^^^ (buffer (Wrap (offset + i) bufferLen)).val) [0, 1] 2 0

/-- Changing the byte at `ci` leaves the hash key of any position whose
3-byte string avoids `ci` unchanged. -/
theorem hashKey_upd_ne (w : Window) (ci : Nat) (b : Byte) (p : Nat)
    (hp : ∀ j, j < MAX_UNCODED + 1 → Wrap (p + j) WINDOW_SIZE ≠ ci) :
    hashKey (upd w ci b) p WINDOW_SIZE = hashKey w p WINDOW_SIZE := by
  unfold hashKey
  rw [show (List.range (MAX_UNCODED + 1)) = [0, 1, 2] from by decide]
  simp only [List.foldl_cons, List.foldl_nil]
  unfold upd
  rw [if_neg (hp 0 (by decide)), if_neg (hp 1 (by decide)),
    if_neg (hp 2 (by decide))]

/-- `ReplaceChar` of `hash.c`, with the two range-3 folds unrolled. -/
theorem hashReplaceChar_eq (st : HashState) (w : Window) (ci : Nat) (b : Byte) :
    hashReplaceChar st w ci b =
      (let fi := if ci < MAX_UNCODED then (WINDOW_SIZE + ci) - MAX_UNCODED
                 else ci - MAX_UNCODED
       hashAddString (hashAddString (hashAddString
         (hashRemoveString (hashRemoveString (hashRemoveString st w
            (Wrap (fi + 0) WINDOW_SIZE)) w (Wrap (fi + 1) WINDOW_SIZE)) w
            (Wrap (fi + 2) WINDOW_SIZE))
         (upd w ci b) (Wrap (fi + 0) WINDOW_SIZE)) (upd w ci b)
         (Wrap (fi + 1) WINDOW_SIZE)) (upd w ci b) (Wrap (fi + 2) WINDOW_SIZE),
       upd w ci b) := rfl

/-- `ReplaceChar` of `hash.c` preserves the index invariant. -/
theorem hashReplaceChar_inv {st : HashState} {w : Window} {ci : Nat} {b : Byte}
    (hinv : HashInv st w) (hci : ci < WINDOW_SIZE) :
    HashInv (hashReplaceChar st w ci b).1 (hashReplaceChar st w ci b).2 := by
  obtain ⟨fi, hfi⟩ : ∃ x, (if ci < MAX_UNCODED then (WINDOW_SIZE + ci) - MAX_UNCODED
      else ci - MAX_UNCODED) = x := ⟨_, rfl⟩
  have hfiW : fi < WINDOW_SIZE := by
    rw [← hfi]
    unfold WINDOW_SIZE at hci
    unfold MAX_UNCODED WINDOW_SIZE
    split <;> omega
  have hfic : Wrap (fi + 2) WINDOW_SIZE = ci := by
    rw [← hfi]
    unfold WINDOW_SIZE at hci
    unfold Wrap MAX_UNCODED WINDOW_SIZE
    split <;> omega
  have hq0W : Wrap (fi + 0) WINDOW_SIZE < WINDOW_SIZE := Nat.mod_lt _ (by decide)
  have hq1W : Wrap (fi + 1) WINDOW_SIZE < WINDOW_SIZE := Nat.mod_lt _ (by decide)
  have hq2W : Wrap (fi + 2) WINDOW_SIZE < WINDOW_SIZE := Nat.mod_lt _ (by decide)
  have hne01 : Wrap (fi + 0) WINDOW_SIZE ≠ Wrap (fi + 1) WINDOW_SIZE := by
    unfold Wrap WINDOW_SIZE at hfiW ⊢; omega
  have hne02 : Wrap (fi + 0) WINDOW_SIZE ≠ Wrap (fi + 2) WINDOW_SIZE := by
    unfold Wrap WINDOW_SIZE at hfiW ⊢; omega
  have hne12 : Wrap (fi + 1) WINDOW_SIZE ≠ Wrap (fi + 2) WINDOW_SIZE := by
    unfold Wrap WINDOW_SIZE at hfiW ⊢; omega
  have hstab : ∀ p, p < WINDOW_SIZE → p ≠ Wrap (fi + 0) WINDOW_SIZE →
      p ≠ Wrap (fi + 1) WINDOW_SIZE → p ≠ Wrap (fi + 2) WINDOW_SIZE →
      ∀ j, j < MAX_UNCODED + 1 → Wrap (p + j) WINDOW_SIZE ≠ ci := by
    intro p hp h0 h1 h2 j hj
    rw [← hfic]
    unfold Wrap MAX_UNCODED WINDOW_SIZE at *
    omega
  have hinv' : BucketInv HASH_SIZE st.hashTable st.nxt
    (fun i => hashKey w i WINDOW_SIZE) (fun _ => False) := hinv
  have hR0 := bucketRemove_inv hinv' (Wrap (fi + 0) WINDOW_SIZE) hq0W (fun h => h)
  have hR1 := bucketRemove_inv hR0 (Wrap (fi + 1) WINDOW_SIZE) hq1W
    (fun h => h.elim (fun he => hne01 he.symm) False.elim)
  have hR2 := bucketRemove_inv hR1 (Wrap (fi + 2) WINDOW_SIZE) hq2W
    (fun h => h.elim (fun he => hne12 he.symm)
      (fun h2 => h2.elim (fun he => hne02 he.symm) False.elim))
  have hT := bucketInv_congr
    (fun i => hashKey (upd w ci b) i WINDOW_SIZE)
    (fun i => i = Wrap (fi + 2) WINDOW_SIZE ∨ (i = Wrap (fi + 1) WINDOW_SIZE ∨
      (i = Wrap (fi + 0) WINDOW_SIZE ∨ False))) hR2
    (fun p hpW hpm => hashKey_upd_ne w ci b p
      (hstab p hpW (fun he => hpm (Or.inr (Or.inr (Or.inl he))))
        (fun he => hpm (Or.inr (Or.inl he))) (fun he => hpm (Or.inl he))))
    (fun i => Iff.rfl)
  have hA0 := bucketAdd_inv hT (Wrap (fi + 0) WINDOW_SIZE) hq0W
    (Or.inr (Or.inr (Or.inl rfl))) (hashKey_lt _ _ _)
  have hA1 := bucketAdd_inv hA0 (Wrap (fi + 1) WINDOW_SIZE) hq1W
    ⟨Or.inr (Or.inl rfl), fun he => hne01 he.symm⟩ (hashKey_lt _ _ _)
  have hA2 := bucketAdd_inv hA1 (Wrap (fi + 2) WINDOW_SIZE) hq2W
    ⟨⟨Or.inl rfl, fun he => hne02 he.symm⟩, fun he => hne12 he.symm⟩
    (hashKey_lt _ _ _)
  have hF := bucketInv_congr (fun i => hashKey (upd w ci b) i WINDOW_SIZE)
    (fun _ => False) hA2 (fun i _ _ => rfl)
    (fun i => ⟨False.elim, fun hq => (hq.1.1.1).elim hq.2
      (fun h => h.elim hq.1.2 (fun h2 => h2.elim hq.1.1.2 False.elim))⟩)
  rw [hashReplaceChar_eq]
  simp only []
  rw [hfi]
  exact hF

/-- The single chain `a → a+1 → ⋯ → WINDOW_SIZE-1` built by
`InitializeSearchStructures` (both `list.c` and `hash.c`). -/
theorem isChain_init : ∀ m a, a + m = WINDOW_SIZE → 0 < m →
    IsChain (fun i => if i < WINDOW_SIZE - 1 then i + 1 else NULL_INDEX) a
      (List.range' a m) := by
  intro m
  induction m with
  | zero => intro a ha h0; omega
  | succ m ih =>
    intro a ha h0
    have hanull : a ≠ NULL_INDEX := by unfold NULL_INDEX; omega
    rw [List.range'_succ]
    refine IsChain.cons a (List.range' (a + 1) m) hanull ?_
    by_cases hm : m = 0
    · subst hm
      show IsChain _ (if a < WINDOW_SIZE - 1 then a + 1 else NULL_INDEX)
        (List.range' (a + 1) 0)
      rw [if_neg (by omega), List.range'_zero]
      exact IsChain.nil
    · show IsChain _ (if a < WINDOW_SIZE - 1 then a + 1 else NULL_INDEX)
        (List.range' (a + 1) m)
      rw [if_pos (by omega)]
      exact ih (a + 1) (by omega) (by omega)

/-- `InitializeSearchStructures` of `list.c` establishes the index invariant
when the window is filled with a single byte. -/
theorem initListState_inv (w : Window)
    (hconst : ∀ i, i < WINDOW_SIZE → w i = w 0) :
    ListInv (initListState w) w := by
  refine ⟨fun k => if k = (w 0).val then List.range' 0 WINDOW_SIZE else [],
    ?_, ?_, ?_, ?_⟩
  · intro k hk
    by_cases hk0 : k = (w 0).val
    · show IsChain _ (if k = (w 0).val then 0 else NULL_INDEX)
        (if k = (w 0).val then List.range' 0 WINDOW_SIZE else [])
      rw [if_pos hk0, if_pos hk0]
      exact isChain_init WINDOW_SIZE 0 (by omega) (by decide)
    · show IsChain _ (if k = (w 0).val then 0 else NULL_INDEX)
        (if k = (w 0).val then List.range' 0 WINDOW_SIZE else [])
      rw [if_neg hk0, if_neg hk0]
      exact IsChain.nil
  · intro k hk i hi
    simp only [] at hi ⊢
    by_cases hk0 : k = (w 0).val
    · rw [if_pos hk0] at hi
      rw [List.mem_range'_1] at hi
      refine ⟨by omega, ?_, fun h => h⟩
      rw [hconst i (by omega), hk0]
    · rw [if_neg hk0] at hi
      exact absurd hi (List.not_mem_nil i)
  · intro k hk
    simp only []
    by_cases hk0 : k = (w 0).val
    · rw [if_pos hk0]; exact List.nodup_range' 0 WINDOW_SIZE
    · rw [if_neg hk0]; exact List.nodup_nil
  · intro i hiW hmi
    refine ⟨(w i).isLt, ?_⟩
    show i ∈ if (w i).val = (w 0).val then List.range' 0 WINDOW_SIZE else []
    rw [if_pos (by rw [hconst i hiW])]
    rw [List.mem_range'_1]
    omega

/-- Over a constant window the hash key is the same at every position. -/
theorem hashKey_const (w : Window)
    (hconst : ∀ i, i < WINDOW_SIZE → w i = w 0) (p : Nat) :
    hashKey w p WINDOW_SIZE = hashKey w 0 WINDOW_SIZE := by
  unfold hashKey
  rw [show (List.range (MAX_UNCODED + 1)) = [0, 1, 2] from by decide]
  simp only [List.foldl_cons, List.foldl_nil]
  rw [hconst (Wrap (p + 0) WINDOW_SIZE) (Nat.mod_lt _ (by decide)),
    hconst (Wrap (p + 1) WINDOW_SIZE) (Nat.mod_lt _ (by decide)),
    hconst (Wrap (p + 2) WINDOW_SIZE) (Nat.mod_lt _ (by decide)),
    hconst (Wrap (0 + 0) WINDOW_SIZE) (Nat.mod_lt _ (by decide)),
    hconst (Wrap (0 + 1) WINDOW_SIZE) (Nat.mod_lt _ (by decide)),
    hconst (Wrap (0 + 2) WINDOW_SIZE) (Nat.mod_lt _ (by decide))]

/-- `InitializeSearchStructures` of `hash.c` establishes the index invariant
when the window is filled with a single byte. -/
theorem initHashState_inv (w : Window)
    (hconst : ∀ i, i < WINDOW_SIZE → w i = w 0) :
    HashInv (initHashState w) w := by
  refine ⟨fun k => if k = hashKey w 0 WINDOW_SIZE then List.range' 0 WINDOW_SIZE
    else [], ?_, ?_, ?_, ?_⟩
  · intro k hk
    by_cases hk0 : k = hashKey w 0 WINDOW_SIZE
    · show IsChain _ (if k = hashKey w 0 WINDOW_SIZE then 0 else NULL_INDEX)
        (if k = hashKey w 0 WINDOW_SIZE then List.range' 0 WINDOW_SIZE else [])
      rw [if_pos hk0, if_pos hk0]
      exact isChain_init WINDOW_SIZE 0 (by omega) (by decide)
    · show IsChain _ (if k = hashKey w 0 WINDOW_SIZE then 0 else NULL_INDEX)
        (if k = hashKey w 0 WINDOW_SIZE then List.range' 0 WINDOW_SIZE else [])
      rw [if_neg hk0, if_neg hk0]
      exact IsChain.nil
  · intro k hk i hi
    simp only [] at hi ⊢
    by_cases hk0 : k = hashKey w 0 WINDOW_SIZE
    · rw [if_pos hk0] at hi
      rw [List.mem_range'_1] at hi
      refine ⟨by omega, ?_, fun h => h⟩
      rw [hashKey_const w hconst i, hk0]
    · rw [if_neg hk0] at hi
      exact absurd hi (List.not_mem_nil i)
  · intro k hk
    simp only []
    by_cases hk0 : k = hashKey w 0 WINDOW_SIZE
    · rw [if_pos hk0]; exact List.nodup_range' 0 WINDOW_SIZE
    · rw [if_neg hk0]; exact List.nodup_nil
  · intro i hiW hmi
    refine ⟨hashKey_lt _ _ _, ?_⟩
    show i ∈ if hashKey w i WINDOW_SIZE = hashKey w 0 WINDOW_SIZE then
      List.range' 0 WINDOW_SIZE else []
    rw [if_pos (hashKey_const w hconst i)]
    rw [List.mem_range'_1]
    omega

/-- A sequence of `ReplaceChar` calls in the list strategy: each operation is
a window position and the byte written there. -/
def applyListOps : ListState × Window → List (Nat × Byte) → ListState × Window
  | sw, [] => sw
  | sw, op :: ops => applyListOps (listReplaceChar sw.1 sw.2 op.1 op.2) ops

/-- A sequence of `ReplaceChar` calls in the hash strategy. -/
def applyHashOps : HashState × Window → List (Nat × Byte) → HashState × Window
  | sw, [] => sw
  | sw, op :: ops => applyHashOps (hashReplaceChar sw.1 sw.2 op.1 op.2) ops

theorem applyListOps_inv : ∀ (ops : List (Nat × Byte)) (sw : ListState × Window),
    ListInv sw.1 sw.2 → (∀ op ∈ ops, op.1 < WINDOW_SIZE) →
    ListInv (applyListOps sw ops).1 (applyListOps sw ops).2 := by
  intro ops
  induction ops with
  | nil => intro sw h _; exact h
  | cons op ops ih =>
    intro sw h hops
    exact ih _ (listReplaceChar_inv h (hops op (List.mem_cons_self _ _)))
      (fun p hp => hops p (List.mem_cons_of_mem _ hp))

theorem applyHashOps_inv : ∀ (ops : List (Nat × Byte)) (sw : HashState × Window),
    HashInv sw.1 sw.2 → (∀ op ∈ ops, op.1 < WINDOW_SIZE) →
    HashInv (applyHashOps sw ops).1 (applyHashOps sw ops).2 := by
  intro ops
  induction ops with
  | nil => intro sw h _; exact h
  | cons op ops ih =>
    intro sw h hops
    exact ih _ (hashReplaceChar_inv h (hops op (List.mem_cons_self _ _)))
      (fun p hp => hops p (List.mem_cons_of_mem _ hp))

/-- Reading the invariant through the fuel-bounded chain walk: membership in
the own-key bucket, the key of every member, and duplicate-freedom. -/
theorem bucketInv_chainN {B : Nat} {heads nxt key : Nat → Nat}
    (hinv : BucketInv B heads nxt key (fun _ => False)) :
    (∀ i, i < WINDOW_SIZE → key i < B ∧
      i ∈ chainN nxt (WINDOW_SIZE + 1) (heads (key i))) ∧
    (∀ k, k < B → ∀ i ∈ chainN nxt (WINDOW_SIZE + 1) (heads k),
      i < WINDOW_SIZE ∧ key i = k) ∧
    (∀ k, k < B → (chainN nxt (WINDOW_SIZE + 1) (heads k)).Nodup) := by
  obtain ⟨Ls, hch, hmem, hnd, hin⟩ := hinv
  have hLs : ∀ k, k < B → chainN nxt (WINDOW_SIZE + 1) (heads k) = Ls k := by
    intro k hk
    refine chainN_of_isChain (hch k hk) _ ?_
    have := nodup_length_le (hnd k hk) (fun i hi => (hmem k hk i hi).1)
    omega
  refine ⟨?_, ?_, ?_⟩
  · intro i hiW
    obtain ⟨hb, hmemi⟩ := hin i hiW (fun h => h)
    exact ⟨hb, by rw [hLs _ hb]; exact hmemi⟩
  · intro k hk i hi
    rw [hLs k hk] at hi
    exact ⟨(hmem k hk i hi).1, (hmem k hk i hi).2.1⟩
  · intro k hk
    rw [hLs k hk]
    exact hnd k hk

/-- **C6.** Starting from the initialized auxiliary index over a window
filled with one identical byte, after any sequence of in-range `ReplaceChar`
calls every window position is discoverable by searching the structure for
its own current content.  List strategy: every window index is on the linked
list headed by the byte value currently stored at that index, on no other
list, and every list is duplicate-free (so it appears in exactly one list).
Hash strategy: every window index is in the bucket of the hash of its
current 3-byte string, in no other bucket, and every bucket is
duplicate-free. -/
theorem index_consistency (w0 : Window) (ops : List (Nat × Byte))
    (hconst : ∀ i, i < WINDOW_SIZE → w0 i = w0 0)
    (hops : ∀ op ∈ ops, op.1 < WINDOW_SIZE) :
    (∀ i, i < WINDOW_SIZE →
      i ∈ chainN (applyListOps (initListState w0, w0) ops).1.nxt (WINDOW_SIZE + 1)
        ((applyListOps (initListState w0, w0) ops).1.lists
          (((applyListOps (initListState w0, w0) ops).2 i).val)) ∧
      ∀ v, v < 256 → v ≠ (((applyListOps (initListState w0, w0) ops).2 i).val) →
        i ∉ chainN (applyListOps (initListState w0, w0) ops).1.nxt (WINDOW_SIZE + 1)
          ((applyListOps (initListState w0, w0) ops).1.lists v)) ∧
    (∀ v, v < 256 →
      (chainN (applyListOps (initListState w0, w0) ops).1.nxt (WINDOW_SIZE + 1)
        ((applyListOps (initListState w0, w0) ops).1.lists v)).Nodup) ∧
    (∀ i, i < WINDOW_SIZE →
      i ∈ chainN (applyHashOps (initHashState w0, w0) ops).1.nxt (WINDOW_SIZE + 1)
        ((applyHashOps (initHashState w0, w0) ops).1.hashTable
          (hashKey (applyHashOps (initHashState w0, w0) ops).2 i WINDOW_SIZE)) ∧
      ∀ k, k < HASH_SIZE →
        k ≠ hashKey (applyHashOps (initHashState w0, w0) ops).2 i WINDOW_SIZE →
        i ∉ chainN (applyHashOps (initHashState w0, w0) ops).1.nxt (WINDOW_SIZE + 1)
          ((applyHashOps (initHashState w0, w0) ops).1.hashTable k)) ∧
    (∀ k, k < HASH_SIZE →
      (chainN (applyHashOps (initHashState w0, w0) ops).1.nxt (WINDOW_SIZE + 1)
        ((applyHashOps (initHashState w0, w0) ops).1.hashTable k)).Nodup) := by
  have hL := applyListOps_inv ops (initListState w0, w0)
    (initListState_inv w0 hconst) hops
  have hH := applyHashOps_inv ops (initHashState w0, w0)
    (initHashState_inv w0 hconst) hops
  obtain ⟨hL1, hL2, hL3⟩ := bucketInv_chainN hL
  obtain ⟨hH1, hH2, hH3⟩ := bucketInv_chainN hH
  refine ⟨?_, hL3, ?_, hH3⟩
  · intro i hiW
    refine ⟨(hL1 i hiW).2, ?_⟩
    intro v hv hne hmem
    exact hne ((hL2 v hv i hmem).2).symm
  · intro i hiW
    refine ⟨(hH1 i hiW).2, ?_⟩
    intro k hk hne hmem
    exact hne ((hH2 k hk i hmem).2).symm

/-- Witness for C6: the space-filled initial window and a single
`ReplaceChar` writing byte 65 at position 0. -/
theorem index_consistency_witness :
    (∀ i, i < WINDOW_SIZE → initWindow i = initWindow 0) ∧
    (∀ op ∈ ([(0, (65 : Byte))] : List (Nat × Byte)), op.1 < WINDOW_SIZE) ∧
    ((∀ i, i < WINDOW_SIZE →
      i ∈ chainN (applyListOps (initListState initWindow, initWindow)
          [(0, (65 : Byte))]).1.nxt (WINDOW_SIZE + 1)
        ((applyListOps (initListState initWindow, initWindow)
          [(0, (65 : Byte))]).1.lists
          (((applyListOps (initListState initWindow, initWindow)
            [(0, (65 : Byte))]).2 i).val)) ∧
      ∀ v, v < 256 → v ≠ (((applyListOps (initListState initWindow, initWindow)
          [(0, (65 : Byte))]).2 i).val) →
        i ∉ chainN (applyListOps (initListState initWindow, initWindow)
            [(0, (65 : Byte))]).1.nxt (WINDOW_SIZE + 1)
          ((applyListOps (initListState initWindow, initWindow)
            [(0, (65 : Byte))]).1.lists v)) ∧
    (∀ v, v < 256 →
      (chainN (applyListOps (initListState initWindow, initWindow)
          [(0, (65 : Byte))]).1.nxt (WINDOW_SIZE + 1)
        ((applyListOps (initListState initWindow, initWindow)
          [(0, (65 : Byte))]).1.lists v)).Nodup) ∧
    (∀ i, i < WINDOW_SIZE →
      i ∈ chainN (applyHashOps (initHashState initWindow, initWindow)
          [(0, (65 : Byte))]).1.nxt (WINDOW_SIZE + 1)
        ((applyHashOps (initHashState initWindow, initWindow)
          [(0, (65 : Byte))]).1.hashTable
          (hashKey (applyHashOps (initHashState initWindow, initWindow)
            [(0, (65 : Byte))]).2 i WINDOW_SIZE)) ∧
      ∀ k, k < HASH_SIZE →
        k ≠ hashKey (applyHashOps (initHashState initWindow, initWindow)
          [(0, (65 : Byte))]).2 i WINDOW_SIZE →
        i ∉ chainN (applyHashOps (initHashState initWindow, initWindow)
            [(0, (65 : Byte))]).1.nxt (WINDOW_SIZE + 1)
          ((applyHashOps (initHashState initWindow, initWindow)
            [(0, (65 : Byte))]).1.hashTable k)) ∧
    (∀ k, k < HASH_SIZE →
      (chainN (applyHashOps (initHashState initWindow, initWindow)
          [(0, (65 : Byte))]).1.nxt (WINDOW_SIZE + 1)
        ((applyHashOps (initHashState initWindow, initWindow)
          [(0, (65 : Byte))]).1.hashTable k)).Nodup)) :=
  ⟨fun i _ => rfl,
   fun op hop => by rw [List.mem_singleton] at hop; subst hop; decide,
   index_consistency initWindow [(0, (65 : Byte))] (fun i _ => rfl)
     (fun op hop => by rw [List.mem_singleton] at hop; subst hop; decide)⟩

/-- Witness for the amended C5 at window index 100. -/
theorem replaceChar_affected_positions_witness :
    100 < WINDOW_SIZE ∧
    (hashReplaceChar hsEmpty initWindow 100 (65 : Byte) =
      ((affectedPositions 100 (MAX_UNCODED + 1)).foldl
        (fun s p => hashAddString s (upd initWindow 100 (65 : Byte)) p)
        ((affectedPositions 100 (MAX_UNCODED + 1)).foldl
          (fun s p => hashRemoveString s initWindow p) hsEmpty),
       upd initWindow 100 (65 : Byte))) :=
  ⟨by decide,
    (replaceChar_affected_positions hsEmpty initTreeState initWindow 100 (65 : Byte)
      (by decide)).1⟩

/-! ## The encoder (`EncodeLZSS`, `lzss.c` lines 96–218), towards C1

### Bit-level inverses -/

theorem bitsOfNat_length (width : Nat) : ∀ n, (bitsOfNat width n).length = width := by
  induction width with
  | zero => intro n; rfl
  | succ w ih =>
    intro n
    rw [bitsOfNat]
    simp only [List.length_append, List.length_cons, List.length_nil, ih]

/-- `BitFileGetChar` after `BitFilePutChar`: reading back `width` bits written
most-significant-first recovers the value modulo `2 ^ width`. -/
theorem byteOfBits_bitsOfNat (width : Nat) :
    ∀ n, byteOfBits (bitsOfNat width n) = n % 2 ^ width := by
  induction width with
  | zero => intro n; simp [bitsOfNat, byteOfBits, Nat.mod_one]
  | succ w ih =>
    intro n
    rw [bitsOfNat]
    unfold byteOfBits
    rw [List.foldl_append]
    show 2 * ((bitsOfNat w (n / 2)).foldl (fun a b => 2 * a + (if b then 1 else 0)) 0) +
      (if decide (n % 2 = 1) then 1 else 0) = n % 2 ^ (w + 1)
    have h1 : (bitsOfNat w (n / 2)).foldl (fun a b => 2 * a + (if b then 1 else 0)) 0 =
        n / 2 % 2 ^ w := ih (n / 2)
    rw [h1]
    have h2 : (2 : Nat) ^ (w + 1) = 2 * 2 ^ w := by
      rw [Nat.pow_succ, Nat.mul_comm]
    rw [h2, Nat.mod_mul]
    have h3 : (if decide (n % 2 = 1) then 1 else 0) = n % 2 := by
      have : n % 2 < 2 := Nat.mod_lt n (by omega)
      by_cases hb : n % 2 = 1
      · simp [hb]
      · simp [hb]; omega
    rw [h3]
    omega

/-- The literal byte written by the encoder is read back exactly. -/
theorem byteValOf_bitsOfNat (b : Byte) : byteValOf (bitsOfNat 8 b.val) = b := by
  have h := byteOfBits_bitsOfNat 8 b.val
  have hlt : b.val < 256 := b.isLt
  unfold byteValOf
  refine Fin.ext ?_
  show byteOfBits (bitsOfNat 8 b.val) % 256 = b.val
  rw [h]
  have : b.val % 2 ^ 8 = b.val := Nat.mod_eq_of_lt (by omega)
  rw [this, Nat.mod_eq_of_lt hlt]

theorem packByte1_lt (offset : Nat) : packByte1 offset < 256 := by
  unfold packByte1
  have : offset % 4096 < 4096 := Nat.mod_lt _ (by omega)
  omega

theorem packByte2_lt (offset length : Nat) (h : length ≤ MAX_CODED) :
    packByte2 offset length < 256 := by
  unfold packByte2 MAX_CODED MAX_UNCODED at *
  have : offset % 16 < 16 := Nat.mod_lt _ (by omega)
  omega

/-- The decoder's unpacking recovers the encoder's offset modulo the window
size — no bound on the encoder's offset is needed, because the decoder's
window reads are also taken modulo `WINDOW_SIZE`. -/
theorem unpack_pack_mod (offset length : Nat)
    (hlo : MAX_UNCODED + 1 ≤ length) (hhi : length ≤ MAX_CODED) :
    unpackOffset (packByte1 offset) (packByte2 offset length) = offset % 4096 ∧
    unpackLength (packByte2 offset length) = length := by
  unfold unpackOffset unpackLength packByte1 packByte2 MAX_CODED MAX_UNCODED at *
  have h1 : offset % 16 < 16 := Nat.mod_lt _ (by omega)
  have h2 : offset % 4096 < 4096 := Nat.mod_lt _ (by omega)
  have h3 : offset % 4096 % 16 = offset % 16 := Nat.mod_mod_of_dvd _ (by omega)
  constructor
  · have hb2 : (offset % 16 * 16 + (length - 3)) % 256 = offset % 16 * 16 + (length - 3) :=
      Nat.mod_eq_of_lt (by omega)
    rw [hb2]
    omega
  · omega

/-! ### The encoder's loop state and the sliding step

`EncodeLZSS`'s loop state: the strategy's auxiliary structures, the sliding
window, the cyclic lookahead buffer with its head and fill level `len`, the
window head, and the remaining input bytes. -/

structure EncState (σ : Type) where
  st : σ
  w : Window
  la : Lookahead
  windowHead : Nat
  uncodedHead : Nat
  len : Nat
  input : List Byte

/-- One iteration of the first replacement loop (`lzss.c` 190–198): input is
available, so the displaced lookahead byte enters the window and the new input
byte enters the lookahead. -/
def slideConsume {σ : Type} (R : σ → Window → Nat → Byte → σ × Window)
    (es : EncState σ) (c : Byte) (rest : List Byte) : EncState σ :=
  let r := R es.st es.w es.windowHead (es.la es.uncodedHead)
  { st := r.1, w := r.2,
    la := upd es.la es.uncodedHead c,
    windowHead := (es.windowHead + 1) % WINDOW_SIZE,
    uncodedHead := (es.uncodedHead + 1) % MAX_CODED,
    len := es.len, input := rest }

/-- One iteration of the second replacement loop (`lzss.c` 201–209): the input
is exhausted, so the lookahead drains (`len--`). -/
def slideNoInput {σ : Type} (R : σ → Window → Nat → Byte → σ × Window)
    (es : EncState σ) : EncState σ :=
  let r := R es.st es.w es.windowHead (es.la es.uncodedHead)
  { st := r.1, w := r.2, la := es.la,
    windowHead := (es.windowHead + 1) % WINDOW_SIZE,
    uncodedHead := (es.uncodedHead + 1) % MAX_CODED,
    len := es.len - 1, input := es.input }

/-- The two replacement loops of `lzss.c` 189–209 as `n` single steps: consume
input while any remains, then drain the lookahead. -/
def slideN {σ : Type} (R : σ → Window → Nat → Byte → σ × Window) :
    Nat → EncState σ → EncState σ
  | 0, es => es
  | n + 1, es =>
    match es.input with
    | c :: rest => slideN R n (slideConsume R es c rest)
    | [] => slideN R n (slideNoInput R es)

/-- The live contents of the cyclic lookahead buffer: the `len` bytes starting
at `uncodedHead`. -/
def laContent (la : Lookahead) (uncodedHead len : Nat) : List Byte :=
  (List.range len).map (fun k => la (Wrap (uncodedHead + k) MAX_CODED))

@[simp] theorem laContent_length (la : Lookahead) (uh len : Nat) :
    (laContent la uh len).length = len := by
  simp [laContent]

theorem laContent_succ (la : Lookahead) (uh m : Nat) :
    laContent la uh (m + 1) =
      la (Wrap uh MAX_CODED) :: laContent la (Wrap (uh + 1) MAX_CODED) m := by
  unfold laContent
  rw [List.range_succ_eq_map, List.map_cons]
  congr 1
  rw [List.map_map]
  refine List.map_congr_left ?_
  intro k _
  show la (Wrap (uh + (k + 1)) MAX_CODED) = la (Wrap (Wrap (uh + 1) MAX_CODED + k) MAX_CODED)
  congr 1
  unfold Wrap MAX_CODED MAX_UNCODED
  omega

theorem laContent_snoc (la : Lookahead) (uh m : Nat) :
    laContent la uh (m + 1) =
      laContent la uh m ++ [la (Wrap (uh + m) MAX_CODED)] := by
  unfold laContent
  rw [List.range_succ, List.map_append]
  rfl

theorem laContent_upd_ne (la : Lookahead) (uh : Nat) (c : Byte) (n : Nat)
    (huh : uh < MAX_CODED) (hn : n + 1 ≤ MAX_CODED) :
    laContent (upd la uh c) (Wrap (uh + 1) MAX_CODED) n =
      laContent la (Wrap (uh + 1) MAX_CODED) n := by
  unfold laContent
  refine List.map_congr_left ?_
  intro k hk
  rw [List.mem_range] at hk
  show upd la uh c (Wrap (Wrap (uh + 1) MAX_CODED + k) MAX_CODED) =
    la (Wrap (Wrap (uh + 1) MAX_CODED + k) MAX_CODED)
  unfold upd
  rw [if_neg ?_]
  unfold Wrap MAX_CODED MAX_UNCODED at *
  omega

/-- `writeBack` is insensitive to reducing its start position modulo the
window size. -/
theorem writeBack_mod (l : List Byte) : ∀ (w : Window) (nc : Nat),
    writeBack w nc l = writeBack w (nc % WINDOW_SIZE) l := by
  induction l with
  | nil => intro w nc; rfl
  | cons b rest ih =>
    intro w nc
    rw [writeBack, writeBack]
    rw [Nat.mod_mod_of_dvd nc (dvd_refl WINDOW_SIZE)]
    rw [ih _ (nc + 1), ih _ (nc % WINDOW_SIZE + 1)]
    rw [Nat.mod_add_mod]

/-- The measure consumed by `n` sliding steps. -/
theorem slideN_measure {σ : Type} (R : σ → Window → Nat → Byte → σ × Window) :
    ∀ (n : Nat) (es : EncState σ), n ≤ es.len →
      (slideN R n es).input.length + (slideN R n es).len + n =
        es.input.length + es.len := by
  intro n
  induction n with
  | zero => intro es _; rfl
  | succ n ih =>
    intro es h
    obtain ⟨st, w, la, wh, uh, len, input⟩ := es
    cases input with
    | cons c rest =>
      rw [show slideN R (n + 1) ⟨st, w, la, wh, uh, len, c :: rest⟩ =
          slideN R n (slideConsume R ⟨st, w, la, wh, uh, len, c :: rest⟩ c rest) from rfl]
      have := ih (slideConsume R ⟨st, w, la, wh, uh, len, c :: rest⟩ c rest)
        (by simpa [slideConsume] using by simp at h ⊢; omega)
      simp only [slideConsume] at this ⊢
      simp at h ⊢
      omega
    | nil =>
      rw [show slideN R (n + 1) ⟨st, w, la, wh, uh, len, []⟩ =
          slideN R n (slideNoInput R ⟨st, w, la, wh, uh, len, []⟩) from rfl]
      have := ih (slideNoInput R ⟨st, w, la, wh, uh, len, []⟩)
        (by simp [slideNoInput] at h ⊢; omega)
      simp only [slideNoInput] at this ⊢
      simp at h this ⊢
      omega

/-- Window-, head- and strategy-state evolution of `n` sliding steps: the
window receives the first `n` lookahead bytes at the cyclically advancing
window head (exactly the decoder's `writeBack`), the heads advance modulo
their buffer sizes, and the strategy invariant is preserved. -/
theorem slideN_spec {σ : Type} (R : σ → Window → Nat → Byte → σ × Window)
    (SP : σ → Window → Prop)
    (HR : ∀ st w ci b, (R st w ci b).2 = upd w ci b)
    (HSP : ∀ st w ci b, SP st w → ci < WINDOW_SIZE → SP (R st w ci b).1 (R st w ci b).2) :
    ∀ (n : Nat) (es : EncState σ), n ≤ MAX_CODED →
      es.windowHead < WINDOW_SIZE → es.uncodedHead < MAX_CODED → SP es.st es.w →
      (slideN R n es).w = writeBack es.w es.windowHead (laContent es.la es.uncodedHead n) ∧
      (slideN R n es).windowHead = (es.windowHead + n) % WINDOW_SIZE ∧
      (slideN R n es).uncodedHead = (es.uncodedHead + n) % MAX_CODED ∧
      SP (slideN R n es).st (slideN R n es).w := by
  intro n
  induction n with
  | zero =>
    intro es _ hwh huh hsp
    refine ⟨rfl, ?_, ?_, hsp⟩
    · rw [Nat.add_zero, Nat.mod_eq_of_lt hwh]; rfl
    · rw [Nat.add_zero, Nat.mod_eq_of_lt huh]; rfl
  | succ n ih =>
    intro es hn hwh huh hsp
    obtain ⟨st, w, la, wh, uh, len, input⟩ := es
    simp only [] at hwh huh hsp ⊢
    have hbase : writeBack w wh (laContent la uh (n + 1)) =
        writeBack (upd w wh (la uh)) ((wh + 1) % WINDOW_SIZE)
          (laContent la ((uh + 1) % MAX_CODED) n) := by
      rw [laContent_succ]
      rw [writeBack]
      rw [Nat.mod_eq_of_lt hwh]
      rw [show Wrap uh MAX_CODED = uh from Nat.mod_eq_of_lt huh]
      rw [writeBack_mod]
      rfl
    cases input with
    | cons c rest =>
      rw [slideN]
      simp only []
      have hes' : slideConsume R ⟨st, w, la, wh, uh, len, c :: rest⟩ c rest =
          ⟨(R st w wh (la uh)).1, upd w wh (la uh), upd la uh c,
            (wh + 1) % WINDOW_SIZE, (uh + 1) % MAX_CODED, len, rest⟩ := by
        unfold slideConsume
        simp only []
        rw [HR]
      rw [hes']
      obtain ⟨ih1, ih2, ih3, ih4⟩ := ih ⟨(R st w wh (la uh)).1, upd w wh (la uh),
          upd la uh c, (wh + 1) % WINDOW_SIZE, (uh + 1) % MAX_CODED, len, rest⟩
        (by omega) (Nat.mod_lt _ (by decide)) (Nat.mod_lt _ (by decide))
        (by
          have h := HSP st w wh (la uh) hsp hwh
          rw [HR] at h
          exact h)
      refine ⟨?_, ?_, ?_, ih4⟩
      · rw [ih1]
        simp only []
        have hupd := laContent_upd_ne la uh c n huh (by omega)
        unfold Wrap at hupd
        rw [hupd, hbase]
      · rw [ih2]
        simp only []
        rw [Nat.mod_add_mod]
        congr 1
        omega
      · rw [ih3]
        simp only []
        rw [Nat.mod_add_mod]
        congr 1
        omega
    | nil =>
      rw [slideN]
      simp only []
      have hes' : slideNoInput R ⟨st, w, la, wh, uh, len, []⟩ =
          ⟨(R st w wh (la uh)).1, upd w wh (la uh), la,
            (wh + 1) % WINDOW_SIZE, (uh + 1) % MAX_CODED, len - 1, []⟩ := by
        unfold slideNoInput
        simp only []
        rw [HR]
      rw [hes']
      obtain ⟨ih1, ih2, ih3, ih4⟩ := ih ⟨(R st w wh (la uh)).1, upd w wh (la uh),
          la, (wh + 1) % WINDOW_SIZE, (uh + 1) % MAX_CODED, len - 1, []⟩
        (by omega) (Nat.mod_lt _ (by decide)) (Nat.mod_lt _ (by decide))
        (by
          have h := HSP st w wh (la uh) hsp hwh
          rw [HR] at h
          exact h)
      refine ⟨?_, ?_, ?_, ih4⟩
      · rw [ih1]
        simp only []
        rw [hbase]
      · rw [ih2]
        simp only []
        rw [Nat.mod_add_mod]
        congr 1
        omega
      · rw [ih3]
        simp only []
        rw [Nat.mod_add_mod]
        congr 1
        omega

/-- Lookahead-content evolution of `n` sliding steps: the pending byte
sequence (live lookahead contents followed by the remaining input) drops its
first `n` bytes, and the fill-level invariants are maintained. -/
theorem slideN_content {σ : Type} (R : σ → Window → Nat → Byte → σ × Window) :
    ∀ (n : Nat) (es : EncState σ), n ≤ es.len → es.len ≤ MAX_CODED →
      es.uncodedHead < MAX_CODED → (es.input ≠ [] → es.len = MAX_CODED) →
      laContent (slideN R n es).la (slideN R n es).uncodedHead (slideN R n es).len ++
          (slideN R n es).input =
        (laContent es.la es.uncodedHead es.len ++ es.input).drop n ∧
      (slideN R n es).len ≤ MAX_CODED ∧
      ((slideN R n es).input ≠ [] → (slideN R n es).len = MAX_CODED) := by
  intro n
  induction n with
  | zero =>
    intro es _ hlen huh hinv
    exact ⟨(List.drop_zero _).symm, hlen, hinv⟩
  | succ n ih =>
    intro es hn hlen huh hinv
    obtain ⟨st, w, la, wh, uh, len, input⟩ := es
    simp only [] at hn hlen huh hinv ⊢
    cases input with
    | cons c rest =>
      have h18 : len = MAX_CODED := hinv (by simp)
      subst h18
      rw [slideN]
      simp only []
      have hes' : slideConsume R ⟨st, w, la, wh, uh, MAX_CODED, c :: rest⟩ c rest =
          ⟨(R st w wh (la uh)).1, (R st w wh (la uh)).2, upd la uh c,
            (wh + 1) % WINDOW_SIZE, (uh + 1) % MAX_CODED, MAX_CODED, rest⟩ := rfl
      rw [hes']
      obtain ⟨ihc, ihl, ihi⟩ := ih ⟨(R st w wh (la uh)).1, (R st w wh (la uh)).2,
          upd la uh c, (wh + 1) % WINDOW_SIZE, (uh + 1) % MAX_CODED, MAX_CODED, rest⟩
        (by show n ≤ MAX_CODED; omega)
        le_rfl (Nat.mod_lt _ (by decide)) (fun _ => rfl)
      refine ⟨?_, ihl, ihi⟩
      rw [ihc]
      simp only []
      have hsplit : laContent (upd la uh c) ((uh + 1) % MAX_CODED) MAX_CODED =
          laContent la ((uh + 1) % MAX_CODED) 17 ++ [c] := by
        show laContent (upd la uh c) ((uh + 1) % MAX_CODED) (17 + 1) =
          laContent la ((uh + 1) % MAX_CODED) 17 ++ [c]
        rw [laContent_snoc]
        congr 1
        · have h := laContent_upd_ne la uh c 17 huh (by decide)
          unfold Wrap at h
          exact h
        · have hidx : Wrap ((uh + 1) % MAX_CODED + 17) MAX_CODED = uh := by
            unfold MAX_CODED MAX_UNCODED at huh
            unfold Wrap MAX_CODED MAX_UNCODED
            omega
          rw [hidx]
          simp [upd]
      have hfront : laContent la uh MAX_CODED =
          la (Wrap uh MAX_CODED) :: laContent la ((uh + 1) % MAX_CODED) 17 := by
        show laContent la uh (17 + 1) = _
        rw [laContent_succ]
        rfl
      rw [hsplit, hfront]
      rw [List.append_assoc, List.cons_append]
      simp
    | nil =>
      rw [slideN]
      simp only []
      have hlen1 : 1 ≤ len := by omega
      obtain ⟨l', rfl⟩ : ∃ l', len = l' + 1 := ⟨len - 1, by omega⟩
      have hes' : slideNoInput R ⟨st, w, la, wh, uh, l' + 1, []⟩ =
          ⟨(R st w wh (la uh)).1, (R st w wh (la uh)).2, la,
            (wh + 1) % WINDOW_SIZE, (uh + 1) % MAX_CODED, l', []⟩ := rfl
      rw [hes']
      obtain ⟨ihc, ihl, ihi⟩ := ih ⟨(R st w wh (la uh)).1, (R st w wh (la uh)).2,
          la, (wh + 1) % WINDOW_SIZE, (uh + 1) % MAX_CODED, l', []⟩
        (by show n ≤ l'; omega)
        (by show l' ≤ MAX_CODED; omega)
        (Nat.mod_lt _ (by decide)) (fun h => absurd rfl h)
      refine ⟨?_, ihl, ihi⟩
      rw [ihc]
      simp only []
      rw [laContent_succ]
      rw [show Wrap (uh + 1) MAX_CODED = (uh + 1) % MAX_CODED from rfl]
      simp

/-! ### The encoding loop (`lzss.c` 159–213)

Each iteration finds a match, clamps its length to the remaining lookahead
(`lzss.c` 161–165), emits one wire-format unit, and slides the window by the
consumed length (1 in the uncoded case, since the code sets
`matchData.length = 1`). -/

def encodeLoop {σ : Type} (F : σ → Window → Lookahead → Nat → Nat → Nat → EncodedString)
    (R : σ → Window → Nat → Byte → σ × Window) (es : EncState σ) : List Bool :=
  if h0 : es.len = 0 then []
  else if hm : min (F es.st es.w es.la es.windowHead es.uncodedHead es.len).length es.len ≤
      MAX_UNCODED then
    (true :: bitsOfNat 8 (es.la es.uncodedHead).val) ++ encodeLoop F R (slideN R 1 es)
  else
    (false ::
      (bitsOfNat 8 (packByte1 (F es.st es.w es.la es.windowHead es.uncodedHead es.len).offset) ++
       bitsOfNat 8 (packByte2 (F es.st es.w es.la es.windowHead es.uncodedHead es.len).offset
        (min (F es.st es.w es.la es.windowHead es.uncodedHead es.len).length es.len)))) ++
      encodeLoop F R
        (slideN R (min (F es.st es.w es.la es.windowHead es.uncodedHead es.len).length es.len) es)
termination_by es.input.length + es.len
decreasing_by
  · have h := slideN_measure R 1 es (by omega)
    omega
  · have h := slideN_measure R
      (min (F es.st es.w es.la es.windowHead es.uncodedHead es.len).length es.len) es
      (Nat.min_le_right _ _)
    have hpos : 0 < min (F es.st es.w es.la es.windowHead es.uncodedHead es.len).length es.len := by
      unfold MAX_UNCODED at hm
      omega
    omega

/-- Every bit the encoding loop emits belongs to a complete unit. -/
theorem encodeLoop_complete {σ : Type}
    (F : σ → Window → Lookahead → Nat → Nat → Nat → EncodedString)
    (R : σ → Window → Nat → Byte → σ × Window) :
    ∀ (fuel : Nat) (es : EncState σ), es.input.length + es.len ≤ fuel →
      CompleteStream (encodeLoop F R es) := by
  intro fuel
  induction fuel with
  | zero =>
    intro es h
    have h0 : es.len = 0 := by omega
    rw [encodeLoop, dif_pos h0]
    exact CompleteStream.nil
  | succ fuel ih =>
    intro es h
    rw [encodeLoop]
    by_cases h0 : es.len = 0
    · rw [dif_pos h0]
      exact CompleteStream.nil
    · rw [dif_neg h0]
      by_cases hm : min (F es.st es.w es.la es.windowHead es.uncodedHead es.len).length
          es.len ≤ MAX_UNCODED
      · rw [dif_pos hm]
        rw [List.cons_append]
        refine CompleteStream.uncoded _ _ (bitsOfNat_length 8 _) ?_
        refine ih _ ?_
        have := slideN_measure R 1 es (by omega)
        omega
      · rw [dif_neg hm]
        rw [List.cons_append]
        refine CompleteStream.encoded _ _ (by simp [bitsOfNat_length]) ?_
        refine ih _ ?_
        have h1 := slideN_measure R
          (min (F es.st es.w es.la es.windowHead es.uncodedHead es.len).length es.len) es
          (Nat.min_le_right _ _)
        have hpos : 0 < min (F es.st es.w es.la es.windowHead es.uncodedHead es.len).length
            es.len := by
          unfold MAX_UNCODED at hm
          omega
        omega

/-- The zero padding of `BitFileClose` is a strict prefix of a unit (an
`ENCODED` flag bit followed by at most 6 more bits, or nothing). -/
theorem partialUnit_replicate_false (k : Nat) (hk : k < 8) :
    PartialUnit (List.replicate k false) := by
  cases k with
  | zero => exact Or.inl rfl
  | succ m =>
    refine Or.inr (Or.inr ⟨List.replicate m false, ?_, ?_⟩)
    · rw [List.replicate_succ]
    · simp only [List.length_replicate]
      omega

/-- Simulation of the decoder against the encoding loop: provided the
strategy's window writes are exactly `upd` (`HR`), its invariant `SP` is
preserved by `ReplaceChar` (`HSP`), and every match it reports above the
uncoded threshold is byte-for-byte valid against the lookahead (`HM`), the
decoder run on the loop's output from the same window and head reproduces the
pending bytes: the live lookahead contents followed by the remaining input. -/
theorem encodeLoop_decode {σ : Type}
    (F : σ → Window → Lookahead → Nat → Nat → Nat → EncodedString)
    (R : σ → Window → Nat → Byte → σ × Window)
    (SP : σ → Window → Prop)
    (HR : ∀ st w ci b, (R st w ci b).2 = upd w ci b)
    (HSP : ∀ st w ci b, SP st w → ci < WINDOW_SIZE → SP (R st w ci b).1 (R st w ci b).2)
    (HM : ∀ st w la wh uh len, SP st w → wh < WINDOW_SIZE → uh < MAX_CODED →
      len ≤ MAX_CODED → MAX_UNCODED < min (F st w la wh uh len).length len →
      ∀ k, k < min (F st w la wh uh len).length len →
        w (((F st w la wh uh len).offset + k) % WINDOW_SIZE) = uncodedOf la uh k) :
    ∀ (fuel : Nat) (es : EncState σ), es.input.length + es.len ≤ fuel →
      SP es.st es.w → es.windowHead < WINDOW_SIZE → es.uncodedHead < MAX_CODED →
      es.len ≤ MAX_CODED → (es.input ≠ [] → es.len = MAX_CODED) →
      (decodeRun (encodeLoop F R es) es.w es.windowHead).1 =
        laContent es.la es.uncodedHead es.len ++ es.input := by
  intro fuel
  induction fuel with
  | zero =>
    intro es hf hsp hwh huh hlen hinv
    have h0 : es.len = 0 := by omega
    have hi0 : es.input = [] := by
      have := List.length_eq_zero.mp (show es.input.length = 0 from by omega)
      exact this
    rw [encodeLoop, dif_pos h0, h0, hi0]
    rw [decodeRun]
    simp [laContent]
  | succ fuel ih =>
    intro es hf hsp hwh huh hlen hinv
    rw [encodeLoop]
    by_cases h0 : es.len = 0
    · have hi0 : es.input = [] := by
        by_contra hne
        have h18 := hinv hne
        rw [h18] at h0
        exact absurd h0 (by decide)
      rw [dif_pos h0, h0, hi0]
      rw [decodeRun]
      simp [laContent]
    · rw [dif_neg h0]
      have hlen1 : 1 ≤ es.len := by omega
      by_cases hm : min (F es.st es.w es.la es.windowHead es.uncodedHead es.len).length
          es.len ≤ MAX_UNCODED
      · -- UNCODED unit: one literal byte
        rw [dif_pos hm]
        rw [List.cons_append]
        rw [decodeRun_uncoded _ _ (bitsOfNat_length 8 _) es.w es.windowHead]
        simp only []
        rw [byteValOf_bitsOfNat]
        obtain ⟨hw1, hwh1, huh1, hsp1⟩ := slideN_spec R SP HR HSP 1 es (by decide) hwh huh hsp
        obtain ⟨hc1, hl1, hi1⟩ := slideN_content R 1 es hlen1 hlen huh hinv
        have hmeas := slideN_measure R 1 es hlen1
        have hwin : upd es.w (es.windowHead % WINDOW_SIZE) (es.la es.uncodedHead) =
            (slideN R 1 es).w := by
          rw [hw1]
          rw [show laContent es.la es.uncodedHead 1 = [es.la es.uncodedHead] from by
            show laContent es.la es.uncodedHead (0 + 1) = _
            rw [laContent_succ]
            rw [show Wrap es.uncodedHead MAX_CODED = es.uncodedHead from
              Nat.mod_eq_of_lt huh]
            rfl]
          rw [writeBack, writeBack]
        have hnc : (es.windowHead + 1) % WINDOW_SIZE = (slideN R 1 es).windowHead :=
          hwh1.symm
        rw [hwin, hnc]
        rw [ih (slideN R 1 es) (by omega) hsp1
          (by rw [hwh1]; exact Nat.mod_lt _ (by decide))
          (by rw [huh1]; exact Nat.mod_lt _ (by decide)) hl1 hi1]
        rw [hc1]
        conv_rhs => rw [show laContent es.la es.uncodedHead es.len ++ es.input =
          es.la es.uncodedHead ::
            ((laContent es.la es.uncodedHead es.len ++ es.input).drop 1) from by
          obtain ⟨l', hl'⟩ : ∃ l', es.len = l' + 1 := ⟨es.len - 1, by omega⟩
          rw [hl', laContent_succ]
          rw [show Wrap es.uncodedHead MAX_CODED = es.uncodedHead from
            Nat.mod_eq_of_lt huh]
          rfl]
      · -- ENCODED unit: offset/length pair
        rw [dif_neg hm]
        obtain ⟨m, hmF⟩ : ∃ m, F es.st es.w es.la es.windowHead es.uncodedHead es.len = m :=
          ⟨_, rfl⟩
        rw [hmF] at hm ⊢
        have hv := HM es.st es.w es.la es.windowHead es.uncodedHead es.len hsp hwh huh hlen
        rw [hmF] at hv
        have hm' : MAX_UNCODED < min m.length es.len := Nat.not_le.mp hm
        have hv' := hv hm'
        have hminle : min m.length es.len ≤ es.len := Nat.min_le_right _ _
        have hmin18 : min m.length es.len ≤ MAX_CODED := le_trans hminle hlen
        have hminpos : 1 ≤ min m.length es.len := by
          unfold MAX_UNCODED at hm'
          omega
        rw [List.cons_append, List.append_assoc]
        rw [decodeRun_encoded _ _ _ (bitsOfNat_length 8 _) (bitsOfNat_length 8 _)
          es.w es.windowHead]
        simp only []
        have hb1 : byteOfBits (bitsOfNat 8 (packByte1 m.offset)) = packByte1 m.offset := by
          rw [byteOfBits_bitsOfNat]
          rw [show (2 : Nat) ^ 8 = 256 from by norm_num]
          exact Nat.mod_eq_of_lt (packByte1_lt _)
        have hb2 : byteOfBits (bitsOfNat 8 (packByte2 m.offset (min m.length es.len))) =
            packByte2 m.offset (min m.length es.len) := by
          rw [byteOfBits_bitsOfNat]
          rw [show (2 : Nat) ^ 8 = 256 from by norm_num]
          exact Nat.mod_eq_of_lt (packByte2_lt _ _ hmin18)
        rw [hb1, hb2]
        obtain ⟨hoff, hlenu⟩ := unpack_pack_mod m.offset (min m.length es.len)
          (by unfold MAX_UNCODED at hm' ⊢; omega) hmin18
        rw [hoff, hlenu]
        have hstag : stagedBytes es.w (m.offset % 4096) (min m.length es.len) =
            laContent es.la es.uncodedHead (min m.length es.len) := by
          unfold stagedBytes laContent
          refine List.map_congr_left ?_
          intro k hk
          rw [List.mem_range] at hk
          rw [show (m.offset % 4096 + k) % WINDOW_SIZE = (m.offset + k) % WINDOW_SIZE from by
            unfold WINDOW_SIZE
            omega]
          exact hv' k hk
        obtain ⟨hw1, hwh1, huh1, hsp1⟩ := slideN_spec R SP HR HSP (min m.length es.len) es
          hmin18 hwh huh hsp
        obtain ⟨hc1, hl1, hi1⟩ := slideN_content R (min m.length es.len) es hminle hlen huh hinv
        have hmeas := slideN_measure R (min m.length es.len) es hminle
        have hwin : writeBack es.w es.windowHead
            (stagedBytes es.w (m.offset % 4096) (min m.length es.len)) =
            (slideN R (min m.length es.len) es).w := by
          rw [hstag, hw1]
        have hnc : (es.windowHead + min m.length es.len) % WINDOW_SIZE =
            (slideN R (min m.length es.len) es).windowHead := hwh1.symm
        rw [hwin, hnc]
        rw [ih (slideN R (min m.length es.len) es) (by omega) hsp1
          (by rw [hwh1]; exact Nat.mod_lt _ (by decide))
          (by rw [huh1]; exact Nat.mod_lt _ (by decide)) hl1 hi1]
        rw [hc1, hstag]
        have htake : laContent es.la es.uncodedHead (min m.length es.len) =
            (laContent es.la es.uncodedHead es.len ++ es.input).take (min m.length es.len) := by
          rw [List.take_append_of_le_length (by rw [laContent_length]; exact hminle)]
          unfold laContent
          rw [← List.map_take, List.take_range, Nat.min_eq_left hminle]
        rw [htake, List.take_append_drop]

/-! ### Match validity, per strategy

A reported match of positive length points at window bytes equal to the
lookahead prefix — for `brute.c`/`hash.c` because every counted byte was
compared, for `list.c` because the first byte is guaranteed by the list
invariant and the rest were compared. -/

theorem matchLenAux_sound (w : Window) (u : Nat → Byte) (i : Nat) :
    ∀ (count j t : Nat), j ≤ t → t < matchLenAux w u i count j →
      w (Wrap (i + t) WINDOW_SIZE) = u t := by
  intro count
  induction count with
  | zero =>
    intro j t h1 h2
    rw [matchLenAux] at h2
    omega
  | succ c ih =>
    intro j t h1 h2
    rw [matchLenAux] at h2
    by_cases hw : w (Wrap (i + j) WINDOW_SIZE) = u j
    · rw [if_pos hw] at h2
      by_cases ht : t = j
      · subst ht
        exact hw
      · exact ih (j + 1) t (by omega) h2
    · rw [if_neg hw] at h2
      omega

theorem bestSpec_sound (lcp : Nat → Nat) :
    ∀ cands : List Nat, 0 < (bestSpec lcp cands).length →
      (bestSpec lcp cands).offset ∈ cands ∧
      lcp (bestSpec lcp cands).offset = (bestSpec lcp cands).length := by
  intro cands
  induction cands with
  | nil =>
    intro h
    rw [show bestSpec lcp ([] : List Nat) = ⟨0, 0⟩ from rfl] at h
    simp at h
  | cons i rest ih =>
    intro h
    rw [bestSpec] at h ⊢
    by_cases hc : (bestSpec lcp rest).length ≤ lcp i ∧ 0 < lcp i
    · rw [if_pos hc] at h ⊢
      exact ⟨List.mem_cons_self _ _, rfl⟩
    · rw [if_neg hc] at h ⊢
      obtain ⟨h1, h2⟩ := ih h
      exact ⟨List.mem_cons_of_mem _ h1, h2⟩

theorem rotFrom_mem_lt (i count : Nat) : ∀ x ∈ rotFrom i count, x < WINDOW_SIZE := by
  intro x hx
  unfold rotFrom at hx
  rw [List.mem_map] at hx
  obtain ⟨k, _, rfl⟩ := hx
  exact Nat.mod_lt _ (by decide)

theorem bestSpec_lcpChecked_valid (w : Window) (u : Nat → Byte) (len : Nat)
    (cands : List Nat) (hc : ∀ x ∈ cands, x < WINDOW_SIZE)
    (hpos : 0 < (bestSpec (lcpChecked w u len) cands).length) :
    ∀ k, k < (bestSpec (lcpChecked w u len) cands).length →
      w (((bestSpec (lcpChecked w u len) cands).offset + k) % WINDOW_SIZE) = u k := by
  obtain ⟨hmem, hlcp⟩ := bestSpec_sound _ cands hpos
  intro k hk
  obtain ⟨o, ho⟩ : ∃ o, (bestSpec (lcpChecked w u len) cands).offset = o := ⟨_, rfl⟩
  rw [ho] at hmem hlcp ⊢
  have hoW := hc _ hmem
  rw [← hlcp] at hk
  unfold lcpChecked matchLenFrom1 at hk
  by_cases hw0 : w o = u 0
  · rw [if_pos hw0] at hk
    cases k with
    | zero =>
      rw [Nat.add_zero, Nat.mod_eq_of_lt hoW]
      exact hw0
    | succ j =>
      exact matchLenAux_sound w u o (len - 1) 1 (j + 1) (by omega) hk
  · rw [if_neg hw0] at hk
    omega

theorem bestSpec_lcpTrusted_valid (w : Window) (u : Nat → Byte) (len : Nat)
    (cands : List Nat) (hc : ∀ x ∈ cands, x < WINDOW_SIZE ∧ w x = u 0)
    (hpos : 0 < (bestSpec (lcpTrusted w u len) cands).length) :
    ∀ k, k < (bestSpec (lcpTrusted w u len) cands).length →
      w (((bestSpec (lcpTrusted w u len) cands).offset + k) % WINDOW_SIZE) = u k := by
  obtain ⟨hmem, hlcp⟩ := bestSpec_sound _ cands hpos
  intro k hk
  obtain ⟨o, ho⟩ : ∃ o, (bestSpec (lcpTrusted w u len) cands).offset = o := ⟨_, rfl⟩
  rw [ho] at hmem hlcp ⊢
  obtain ⟨hoW, hw0⟩ := hc _ hmem
  rw [← hlcp] at hk
  unfold lcpTrusted matchLenFrom1 at hk
  cases k with
  | zero =>
    rw [Nat.add_zero, Nat.mod_eq_of_lt hoW]
    exact hw0
  | succ j =>
    exact matchLenAux_sound w u o (len - 1) 1 (j + 1) (by omega) hk

theorem FindMatchBrute_eq (w : Window) (la : Lookahead) (wh uh len : Nat)
    (hlen : MAX_UNCODED < len) (hwh : wh < WINDOW_SIZE) :
    FindMatchBrute w la wh uh len =
      bestSpec (lcpChecked w (uncodedOf la uh) len) (rotFrom wh WINDOW_SIZE) := by
  have h1 : 1 ≤ len := by unfold MAX_UNCODED at hlen; omega
  unfold FindMatchBrute
  rw [if_neg (by omega)]
  rw [bruteLoop_eq w (uncodedOf la uh) len wh h1 hwh WINDOW_SIZE
    (by unfold WINDOW_SIZE; omega) le_rfl (WINDOW_SIZE + 1) wh 0 ⟨0, 0⟩ (by omega)
    (by unfold Wrap; rw [Nat.sub_self, Nat.add_zero, Nat.mod_eq_of_lt hwh])
    (by simpa using h1) (by omega)]
  rw [mergeBest_zero_bestSpec]

theorem FindMatchList_eq (st : ListState) (w : Window) (la : Lookahead) (uh len : Nat)
    (hlen : MAX_UNCODED < len) :
    FindMatchList st w la uh len =
      bestSpec (lcpTrusted w (uncodedOf la uh) len)
        (chainN st.nxt (WINDOW_SIZE + 1) (st.lists (la uh).val)) := by
  have h1 : 1 ≤ len := by unfold MAX_UNCODED at hlen; omega
  unfold FindMatchList
  rw [if_neg (by omega)]
  rw [listFindLoop_eq w (uncodedOf la uh) len st.nxt h1 (WINDOW_SIZE + 1)
    (st.lists (la uh).val) ⟨0, 0⟩ (by simpa using h1)]
  rw [mergeBest_zero_bestSpec]

theorem FindMatchHash_eq (st : HashState) (w : Window) (la : Lookahead) (uh len : Nat)
    (hlen : MAX_UNCODED < len) :
    FindMatchHash st w la uh len =
      bestSpec (lcpChecked w (uncodedOf la uh) len)
        (chainN st.nxt (WINDOW_SIZE + 1)
          (st.hashTable (hashKey (uncodedOf la uh) 0 MAX_CODED))) := by
  have h1 : 1 ≤ len := by unfold MAX_UNCODED at hlen; omega
  unfold FindMatchHash
  rw [if_neg (by omega)]
  rw [hashFindLoop_eq w (uncodedOf la uh) len st.nxt h1 (WINDOW_SIZE + 1) _ 0 ⟨0, 0⟩
    (by simpa using h1) (by omega)]
  rw [mergeBest_zero_bestSpec]

theorem FindMatchBrute_valid (w : Window) (la : Lookahead) (wh uh len : Nat)
    (hwh : wh < WINDOW_SIZE)
    (hgt : MAX_UNCODED < min (FindMatchBrute w la wh uh len).length len) :
    ∀ k, k < min (FindMatchBrute w la wh uh len).length len →
      w (((FindMatchBrute w la wh uh len).offset + k) % WINDOW_SIZE) =
        uncodedOf la uh k := by
  have hlen' : MAX_UNCODED < len := lt_of_lt_of_le hgt (Nat.min_le_right _ _)
  rw [FindMatchBrute_eq w la wh uh len hlen' hwh] at hgt ⊢
  intro k hk
  exact bestSpec_lcpChecked_valid w (uncodedOf la uh) len _
    (rotFrom_mem_lt wh WINDOW_SIZE)
    (by unfold MAX_UNCODED at hgt; omega) k
    (lt_of_lt_of_le hk (Nat.min_le_left _ _))

theorem FindMatchList_valid (st : ListState) (w : Window) (la : Lookahead) (uh len : Nat)
    (hinv : ListInv st w) (huh : uh < MAX_CODED)
    (hgt : MAX_UNCODED < min (FindMatchList st w la uh len).length len) :
    ∀ k, k < min (FindMatchList st w la uh len).length len →
      w (((FindMatchList st w la uh len).offset + k) % WINDOW_SIZE) =
        uncodedOf la uh k := by
  have hlen' : MAX_UNCODED < len := lt_of_lt_of_le hgt (Nat.min_le_right _ _)
  rw [FindMatchList_eq st w la uh len hlen'] at hgt ⊢
  intro k hk
  refine bestSpec_lcpTrusted_valid w (uncodedOf la uh) len _ ?_
    (by unfold MAX_UNCODED at hgt; omega) k
    (lt_of_lt_of_le hk (Nat.min_le_left _ _))
  intro x hx
  obtain ⟨_, h2b, _⟩ := bucketInv_chainN hinv
  have hxx := h2b ((la uh).val) (la uh).isLt x hx
  refine ⟨hxx.1, ?_⟩
  have hwx : w x = la uh := Fin.ext hxx.2
  rw [hwx]
  show la uh = la (Wrap (uh + 0) MAX_CODED)
  rw [Nat.add_zero, show Wrap uh MAX_CODED = uh from Nat.mod_eq_of_lt huh]

theorem FindMatchHash_valid (st : HashState) (w : Window) (la : Lookahead) (uh len : Nat)
    (hinv : HashInv st w)
    (hgt : MAX_UNCODED < min (FindMatchHash st w la uh len).length len) :
    ∀ k, k < min (FindMatchHash st w la uh len).length len →
      w (((FindMatchHash st w la uh len).offset + k) % WINDOW_SIZE) =
        uncodedOf la uh k := by
  have hlen' : MAX_UNCODED < len := lt_of_lt_of_le hgt (Nat.min_le_right _ _)
  rw [FindMatchHash_eq st w la uh len hlen'] at hgt ⊢
  intro k hk
  refine bestSpec_lcpChecked_valid w (uncodedOf la uh) len _ ?_
    (by unfold MAX_UNCODED at hgt; omega) k
    (lt_of_lt_of_le hk (Nat.min_le_left _ _))
  intro x hx
  obtain ⟨_, h2b, _⟩ := bucketInv_chainN hinv
  exact (h2b (hashKey (uncodedOf la uh) 0 MAX_CODED) (hashKey_lt _ _ _) x hx).1

/-! ### The tree strategy's node-range invariant

`tree.c` keeps one node per window position; every child pointer is either a
window position or the null sentinel, and the maintenance routines only ever
store window positions, existing child values, or `TREE_NULL` into child
fields. -/

/-- A child pointer is a window position or the tree's null sentinel. -/
def nodeOk (v : Nat) : Prop := v < WINDOW_SIZE ∨ v = TREE_NULL

/-- Every node's children are in range. -/
def childOk (t : Nat → TreeNode) : Prop :=
  ∀ i, nodeOk (t i).leftChild ∧ nodeOk (t i).rightChild

/-- The weak structural invariant of the tree strategy. -/
def WeakTree (ts : TreeState) : Prop := nodeOk ts.treeRoot ∧ childOk ts.tree

theorem childOk_setP (t : Nat → TreeNode) (i v : Nat) (h : childOk t) :
    childOk (setP t i v) := by
  intro j
  unfold setP updNode
  by_cases hj : j = i
  · rw [if_pos hj]
    exact h i
  · rw [if_neg hj]
    exact h j

theorem childOk_setL (t : Nat → TreeNode) (i v : Nat) (h : childOk t) (hv : nodeOk v) :
    childOk (setL t i v) := by
  intro j
  unfold setL updNode
  by_cases hj : j = i
  · rw [if_pos hj]
    exact ⟨hv, (h i).2⟩
  · rw [if_neg hj]
    exact h j

theorem childOk_setR (t : Nat → TreeNode) (i v : Nat) (h : childOk t) (hv : nodeOk v) :
    childOk (setR t i v) := by
  intro j
  unfold setR updNode
  by_cases hj : j = i
  · rw [if_pos hj]
    exact ⟨(h i).1, hv⟩
  · rw [if_neg hj]
    exact h j

theorem childOk_updNode (t : Nat → TreeNode) (i : Nat) (n : TreeNode)
    (h : childOk t) (h1 : nodeOk n.leftChild) (h2 : nodeOk n.rightChild) :
    childOk (updNode t i n) := by
  intro j
  unfold updNode
  by_cases hj : j = i
  · rw [if_pos hj]
    exact ⟨h1, h2⟩
  · rw [if_neg hj]
    exact h j

theorem childOk_FixChildren (t : Nat → TreeNode) (i : Nat) (h : childOk t) :
    childOk (FixChildren t i) := by
  unfold FixChildren
  simp only []
  by_cases h1 : (t i).leftChild ≠ TREE_NULL
  · rw [if_pos h1]
    by_cases h2 : ((setP t ((t i).leftChild) i) i).rightChild ≠ TREE_NULL
    · rw [if_pos h2]
      exact childOk_setP _ _ _ (childOk_setP _ _ _ h)
    · rw [if_neg h2]
      exact childOk_setP _ _ _ h
  · rw [if_neg h1]
    by_cases h2 : (t i).rightChild ≠ TREE_NULL
    · rw [if_pos h2]
      exact childOk_setP _ _ _ h
    · rw [if_neg h2]
      exact h

theorem treeRightmost_lt (t : Nat → TreeNode) (h : childOk t) :
    ∀ (fuel i : Nat), i < WINDOW_SIZE → treeRightmost t fuel i < WINDOW_SIZE := by
  intro fuel
  induction fuel with
  | zero => intro i hi; exact hi
  | succ f ih =>
    intro i hi
    rw [treeRightmost]
    by_cases hr : (t i).rightChild = TREE_NULL
    · rw [if_pos hr]
      exact hi
    · rw [if_neg hr]
      exact ih _ (((h i).2).resolve_right hr)

theorem weakTree_addLoop (w : Window) (ci : Nat) (hci : ci < WINDOW_SIZE) :
    ∀ (fuel : Nat) (ts : TreeState) (here : Nat) (cmp : Int),
      WeakTree ts → WeakTree (treeAddStringLoop w ci fuel ts here cmp) := by
  intro fuel
  induction fuel with
  | zero => intro ts here cmp h; exact h
  | succ f ih =>
    intro ts here cmp h
    obtain ⟨hroot, hch⟩ := h
    rw [treeAddStringLoop]
    by_cases hc1 : cmp < 0
    · rw [if_pos hc1]
      by_cases hl : (ts.tree here).leftChild ≠ TREE_NULL
      · rw [if_pos hl]
        exact ih _ _ _ ⟨hroot, hch⟩
      · rw [if_neg hl]
        refine ⟨hroot, ?_⟩
        simp only []
        refine childOk_FixChildren _ _ ?_
        refine childOk_updNode _ _ _ ?_ (Or.inr rfl) (Or.inr rfl)
        exact childOk_setL _ _ _ hch (Or.inl hci)
    · rw [if_neg hc1]
      by_cases hc2 : cmp > 0
      · rw [if_pos hc2]
        by_cases hr : (ts.tree here).rightChild ≠ TREE_NULL
        · rw [if_pos hr]
          exact ih _ _ _ ⟨hroot, hch⟩
        · rw [if_neg hr]
          refine ⟨hroot, ?_⟩
          simp only []
          refine childOk_FixChildren _ _ ?_
          refine childOk_updNode _ _ _ ?_ (Or.inr rfl) (Or.inr rfl)
          exact childOk_setR _ _ _ hch (Or.inl hci)
      · rw [if_neg hc2]
        refine ⟨hroot, ?_⟩
        simp only []
        have h1 : childOk (updNode ts.tree ci (ts.tree here)) :=
          childOk_updNode _ _ _ hch (hch here).1 (hch here).2
        have h2 := childOk_FixChildren (updNode ts.tree ci (ts.tree here)) ci h1
        by_cases hLR : ((FixChildren (updNode ts.tree ci (ts.tree here)) ci)
        (((FixChildren (updNode ts.tree ci (ts.tree here)) ci) here).parent)).leftChild = here
        · rw [if_pos hLR]
          refine childOk_updNode _ _ _ ?_ (Or.inr rfl) (Or.inr rfl)
          exact childOk_setL _ _ _ h2 (Or.inl hci)
        · rw [if_neg hLR]
          refine childOk_updNode _ _ _ ?_ (Or.inr rfl) (Or.inr rfl)
          exact childOk_setR _ _ _ h2 (Or.inl hci)

theorem weakTree_addString (ts : TreeState) (w : Window) (ci : Nat)
    (hci : ci < WINDOW_SIZE) (h : WeakTree ts) :
    WeakTree (treeAddString ts w ci) := by
  obtain ⟨hroot, hch⟩ := h
  unfold treeAddString
  simp only []
  by_cases hc : compareString w ci ts.treeRoot = 0
  · rw [if_pos hc]
    refine ⟨Or.inl hci, ?_⟩
    refine childOk_updNode _ _ _ ?_ (Or.inr rfl) (Or.inr rfl)
    refine childOk_FixChildren _ _ ?_
    exact childOk_updNode _ _ _ hch (hch ts.treeRoot).1 (hch ts.treeRoot).2
  · rw [if_neg hc]
    exact weakTree_addLoop w ci hci _ ts ts.treeRoot _ ⟨hroot, hch⟩

/-- The re-wiring tail of `RemoveString` (`tree.c` 424–441): redirect the
parent of the removed node at the promoted node, update its parent, clear the
removed node, move the root if needed. -/
theorem weakTree_remove_tail (ts : TreeState) (ci : Nat) (t6 : Nat → TreeNode)
    (here : Nat) (hroot : nodeOk ts.treeRoot) (ht6 : childOk t6)
    (hhere : nodeOk here) :
    WeakTree
      { tree := updNode (setP (if (t6 ((t6 ci).parent)).leftChild = ci
          then setL t6 ((t6 ci).parent) here else setR t6 ((t6 ci).parent) here)
          here (((if (t6 ((t6 ci).parent)).leftChild = ci
          then setL t6 ((t6 ci).parent) here
          else setR t6 ((t6 ci).parent) here) ci).parent)) ci nullNode,
        treeRoot := if ts.treeRoot = ci then here else ts.treeRoot } := by
  constructor
  · show nodeOk (if ts.treeRoot = ci then here else ts.treeRoot)
    split
    · exact hhere
    · exact hroot
  · refine childOk_updNode _ _ _ ?_ (Or.inr rfl) (Or.inr rfl)
    refine childOk_setP _ _ _ ?_
    by_cases hc : (t6 ((t6 ci).parent)).leftChild = ci
    · rw [if_pos hc]
      exact childOk_setL _ _ _ ht6 hhere
    · rw [if_neg hc]
      exact childOk_setR _ _ _ ht6 hhere

theorem weakTree_removeString (ts : TreeState) (ci : Nat) (h : WeakTree ts) :
    WeakTree (treeRemoveString ts ci) := by
  obtain ⟨hroot, hch⟩ := h
  unfold treeRemoveString
  by_cases hp : (ts.tree ci).parent = TREE_NULL
  · rw [if_pos hp]
    exact ⟨hroot, hch⟩
  · rw [if_neg hp]
    simp only []
    by_cases h1 : (ts.tree ci).rightChild = TREE_NULL
    · rw [if_pos h1]
      exact weakTree_remove_tail ts ci ts.tree _ hroot hch (hch ci).1
    · rw [if_neg h1]
      by_cases h2 : (ts.tree ci).leftChild = TREE_NULL
      · rw [if_pos h2]
        exact weakTree_remove_tail ts ci ts.tree _ hroot hch (hch ci).2
      · rw [if_neg h2]
        have hlW : (ts.tree ci).leftChild < WINDOW_SIZE := ((hch ci).1).resolve_right h2
        have hereW : treeRightmost ts.tree (WINDOW_SIZE + 1) ((ts.tree ci).leftChild) <
            WINDOW_SIZE := treeRightmost_lt ts.tree hch _ _ hlW
        by_cases h3 : treeRightmost ts.tree (WINDOW_SIZE + 1) ((ts.tree ci).leftChild) ≠
            (ts.tree ci).leftChild
        · rw [if_pos h3]
          refine weakTree_remove_tail ts ci _ _ hroot ?_ (Or.inl hereW)
          refine childOk_setP _ _ _ ?_
          refine childOk_setR _ _ _ ?_ ?_
          · refine childOk_setP _ _ _ ?_
            refine childOk_setL _ _ _ ?_ ?_
            · exact childOk_setP _ _ _ (childOk_setR _ _ _ hch (hch _).1)
            · exact ((childOk_setP _ _ _ (childOk_setR _ _ _ hch (hch _).1)) ci).1
          · exact ((childOk_setP _ _ _ (childOk_setL _ _ _
              (childOk_setP _ _ _ (childOk_setR _ _ _ hch (hch _).1))
              (((childOk_setP _ _ _ (childOk_setR _ _ _ hch (hch _).1)) ci).1))) ci).2
        · rw [if_neg h3]
          refine weakTree_remove_tail ts ci _ _ hroot ?_ (Or.inl hereW)
          refine childOk_setP _ _ _ ?_
          exact childOk_setR _ _ _ hch ((hch ci).2)

theorem weakTree_foldl_remove (f : Nat → Nat) :
    ∀ (l : List Nat) (s : TreeState), WeakTree s →
      WeakTree (l.foldl (fun s i => treeRemoveString s (f i)) s) := by
  intro l
  induction l with
  | nil => intro s hs; exact hs
  | cons a t ih =>
    intro s hs
    rw [List.foldl_cons]
    exact ih _ (weakTree_removeString _ _ hs)

theorem weakTree_foldl_add (w : Window) (f : Nat → Nat) (hf : ∀ i, f i < WINDOW_SIZE) :
    ∀ (l : List Nat) (s : TreeState), WeakTree s →
      WeakTree (l.foldl (fun s i => treeAddString s w (f i)) s) := by
  intro l
  induction l with
  | nil => intro s hs; exact hs
  | cons a t ih =>
    intro s hs
    rw [List.foldl_cons]
    exact ih _ (weakTree_addString _ _ _ (hf a) hs)

/-- `ReplaceChar` of `tree.c` preserves the node-range invariant. -/
theorem weakTree_replaceChar (ts : TreeState) (w : Window) (ci : Nat) (b : Byte)
    (h : WeakTree ts) : WeakTree (treeReplaceChar ts w ci b).1 := by
  unfold treeReplaceChar
  simp only []
  refine weakTree_foldl_add (upd w ci b)
    (fun i => Wrap ((if ci < MAX_CODED then (WINDOW_SIZE + ci) - MAX_CODED
      else ci - MAX_CODED) + i) WINDOW_SIZE)
    (fun i => Nat.mod_lt _ (by decide)) _ _ ?_
  exact weakTree_foldl_remove
    (fun i => Wrap ((if ci < MAX_CODED then (WINDOW_SIZE + ci) - MAX_CODED
      else ci - MAX_CODED) + i) WINDOW_SIZE) _ _ h

/-- The freshly initialized tree satisfies the node-range invariant. -/
theorem weakTree_init : WeakTree initTreeState := by
  constructor
  · refine Or.inl ?_
    decide
  · intro i
    unfold initTreeState updNode nullNode
    simp only []
    split
    · exact ⟨Or.inr rfl, Or.inr rfl⟩
    · exact ⟨Or.inr rfl, Or.inr rfl⟩

theorem treeMatchLenAux_ge (w : Window) (la : Lookahead) (i uh : Nat) :
    ∀ (count j : Nat), j ≤ (treeMatchLenAux w la i uh count j).1 := by
  intro count
  induction count with
  | zero => intro j; simp [treeMatchLenAux]
  | succ c ih =>
    intro j
    rw [treeMatchLenAux]
    split
    · have := ih (j + 1)
      omega
    · simp

theorem treeMatchLenAux_sound (w : Window) (la : Lookahead) (i uh : Nat) :
    ∀ (count j t : Nat), j ≤ t → t < (treeMatchLenAux w la i uh count j).1 →
      w (Wrap (i + t) WINDOW_SIZE) = la (Wrap (uh + t) MAX_CODED) := by
  intro count
  induction count with
  | zero =>
    intro j t h1 h2
    rw [treeMatchLenAux] at h2
    simp only [] at h2
    omega
  | succ c ih =>
    intro j t h1 h2
    rw [treeMatchLenAux] at h2
    by_cases hc : ((w (Wrap (i + j) WINDOW_SIZE)).val : Int) -
        ((la (Wrap (uh + j) MAX_CODED)).val : Int) = 0
    · rw [if_pos hc] at h2
      by_cases ht : t = j
      · subst ht
        refine Fin.ext ?_
        omega
      · exact ih (j + 1) t (by omega) h2
    · rw [if_neg hc] at h2
      simp only [] at h2
      omega

/-- A match record valid against the window and the full lookahead buffer. -/
def validTreeMatch (w : Window) (la : Lookahead) (uh : Nat) (m : EncodedString) : Prop :=
  m.offset < WINDOW_SIZE ∧
  ∀ k, k < m.length → w (Wrap (m.offset + k) WINDOW_SIZE) = la (Wrap (uh + k) MAX_CODED)

/-- The descent of `tree.c` `FindMatch` only reports byte-verified matches:
the persistent `j` and the running best stay below `MAX_CODED` at every
entry, so the forced `length = MAX_CODED` on break always names the current
node, whose full-length match was just verified. -/
theorem treeFindLoop_valid (ts : TreeState) (w : Window) (la : Lookahead) (uh : Nat)
    (huh : uh < MAX_CODED) (hts : childOk ts.tree) :
    ∀ (fuel i j0 : Nat) (best : EncodedString), nodeOk i → j0 < MAX_CODED →
      best.length < MAX_CODED → (0 < best.length → validTreeMatch w la uh best) →
      0 < (treeFindLoop ts w la uh fuel i j0 best).length →
      validTreeMatch w la uh (treeFindLoop ts w la uh fuel i j0 best) := by
  intro fuel
  induction fuel with
  | zero =>
    intro i j0 best hi hj hb hv h
    rw [treeFindLoop] at h ⊢
    exact hv h
  | succ f ih =>
    intro i j0 best hi hj hb hv h
    rw [treeFindLoop] at h ⊢
    by_cases hnull : i = TREE_NULL
    · rw [if_pos hnull] at h ⊢
      exact hv h
    · rw [if_neg hnull] at h ⊢
      have hiW : i < WINDOW_SIZE := hi.resolve_right hnull
      simp only [] at h ⊢
      by_cases hc0 : ((w i).val : Int) - ((la uh).val : Int) = 0
      · rw [if_pos hc0] at h ⊢
        have hjle := treeMatchLenAux_le w la i uh (MAX_CODED - 1) 1
        have hvali : validTreeMatch w la uh
            ⟨i, (treeMatchLenAux w la i uh (MAX_CODED - 1) 1).1⟩ := by
          refine ⟨hiW, ?_⟩
          intro k hk
          simp only [EncodedString.offset_mk, EncodedString.length_mk] at hk ⊢
          cases k with
          | zero =>
            rw [Nat.add_zero, Nat.add_zero]
            rw [show Wrap i WINDOW_SIZE = i from Nat.mod_eq_of_lt hiW,
              show Wrap uh MAX_CODED = uh from Nat.mod_eq_of_lt huh]
            refine Fin.ext ?_
            omega
          | succ k' =>
            exact treeMatchLenAux_sound w la i uh (MAX_CODED - 1) 1 (k' + 1) (by omega) hk
        by_cases hbreak : MAX_CODED ≤ (treeMatchLenAux w la i uh (MAX_CODED - 1) 1).1
        · rw [if_pos hbreak] at h ⊢
          have hupd : (if (treeMatchLenAux w la i uh (MAX_CODED - 1) 1).1 > best.length
              then (⟨i, (treeMatchLenAux w la i uh (MAX_CODED - 1) 1).1⟩ : EncodedString)
              else best) = ⟨i, (treeMatchLenAux w la i uh (MAX_CODED - 1) 1).1⟩ := by
            rw [if_pos (by omega)]
          rw [hupd]
          refine ⟨hiW, ?_⟩
          intro k hk
          simp only [EncodedString.offset_mk, EncodedString.length_mk] at hk ⊢
          refine hvali.2 k ?_
          simp only [EncodedString.length_mk]
          omega
        · rw [if_neg hbreak] at h ⊢
          have hjc : (treeMatchLenAux w la i uh (MAX_CODED - 1) 1).1 < MAX_CODED := by
            omega
          have hb' : (if (treeMatchLenAux w la i uh (MAX_CODED - 1) 1).1 > best.length
              then (⟨i, (treeMatchLenAux w la i uh (MAX_CODED - 1) 1).1⟩ : EncodedString)
              else best).length < MAX_CODED := by
            split
            · simpa using hjc
            · exact hb
          have hv' : 0 < (if (treeMatchLenAux w la i uh (MAX_CODED - 1) 1).1 > best.length
              then (⟨i, (treeMatchLenAux w la i uh (MAX_CODED - 1) 1).1⟩ : EncodedString)
              else best).length →
              validTreeMatch w la uh
                (if (treeMatchLenAux w la i uh (MAX_CODED - 1) 1).1 > best.length
                then (⟨i, (treeMatchLenAux w la i uh (MAX_CODED - 1) 1).1⟩ : EncodedString)
                else best) := by
            split
            · intro _
              exact hvali
            · exact hv
          by_cases hdir : ((treeMatchLenAux w la i uh (MAX_CODED - 1) 1).2 : Int) > 0
          · rw [if_pos hdir] at h ⊢
            exact ih _ _ _ ((hts i).1) hjc hb' hv' h
          · rw [if_neg hdir] at h ⊢
            exact ih _ _ _ ((hts i).2) hjc hb' hv' h
      · rw [if_neg hc0] at h ⊢
        rw [if_neg (show ¬ MAX_CODED ≤ j0 from by omega)] at h ⊢
        by_cases hdir : ((w i).val : Int) - ((la uh).val : Int) > 0
        · rw [if_pos hdir] at h ⊢
          exact ih _ _ _ ((hts i).1) hj hb hv h
        · rw [if_neg hdir] at h ⊢
          exact ih _ _ _ ((hts i).2) hj hb hv h

/-- `FindMatch` of `tree.c` reports only byte-verified matches at window
positions, under the node-range invariant. -/
theorem FindMatchTree_valid (ts : TreeState) (w : Window) (la : Lookahead)
    (wh uh : Nat) (huh : uh < MAX_CODED) (hts : WeakTree ts)
    (h : 0 < (FindMatchTree ts w la wh uh).length) :
    validTreeMatch w la uh (FindMatchTree ts w la wh uh) := by
  unfold FindMatchTree at h ⊢
  exact treeFindLoop_valid ts w la uh huh hts.2 (WINDOW_SIZE + 2) ts.treeRoot 0 ⟨0, 0⟩
    hts.1 (by decide) (by decide) (fun h0 => absurd h0 (by decide)) h

/-! ### The four strategies plugged into the encoder -/

/-- `brute.c`: no auxiliary structures. -/
def bruteInit : Window → Unit := fun _ => ()

/-- `brute.c` `FindMatch` in the encoder's interface. -/
def bruteFind : Unit → Window → Lookahead → Nat → Nat → Nat → EncodedString :=
  fun _ w la wh uh len => FindMatchBrute w la wh uh len

/-- `brute.c` `ReplaceChar`: only the window byte is written. -/
def bruteReplace : Unit → Window → Nat → Byte → Unit × Window :=
  fun _ w ci b => ((), upd w ci b)

/-- `list.c` `FindMatch` in the encoder's interface (it ignores the window
head). -/
def listFind : ListState → Window → Lookahead → Nat → Nat → Nat → EncodedString :=
  fun st w la _ uh len => FindMatchList st w la uh len

/-- `hash.c` `FindMatch` in the encoder's interface. -/
def hashFind : HashState → Window → Lookahead → Nat → Nat → Nat → EncodedString :=
  fun st w la _ uh len => FindMatchHash st w la uh len

/-- `tree.c` `InitializeSearchStructures` (independent of the window's
contents, which are all-identical at initialization). -/
def treeInit : Window → TreeState := fun _ => initTreeState

/-- `tree.c` `FindMatch` in the encoder's interface (old interface: no
lookahead-length parameter). -/
def treeFind : TreeState → Window → Lookahead → Nat → Nat → Nat → EncodedString :=
  fun ts w la wh uh _ => FindMatchTree ts w la wh uh

/-- The lookahead fill loop of `EncodeLZSS` (`lzss.c` 144–147): the first
`min MAX_CODED S.length` bytes of the input land in the buffer, the rest of
the buffer keeps its previous (arbitrary) contents `la0`. -/
def loadLookahead (la0 : Lookahead) (S : List Byte) : Lookahead :=
  fun k => if h : k < MAX_CODED ∧ k < S.length then S.get ⟨k, h.2⟩ else la0 k

/-- `EncodeLZSS` (`lzss.c` 96–218) over an input byte list, parameterized by
the strategy: fill the window with spaces, load the lookahead, return nothing
on empty input (the code returns before writing), otherwise run the loop from
`windowHead = uncodedHead = 0` and let `BitFileClose` zero-pad the final
byte. -/
def encodeLZSS {σ : Type} (I : Window → σ)
    (F : σ → Window → Lookahead → Nat → Nat → Nat → EncodedString)
    (R : σ → Window → Nat → Byte → σ × Window)
    (la0 : Lookahead) (S : List Byte) : List Bool :=
  if min MAX_CODED S.length = 0 then []
  else
    pad8 (encodeLoop F R
      { st := I initWindow, w := initWindow, la := loadLookahead la0 S,
        windowHead := 0, uncodedHead := 0, len := min MAX_CODED S.length,
        input := S.drop MAX_CODED })

/-- Generic round trip: any strategy whose window writes are plain updates,
whose invariant survives `ReplaceChar` from the initialized state, and whose
reported matches are byte-valid, yields `decode (encode S) = S`. -/
theorem encodeLZSS_roundtrip {σ : Type} (I : Window → σ)
    (F : σ → Window → Lookahead → Nat → Nat → Nat → EncodedString)
    (R : σ → Window → Nat → Byte → σ × Window)
    (SP : σ → Window → Prop)
    (HI : SP (I initWindow) initWindow)
    (HR : ∀ st w ci b, (R st w ci b).2 = upd w ci b)
    (HSP : ∀ st w ci b, SP st w → ci < WINDOW_SIZE → SP (R st w ci b).1 (R st w ci b).2)
    (HM : ∀ st w la wh uh len, SP st w → wh < WINDOW_SIZE → uh < MAX_CODED →
      len ≤ MAX_CODED → MAX_UNCODED < min (F st w la wh uh len).length len →
      ∀ k, k < min (F st w la wh uh len).length len →
        w (((F st w la wh uh len).offset + k) % WINDOW_SIZE) = uncodedOf la uh k)
    (la0 : Lookahead) (S : List Byte) :
    decodeLZSS (encodeLZSS I F R la0 S) = S := by
  unfold encodeLZSS
  by_cases h0 : min MAX_CODED S.length = 0
  · rw [if_pos h0]
    have hS : S = [] := by
      refine List.length_eq_zero.mp ?_
      unfold MAX_CODED MAX_UNCODED at h0
      omega
    rw [hS]
    unfold decodeLZSS
    rw [decodeRun]
  · rw [if_neg h0]
    unfold decodeLZSS pad8
    rw [decodeRun_complete_append _ _ (encodeLoop_complete F R _ _ le_rfl)
      (partialUnit_replicate_false _ (Nat.mod_lt _ (by omega))) initWindow 0]
    rw [encodeLoop_decode F R SP HR HSP HM _ _ le_rfl HI
      (by show (0 : Nat) < WINDOW_SIZE; decide)
      (by show (0 : Nat) < MAX_CODED; decide)
      (Nat.min_le_left _ _)
      (fun hne => by
        have hlt : MAX_CODED < S.length := by
          by_contra hle
          exact hne (List.drop_eq_nil_of_le (by omega))
        exact Nat.min_eq_left (by omega))]
    have hcontent : laContent (loadLookahead la0 S) 0 (min MAX_CODED S.length) =
        S.take MAX_CODED := by
      refine List.ext_getElem ?_ ?_
      · simp
      · intro k h1 h2
        rw [laContent_length] at h1
        have hk1 : k < MAX_CODED := lt_of_lt_of_le h1 (Nat.min_le_left _ _)
        have hk2 : k < S.length := lt_of_lt_of_le h1 (Nat.min_le_right _ _)
        simp only [laContent, List.getElem_map, List.getElem_range, List.getElem_take]
        have hwk : Wrap (0 + k) MAX_CODED = k := by
          have hk3 := hk1
          unfold MAX_CODED MAX_UNCODED at hk3
          unfold Wrap MAX_CODED MAX_UNCODED
          omega
        rw [hwk]
        unfold loadLookahead
        rw [dif_pos ⟨hk1, hk2⟩]
        simp
    show laContent (loadLookahead la0 S) 0 (min MAX_CODED S.length) ++
      S.drop MAX_CODED = S
    rw [hcontent, List.take_append_drop]

set_option maxHeartbeats 1000000 in
/-- **C1.** For every byte sequence `S` (including the empty sequence) and
every initial lookahead-buffer contents, decoding the encoder's output bit
stream yields exactly `S`, and this holds for each of the four match-finding
strategies — brute force, linked lists, hash table, binary tree — plugged
into `EncodeLZSS`: the wire format does not depend on which strategy produced
the matches, and every match each strategy reports is byte-for-byte valid at
the reported (window-reduced) offset. -/
theorem encode_decode_roundtrip (S : List Byte) (la0 : Lookahead) :
    decodeLZSS (encodeLZSS bruteInit bruteFind bruteReplace la0 S) = S ∧
    decodeLZSS (encodeLZSS initListState listFind listReplaceChar la0 S) = S ∧
    decodeLZSS (encodeLZSS initHashState hashFind hashReplaceChar la0 S) = S ∧
    decodeLZSS (encodeLZSS treeInit treeFind treeReplaceChar la0 S) = S := by
  refine ⟨?_, ?_, ?_, ?_⟩
  · exact encodeLZSS_roundtrip bruteInit bruteFind bruteReplace (fun _ _ => True)
      trivial (fun _ _ _ _ => rfl) (fun _ _ _ _ _ _ => trivial)
      (fun st w la wh uh len _ hwh _ _ hgt k hk =>
        FindMatchBrute_valid w la wh uh len hwh hgt k hk) la0 S
  · exact encodeLZSS_roundtrip initListState listFind listReplaceChar ListInv
      (initListState_inv initWindow (fun i _ => rfl)) (fun _ _ _ _ => rfl)
      (fun st w ci b hsp hci => listReplaceChar_inv hsp hci)
      (fun st w la wh uh len hsp _ huh _ hgt k hk =>
        FindMatchList_valid st w la uh len hsp huh hgt k hk) la0 S
  · exact encodeLZSS_roundtrip initHashState hashFind hashReplaceChar HashInv
      (initHashState_inv initWindow (fun i _ => rfl)) (fun _ _ _ _ => rfl)
      (fun st w ci b hsp hci => hashReplaceChar_inv hsp hci)
      (fun st w la wh uh len hsp _ _ _ hgt k hk =>
        FindMatchHash_valid st w la uh len hsp hgt k hk) la0 S
  · refine encodeLZSS_roundtrip treeInit treeFind treeReplaceChar
      (fun ts _ => WeakTree ts) weakTree_init (fun _ _ _ _ => rfl)
      (fun st w ci b hsp hci => weakTree_replaceChar st w ci b hsp)
      ?_ la0 S
    intro st w la wh uh len hsp hwh huh hlen hgt k hk
    have hgt' : MAX_UNCODED < min (FindMatchTree st w la wh uh).length len := hgt
    have hk' : k < (FindMatchTree st w la wh uh).length :=
      lt_of_lt_of_le hk (Nat.min_le_left _ _)
    have hpos : 0 < (FindMatchTree st w la wh uh).length := by
      unfold MAX_UNCODED at hgt'
      omega
    exact (FindMatchTree_valid st w la wh uh huh hsp hpos).2 k hk'

/-- Witness for C1 at a concrete two-byte input and an all-zero initial
lookahead buffer. -/
theorem encode_decode_roundtrip_witness :
    decodeLZSS (encodeLZSS bruteInit bruteFind bruteReplace (fun _ => (0 : Byte))
      [(65 : Byte), (66 : Byte)]) = [(65 : Byte), (66 : Byte)] ∧
    decodeLZSS (encodeLZSS initListState listFind listReplaceChar (fun _ => (0 : Byte))
      [(65 : Byte), (66 : Byte)]) = [(65 : Byte), (66 : Byte)] ∧
    decodeLZSS (encodeLZSS initHashState hashFind hashReplaceChar (fun _ => (0 : Byte))
      [(65 : Byte), (66 : Byte)]) = [(65 : Byte), (66 : Byte)] ∧
    decodeLZSS (encodeLZSS treeInit treeFind treeReplaceChar (fun _ => (0 : Byte))
      [(65 : Byte), (66 : Byte)]) = [(65 : Byte), (66 : Byte)] :=
  encode_decode_roundtrip [(65 : Byte), (66 : Byte)] (fun _ => (0 : Byte))

/-! ### C7: duplicate insertion replaces the matching node in place -/

theorem updNode_eq (t : Nat → TreeNode) (i : Nat) (n : TreeNode) :
    updNode t i n i = n := by
  unfold updNode
  simp

theorem updNode_ne (t : Nat → TreeNode) (i : Nat) (n : TreeNode) {j : Nat}
    (h : j ≠ i) : updNode t i n j = t j := by
  unfold updNode
  rw [if_neg h]

theorem setP_ne (t : Nat → TreeNode) (i v : Nat) {j : Nat} (h : j ≠ i) :
    setP t i v j = t j := by
  unfold setP
  exact updNode_ne _ _ _ h

theorem setP_child (t : Nat → TreeNode) (i v j : Nat) :
    (setP t i v j).leftChild = (t j).leftChild ∧
    (setP t i v j).rightChild = (t j).rightChild := by
  unfold setP updNode
  by_cases h : j = i
  · rw [if_pos h, h]
    exact ⟨rfl, rfl⟩
  · rw [if_neg h]
    exact ⟨rfl, rfl⟩

theorem setP_parent_eq (t : Nat → TreeNode) (i v : Nat) : (setP t i v i).parent = v := by
  unfold setP
  rw [updNode_eq]

theorem setL_ne (t : Nat → TreeNode) (i v : Nat) {j : Nat} (h : j ≠ i) :
    setL t i v j = t j := by
  unfold setL
  exact updNode_ne _ _ _ h

theorem setL_parent (t : Nat → TreeNode) (i v j : Nat) :
    (setL t i v j).parent = (t j).parent := by
  unfold setL updNode
  by_cases h : j = i
  · rw [if_pos h, h]
  · rw [if_neg h]

theorem setL_left_eq (t : Nat → TreeNode) (i v : Nat) : (setL t i v i).leftChild = v := by
  unfold setL
  rw [updNode_eq]

theorem setR_ne (t : Nat → TreeNode) (i v : Nat) {j : Nat} (h : j ≠ i) :
    setR t i v j = t j := by
  unfold setR
  exact updNode_ne _ _ _ h

theorem setR_parent (t : Nat → TreeNode) (i v j : Nat) :
    (setR t i v j).parent = (t j).parent := by
  unfold setR updNode
  by_cases h : j = i
  · rw [if_pos h, h]
  · rw [if_neg h]

theorem setR_right_eq (t : Nat → TreeNode) (i v : Nat) : (setR t i v i).rightChild = v := by
  unfold setR
  rw [updNode_eq]

/-- What `FixChildren` does, field by field: the node itself and all nodes
other than its children are untouched, its non-null children's parents now
point at it, and no child field changes anywhere. -/
theorem FixChildren_fields (t : Nat → TreeNode) (i : Nat)
    (hL : (t i).leftChild ≠ i) (hR : (t i).rightChild ≠ i) :
    FixChildren t i i = t i ∧
    (∀ j, j ≠ i → j ≠ (t i).leftChild → j ≠ (t i).rightChild →
      FixChildren t i j = t j) ∧
    ((t i).leftChild ≠ TREE_NULL → (FixChildren t i ((t i).leftChild)).parent = i) ∧
    ((t i).rightChild ≠ TREE_NULL → (FixChildren t i ((t i).rightChild)).parent = i) ∧
    (∀ j, (FixChildren t i j).leftChild = (t j).leftChild ∧
      (FixChildren t i j).rightChild = (t j).rightChild) := by
  unfold FixChildren
  by_cases hc1 : (t i).leftChild ≠ TREE_NULL
  · rw [if_pos hc1]
    rw [show (setP t ((t i).leftChild) i i).rightChild = (t i).rightChild from
      (setP_child t ((t i).leftChild) i i).2]
    by_cases hc2 : (t i).rightChild ≠ TREE_NULL
    · rw [if_pos hc2]
      refine ⟨?_, ?_, ?_, ?_, ?_⟩
      · rw [setP_ne _ _ _ (fun hq => hR hq.symm), setP_ne _ _ _ (fun hq => hL hq.symm)]
      · intro j hj1 hj2 hj3
        rw [setP_ne _ _ _ hj3, setP_ne _ _ _ hj2]
      · intro _
        by_cases hLR : (t i).leftChild = (t i).rightChild
        · rw [hLR, setP_parent_eq]
        · rw [show (setP (setP t ((t i).leftChild) i) ((t i).rightChild) i
            ((t i).leftChild)).parent =
              ((setP t ((t i).leftChild) i) ((t i).leftChild)).parent from by
              rw [setP_ne _ _ _ hLR]]
          rw [setP_parent_eq]
      · intro _
        rw [setP_parent_eq]
      · intro j
        refine ⟨?_, ?_⟩
        · rw [(setP_child _ _ _ j).1, (setP_child _ _ _ j).1]
        · rw [(setP_child _ _ _ j).2, (setP_child _ _ _ j).2]
    · rw [if_neg hc2]
      refine ⟨?_, ?_, ?_, ?_, ?_⟩
      · rw [setP_ne _ _ _ (fun hq => hL hq.symm)]
      · intro j hj1 hj2 _
        rw [setP_ne _ _ _ hj2]
      · intro _
        rw [setP_parent_eq]
      · intro hq
        exact absurd hq hc2
      · intro j
        exact ⟨(setP_child _ _ _ j).1, (setP_child _ _ _ j).2⟩
  · rw [if_neg hc1]
    by_cases hc2 : (t i).rightChild ≠ TREE_NULL
    · rw [if_pos hc2]
      refine ⟨?_, ?_, ?_, ?_, ?_⟩
      · rw [setP_ne _ _ _ (fun hq => hR hq.symm)]
      · intro j hj1 _ hj3
        rw [setP_ne _ _ _ hj3]
      · intro hq
        exact absurd hq hc1
      · intro _
        rw [setP_parent_eq]
      · intro j
        exact ⟨(setP_child _ _ _ j).1, (setP_child _ _ _ j).2⟩
    · rw [if_neg hc2]
      refine ⟨rfl, fun j _ _ _ => rfl, ?_, ?_, fun j => ⟨rfl, rfl⟩⟩
      · intro hq
        exact absurd hq hc1
      · intro hq
        exact absurd hq hc2

/-- The in-place replacement performed by the equal-comparison branch of the
`AddString` descent (`tree.c` 341–357): copy the matched node `here` into
`ci`, re-point the children's parents, switch the parent's child pointer to
`ci`, and clear `here`. -/
def treeReplaceNode (t : Nat → TreeNode) (ci here : Nat) : Nat → TreeNode :=
  let t1 := updNode t ci (t here)
  let t2 := FixChildren t1 ci
  let t3 :=
    if (t2 ((t2 here).parent)).leftChild = here
    then setL t2 ((t2 here).parent) ci
    else setR t2 ((t2 here).parent) ci
  updNode t3 here nullNode

/-- Field-level characterization of the descent replacement: `ci` inherits
the whole node of `here`, `here` is cleared, children re-pointed, parent's
child pointer switched, everything else untouched. -/
theorem treeReplaceNode_fields (t : Nat → TreeNode) (ci here : Nat)
    (hne : here ≠ ci)
    (hLci : (t here).leftChild ≠ ci)
    (hRci : (t here).rightChild ≠ ci)
    (hLh : (t here).leftChild ≠ here)
    (hRh : (t here).rightChild ≠ here)
    (hPci : (t here).parent ≠ ci)
    (hPh : (t here).parent ≠ here) :
    treeReplaceNode t ci here ci = t here ∧
    treeReplaceNode t ci here here = nullNode ∧
    ((t here).leftChild ≠ TREE_NULL →
      (treeReplaceNode t ci here ((t here).leftChild)).parent = ci) ∧
    ((t here).rightChild ≠ TREE_NULL →
      (treeReplaceNode t ci here ((t here).rightChild)).parent = ci) ∧
    ((t ((t here).parent)).leftChild = here →
      (treeReplaceNode t ci here ((t here).parent)).leftChild = ci) ∧
    ((t ((t here).parent)).leftChild ≠ here →
      (treeReplaceNode t ci here ((t here).parent)).rightChild = ci) ∧
    (∀ j, j ≠ ci → j ≠ here → j ≠ (t here).leftChild → j ≠ (t here).rightChild →
      j ≠ (t here).parent → treeReplaceNode t ci here j = t j) := by
  have hT1 : updNode t ci (t here) ci = t here := updNode_eq _ _ _
  have hfix := FixChildren_fields (updNode t ci (t here)) ci
    (by rw [hT1]; exact hLci) (by rw [hT1]; exact hRci)
  rw [hT1] at hfix
  have hHere : FixChildren (updNode t ci (t here)) ci here = t here := by
    rw [hfix.2.1 here hne (Ne.symm hLh) (Ne.symm hRh)]
    exact updNode_ne _ _ _ hne
  have hPchild : (FixChildren (updNode t ci (t here)) ci ((t here).parent)).leftChild
      = (t ((t here).parent)).leftChild := by
    rw [(hfix.2.2.2.2 ((t here).parent)).1]
    rw [updNode_ne t ci (t here) hPci]
  simp only [treeReplaceNode]
  rw [hHere, hPchild]
  by_cases hdir : (t ((t here).parent)).leftChild = here
  · rw [if_pos hdir]
    refine ⟨?_, ?_, ?_, ?_, ?_, ?_, ?_⟩
    · rw [updNode_ne _ _ _ (Ne.symm hne), setL_ne _ _ _ (Ne.symm hPci)]
      exact hfix.1
    · exact updNode_eq _ _ _
    · intro hq
      rw [updNode_ne _ _ _ hLh, setL_parent]
      exact hfix.2.2.1 hq
    · intro hq
      rw [updNode_ne _ _ _ hRh, setL_parent]
      exact hfix.2.2.2.1 hq
    · intro _
      rw [updNode_ne _ _ _ hPh, setL_left_eq]
    · intro hq
      exact absurd hdir hq
    · intro j hj1 hj2 hj3 hj4 hj5
      rw [updNode_ne _ _ _ hj2, setL_ne _ _ _ hj5, hfix.2.1 j hj1 hj3 hj4]
      exact updNode_ne _ _ _ hj1
  · rw [if_neg hdir]
    refine ⟨?_, ?_, ?_, ?_, ?_, ?_, ?_⟩
    · rw [updNode_ne _ _ _ (Ne.symm hne), setR_ne _ _ _ (Ne.symm hPci)]
      exact hfix.1
    · exact updNode_eq _ _ _
    · intro hq
      rw [updNode_ne _ _ _ hLh, setR_parent]
      exact hfix.2.2.1 hq
    · intro hq
      rw [updNode_ne _ _ _ hRh, setR_parent]
      exact hfix.2.2.2.1 hq
    · intro hq
      exact absurd hq hdir
    · intro _
      rw [updNode_ne _ _ _ hPh, setR_right_eq]
    · intro j hj1 hj2 hj3 hj4 hj5
      rw [updNode_ne _ _ _ hj2, setR_ne _ _ _ hj5, hfix.2.1 j hj1 hj3 hj4]
      exact updNode_ne _ _ _ hj1

/-- **C7.** `AddString` on a string that compares equal to an existing node's
string replaces that node in place, in both places the source does it.  Root
branch (`treeAddString`, first conjunct): the new index `ci` inherits the old
root's left and right children (its parent becomes `ROOT_INDEX`, the root
marker the old root carried), the root pointer is updated to `ci`, the
children's parent pointers are re-pointed at `ci`, the old root node is
cleared to the null node, and no other node changes — no duplicate node is
created.  Descent branch (`treeAddStringLoop` entered at node `here` with
comparison `0`, second conjunct): `ci2` inherits `here`'s whole node (left
child, right child and parent), the parent's child pointer (left if it
pointed at `here`, right otherwise) is switched to `ci2`, the children's
parents are re-pointed at `ci2`, `here` is cleared to the null node, the root
pointer is unchanged, and every node other than the five involved is
untouched.  The distinctness hypotheses say the replaced node's neighbours
are distinct from the two indices being exchanged, as holds in a well-formed
node arena. -/
theorem addString_replaces_duplicate
    (ts ts2 : TreeState) (w : Window) (ci ci2 here fuel : Nat)
    (hcr : compareString w ci ts.treeRoot = 0)
    (hner : ci ≠ ts.treeRoot)
    (hL0ci : (ts.tree ts.treeRoot).leftChild ≠ ci)
    (hR0ci : (ts.tree ts.treeRoot).rightChild ≠ ci)
    (hL0r : (ts.tree ts.treeRoot).leftChild ≠ ts.treeRoot)
    (hR0r : (ts.tree ts.treeRoot).rightChild ≠ ts.treeRoot)
    (hne2 : here ≠ ci2)
    (hLci2 : (ts2.tree here).leftChild ≠ ci2)
    (hRci2 : (ts2.tree here).rightChild ≠ ci2)
    (hLh2 : (ts2.tree here).leftChild ≠ here)
    (hRh2 : (ts2.tree here).rightChild ≠ here)
    (hPci2 : (ts2.tree here).parent ≠ ci2)
    (hPh2 : (ts2.tree here).parent ≠ here) :
    ((treeAddString ts w ci).treeRoot = ci ∧
     (treeAddString ts w ci).tree ci =
       ⟨(ts.tree ts.treeRoot).leftChild, (ts.tree ts.treeRoot).rightChild, ROOT_INDEX⟩ ∧
     (treeAddString ts w ci).tree ts.treeRoot = nullNode ∧
     ((ts.tree ts.treeRoot).leftChild ≠ TREE_NULL →
       ((treeAddString ts w ci).tree ((ts.tree ts.treeRoot).leftChild)).parent = ci) ∧
     ((ts.tree ts.treeRoot).rightChild ≠ TREE_NULL →
       ((treeAddString ts w ci).tree ((ts.tree ts.treeRoot).rightChild)).parent = ci) ∧
     (∀ j, j ≠ ci → j ≠ ts.treeRoot → j ≠ (ts.tree ts.treeRoot).leftChild →
       j ≠ (ts.tree ts.treeRoot).rightChild →
       (treeAddString ts w ci).tree j = ts.tree j)) ∧
    ((treeAddStringLoop w ci2 (fuel + 1) ts2 here 0).treeRoot = ts2.treeRoot ∧
     (treeAddStringLoop w ci2 (fuel + 1) ts2 here 0).tree ci2 = ts2.tree here ∧
     (treeAddStringLoop w ci2 (fuel + 1) ts2 here 0).tree here = nullNode ∧
     ((ts2.tree here).leftChild ≠ TREE_NULL →
       ((treeAddStringLoop w ci2 (fuel + 1) ts2 here 0).tree
         ((ts2.tree here).leftChild)).parent = ci2) ∧
     ((ts2.tree here).rightChild ≠ TREE_NULL →
       ((treeAddStringLoop w ci2 (fuel + 1) ts2 here 0).tree
         ((ts2.tree here).rightChild)).parent = ci2) ∧
     ((ts2.tree ((ts2.tree here).parent)).leftChild = here →
       ((treeAddStringLoop w ci2 (fuel + 1) ts2 here 0).tree
         ((ts2.tree here).parent)).leftChild = ci2) ∧
     ((ts2.tree ((ts2.tree here).parent)).leftChild ≠ here →
       ((treeAddStringLoop w ci2 (fuel + 1) ts2 here 0).tree
         ((ts2.tree here).parent)).rightChild = ci2) ∧
     (∀ j, j ≠ ci2 → j ≠ here → j ≠ (ts2.tree here).leftChild →
       j ≠ (ts2.tree here).rightChild → j ≠ (ts2.tree here).parent →
       (treeAddStringLoop w ci2 (fuel + 1) ts2 here 0).tree j = ts2.tree j)) := by
  constructor
  · have hA : treeAddString ts w ci =
        { tree := updNode (FixChildren (updNode ts.tree ci
            ⟨(ts.tree ts.treeRoot).leftChild, (ts.tree ts.treeRoot).rightChild,
              ROOT_INDEX⟩) ci) ts.treeRoot nullNode,
          treeRoot := ci } := by
      unfold treeAddString
      rw [if_pos hcr]
    have hT1 : updNode ts.tree ci
        ⟨(ts.tree ts.treeRoot).leftChild, (ts.tree ts.treeRoot).rightChild,
          ROOT_INDEX⟩ ci =
        ⟨(ts.tree ts.treeRoot).leftChild, (ts.tree ts.treeRoot).rightChild,
          ROOT_INDEX⟩ := updNode_eq _ _ _
    have hfix := FixChildren_fields (updNode ts.tree ci
        ⟨(ts.tree ts.treeRoot).leftChild, (ts.tree ts.treeRoot).rightChild,
          ROOT_INDEX⟩) ci
      (by rw [hT1]; exact hL0ci) (by rw [hT1]; exact hR0ci)
    rw [hT1] at hfix
    rw [hA]
    refine ⟨rfl, ?_, ?_, ?_, ?_, ?_⟩
    · exact (updNode_ne _ _ _ hner).trans hfix.1
    · exact updNode_eq _ _ _
    · intro hq
      exact (congrArg TreeNode.parent (updNode_ne _ _ _ hL0r)).trans (hfix.2.2.1 hq)
    · intro hq
      exact (congrArg TreeNode.parent (updNode_ne _ _ _ hR0r)).trans (hfix.2.2.2.1 hq)
    · intro j hj1 hj2 hj3 hj4
      exact (updNode_ne _ _ _ hj2).trans
        ((hfix.2.1 j hj1 hj3 hj4).trans (updNode_ne _ _ _ hj1))
  · have hrep := treeReplaceNode_fields ts2.tree ci2 here hne2 hLci2 hRci2 hLh2 hRh2
      hPci2 hPh2
    have hB : treeAddStringLoop w ci2 (fuel + 1) ts2 here 0 =
        { ts2 with tree := treeReplaceNode ts2.tree ci2 here } := by
      rw [treeAddStringLoop]
      rw [if_neg (by decide : ¬ ((0 : Int) < 0))]
      rw [if_neg (by decide : ¬ ((0 : Int) > 0))]
      rfl
    rw [hB]
    exact ⟨rfl, hrep.1, hrep.2.1, hrep.2.2.1, hrep.2.2.2.1, hrep.2.2.2.2.1,
      hrep.2.2.2.2.2.1, hrep.2.2.2.2.2.2⟩

/-- Witness for C7: the root-equal replacement on the freshly initialized
tree over the all-space window (index `100` replaces the root `4077`), and
the descent replacement at node `4077` by index `200` from comparison `0`. -/
theorem addString_replaces_duplicate_witness :
    (treeAddString initTreeState initWindow 100).treeRoot = 100 ∧
    (treeAddStringLoop initWindow 200 1 initTreeState 4077 0).tree 200 =
      initTreeState.tree 4077 := by
  have h := addString_replaces_duplicate initTreeState initTreeState initWindow
    100 200 4077 0 (by decide) (by decide) (by decide) (by decide) (by decide)
    (by decide) (by decide) (by decide) (by decide) (by decide) (by decide)
    (by decide) (by decide)
  exact ⟨h.1.1, h.2.2.1⟩

/-! ### C2: match-length agreement between the strategies -/

theorem le_maxLcp_of_mem2 (lcp : Nat → Nat) :
    ∀ (cands : List Nat) (i : Nat), i ∈ cands → lcp i ≤ maxLcp lcp cands := by
  intro cands
  induction cands with
  | nil =>
    intro i hi
    simp at hi
  | cons a rest ih =>
    intro i hi
    rw [maxLcp_cons]
    rcases List.mem_cons.mp hi with h | h
    · subst h
      exact Nat.le_max_left _ _
    · exact le_trans (ih i h) (Nat.le_max_right _ _)

theorem maxLcp_le_of_mem (lcp : Nat → Nat) (B : Nat) :
    ∀ cands : List Nat, (∀ i ∈ cands, lcp i ≤ B) → maxLcp lcp cands ≤ B := by
  intro cands
  induction cands with
  | nil =>
    intro _
    simp [maxLcp]
  | cons a rest ih =>
    intro h
    rw [maxLcp_cons]
    exact max_le (h a (List.mem_cons_self a rest))
      (ih fun i hi => h i (List.mem_cons_of_mem a hi))

/-- The brute-force rotation visits every window position. -/
theorem mem_rotFrom (j wh : Nat) (hj : j < WINDOW_SIZE) (hwh : wh < WINDOW_SIZE) :
    j ∈ rotFrom wh WINDOW_SIZE := by
  unfold rotFrom
  rw [List.mem_map]
  refine ⟨(j + WINDOW_SIZE - wh) % WINDOW_SIZE, ?_, ?_⟩
  · rw [List.mem_range]
    exact Nat.mod_lt _ (by decide)
  · show Wrap (wh + (j + WINDOW_SIZE - wh) % WINDOW_SIZE) WINDOW_SIZE = j
    unfold WINDOW_SIZE at hj hwh
    show (wh + (j + 4096 - wh) % 4096) % 4096 = j
    omega

/-- The hash key only looks at the three bytes the fold visits. -/
theorem hashKey_congr (b1 b2 : Nat → Byte) (o1 l1 o2 l2 : Nat)
    (h : ∀ i, i < MAX_UNCODED + 1 →
      b1 (Wrap (o1 + i) l1) = b2 (Wrap (o2 + i) l2)) :
    hashKey b1 o1 l1 = hashKey b2 o2 l2 := by
  unfold hashKey
  rw [show (List.range (MAX_UNCODED + 1)) = [0, 1, 2] from by decide]
  simp only [List.foldl_cons, List.foldl_nil]
  rw [h 0 (by decide), h 1 (by decide), h 2 (by decide)]

/-- **C2, amended.** At every window and lookahead state (reachable or not)
with in-range heads and valid index invariants, the brute and list strategies
report the *same* match length; the hash strategy reports a length that never
exceeds theirs and is *equal* to theirs whenever that common length exceeds
`MAX_UNCODED` (the only lengths the encoder uses): below the threshold hash
may legitimately report a shorter length because it only searches the bucket
of the lookahead's 3-byte hash.  The tree strategy is excluded: its old
interface ignores the remaining lookahead length and can report a different
length even at a reachable position (see the counterexample). -/
theorem strategy_match_lengths (w : Window) (ls : ListState) (hs : HashState)
    (la : Lookahead) (wh uh len : Nat)
    (hlsi : ListInv ls w) (hhsi : HashInv hs w)
    (hwh : wh < WINDOW_SIZE) (huh : uh < MAX_CODED) :
    (FindMatchList ls w la uh len).length = (FindMatchBrute w la wh uh len).length ∧
    (FindMatchHash hs w la uh len).length ≤ (FindMatchBrute w la wh uh len).length ∧
    (MAX_UNCODED < (FindMatchBrute w la wh uh len).length →
      (FindMatchHash hs w la uh len).length =
        (FindMatchBrute w la wh uh len).length) := by
  by_cases hl : len ≤ MAX_UNCODED
  · have hb : FindMatchBrute w la wh uh len = ⟨0, 0⟩ := by
      unfold FindMatchBrute
      rw [if_pos hl]
    have hli : FindMatchList ls w la uh len = ⟨0, 0⟩ := by
      unfold FindMatchList
      rw [if_pos hl]
    have hha : FindMatchHash hs w la uh len = ⟨0, 0⟩ := by
      unfold FindMatchHash
      rw [if_pos hl]
    rw [hb, hli, hha]
    exact ⟨rfl, le_refl _, fun _ => rfl⟩
  · have hlen : MAX_UNCODED < len := by omega
    have huh18 : uh < 18 := huh
    have hu0 : uncodedOf la uh 0 = la uh := by
      show la (Wrap (uh + 0) MAX_CODED) = la uh
      congr 1
      show (uh + 0) % 18 = uh
      omega
    have hls' : BucketInv 256 ls.lists ls.nxt (fun i => (w i).val)
      (fun _ => False) := hlsi
    have hhs' : BucketInv HASH_SIZE hs.hashTable hs.nxt
      (fun i => hashKey w i WINDOW_SIZE) (fun _ => False) := hhsi
    obtain ⟨hLin, hLmem, hLnd⟩ := bucketInv_chainN hls'
    obtain ⟨hHin, hHmem, hHnd⟩ := bucketInv_chainN hhs'
    have hkeyfacts : ∀ i ∈ chainN ls.nxt (WINDOW_SIZE + 1) (ls.lists (la uh).val),
        i < WINDOW_SIZE ∧ w i = uncodedOf la uh 0 := by
      intro i hi
      have h2 := hLmem (la uh).val (la uh).isLt i hi
      have h4 : (w i).val = (la uh).val := h2.2
      refine ⟨h2.1, ?_⟩
      rw [hu0]
      exact Fin.ext h4
    have hLeq : maxLcp (lcpTrusted w (uncodedOf la uh) len)
          (chainN ls.nxt (WINDOW_SIZE + 1) (ls.lists (la uh).val)) =
        maxLcp (lcpChecked w (uncodedOf la uh) len) (rotFrom wh WINDOW_SIZE) := by
      apply Nat.le_antisymm
      · apply maxLcp_le_of_mem
        intro i hi
        obtain ⟨hiW, hwi⟩ := hkeyfacts i hi
        have he : lcpTrusted w (uncodedOf la uh) len i =
            lcpChecked w (uncodedOf la uh) len i := by
          unfold lcpChecked
          rw [if_pos hwi]
          rfl
        rw [he]
        exact le_maxLcp_of_mem2 _ _ i (mem_rotFrom i wh hiW hwh)
      · apply maxLcp_le_of_mem
        intro i hi
        have hiW := rotFrom_mem_lt wh WINDOW_SIZE i hi
        by_cases hwi : w i = uncodedOf la uh 0
        · have hmem := hLin i hiW
          have hkey : (w i).val = (la uh).val := by
            rw [hwi, hu0]
          have h3 : i ∈ chainN ls.nxt (WINDOW_SIZE + 1)
              (ls.lists ((w i).val)) := hmem.2
          rw [hkey] at h3
          have he : lcpChecked w (uncodedOf la uh) len i =
              lcpTrusted w (uncodedOf la uh) len i := by
            unfold lcpChecked
            rw [if_pos hwi]
            rfl
          rw [he]
          exact le_maxLcp_of_mem2 _ _ i h3
        · have he : lcpChecked w (uncodedOf la uh) len i = 0 := by
            unfold lcpChecked
            rw [if_neg hwi]
          rw [he]
          exact Nat.zero_le _
    have hHle : maxLcp (lcpChecked w (uncodedOf la uh) len)
          (chainN hs.nxt (WINDOW_SIZE + 1)
            (hs.hashTable (hashKey (uncodedOf la uh) 0 MAX_CODED))) ≤
        maxLcp (lcpChecked w (uncodedOf la uh) len) (rotFrom wh WINDOW_SIZE) := by
      apply maxLcp_le_of_mem
      intro i hi
      have h2 := hHmem (hashKey (uncodedOf la uh) 0 MAX_CODED)
        (hashKey_lt _ _ _) i hi
      exact le_maxLcp_of_mem2 _ _ i (mem_rotFrom i wh h2.1 hwh)
    have hHge : MAX_UNCODED < maxLcp (lcpChecked w (uncodedOf la uh) len)
          (rotFrom wh WINDOW_SIZE) →
        maxLcp (lcpChecked w (uncodedOf la uh) len) (rotFrom wh WINDOW_SIZE) ≤
        maxLcp (lcpChecked w (uncodedOf la uh) len)
          (chainN hs.nxt (WINDOW_SIZE + 1)
            (hs.hashTable (hashKey (uncodedOf la uh) 0 MAX_CODED))) := by
      intro hgt
      have hpos : 0 < (bestSpec (lcpChecked w (uncodedOf la uh) len)
          (rotFrom wh WINDOW_SIZE)).length := by
        rw [bestSpec_length]
        unfold MAX_UNCODED at hgt
        omega
      obtain ⟨hmem, hlcp⟩ := bestSpec_sound _ _ hpos
      have hvalid := bestSpec_lcpChecked_valid w (uncodedOf la uh) len
        (rotFrom wh WINDOW_SIZE) (rotFrom_mem_lt wh WINDOW_SIZE) hpos
      have hlen3 : 2 < (bestSpec (lcpChecked w (uncodedOf la uh) len)
          (rotFrom wh WINDOW_SIZE)).length := by
        rw [bestSpec_length]
        unfold MAX_UNCODED at hgt
        omega
      obtain ⟨o, ho⟩ : ∃ o, (bestSpec (lcpChecked w (uncodedOf la uh) len)
          (rotFrom wh WINDOW_SIZE)).offset = o := ⟨_, rfl⟩
      rw [ho] at hmem hlcp hvalid
      have hoW : o < WINDOW_SIZE := rotFrom_mem_lt wh WINDOW_SIZE o hmem
      have hkey : hashKey w o WINDOW_SIZE =
          hashKey (uncodedOf la uh) 0 MAX_CODED := by
        apply hashKey_congr
        intro i hi
        have hi3 : i < 3 := hi
        rw [show Wrap (0 + i) MAX_CODED = i from by
          show (0 + i) % 18 = i
          omega]
        exact hvalid i (by omega)
      have hHo := hHin o hoW
      have h3 : o ∈ chainN hs.nxt (WINDOW_SIZE + 1)
          (hs.hashTable (hashKey w o WINDOW_SIZE)) := hHo.2
      rw [hkey] at h3
      have hle := le_maxLcp_of_mem2 (lcpChecked w (uncodedOf la uh) len) _ o h3
      calc maxLcp (lcpChecked w (uncodedOf la uh) len) (rotFrom wh WINDOW_SIZE)
          = (bestSpec (lcpChecked w (uncodedOf la uh) len)
              (rotFrom wh WINDOW_SIZE)).length := (bestSpec_length _ _).symm
        _ = lcpChecked w (uncodedOf la uh) len o := hlcp.symm
        _ ≤ _ := hle
    rw [FindMatchBrute_eq w la wh uh len hlen hwh,
      FindMatchList_eq ls w la uh len hlen,
      FindMatchHash_eq hs w la uh len hlen]
    simp only [bestSpec_length]
    exact ⟨hLeq, hHle, fun hgt => Nat.le_antisymm hHle (hHge hgt)⟩

/-- Witness for C2 at the initialized list and hash structures over the
all-space window. -/
theorem strategy_match_lengths_witness :
    (FindMatchList (initListState initWindow) initWindow
        (fun _ => (0 : Byte)) 0 3).length =
      (FindMatchBrute initWindow (fun _ => (0 : Byte)) 0 0 3).length := by
  exact (strategy_match_lengths initWindow (initListState initWindow)
    (initHashState initWindow) (fun _ => (0 : Byte)) 0 0 3
    (initListState_inv initWindow (fun _ _ => rfl))
    (initHashState_inv initWindow (fun _ _ => rfl))
    (by decide) (by decide)).1

/-- Counterexample to C2 as stated: at the very first `FindMatch` call of the
encoding run on `S = [32, 65, 66]` — window filled with spaces, search
structures freshly initialized over it, `windowHead = uncodedHead = 0`,
`uncodedLen = min MAX_CODED 3 = 3`, exactly the state `encodeLZSS` passes to
the first probe — the tree strategy reports a match of length `1` (the
leading space matches the root's string) but the hash strategy reports `0`:
the bucket of the lookahead's 3-byte hash (`32,65,66`) is empty, so the four
strategies do not return the same length at a reached position. -/
theorem strategy_same_length_counterexample :
    (FindMatchTree initTreeState initWindow
      (loadLookahead (fun _ => (0 : Byte))
        [(32 : Byte), (65 : Byte), (66 : Byte)]) 0 0).length = 1 ∧
    (FindMatchHash (initHashState initWindow) initWindow
      (loadLookahead (fun _ => (0 : Byte))
        [(32 : Byte), (65 : Byte), (66 : Byte)]) 0 (min MAX_CODED 3)).length = 0 := by
  refine ⟨by decide, by decide⟩

end LZSS
